/-
Verification of the lease-assignment core of the Lease-Generation repository
(SHEL / C-SHEL / PRL lease generation, files src/lease_gen.rs and src/io.rs)
against its natural-language specification.

Embedding conventions:
* Rust HashMaps become association lists with distinct keys (the Nodup
  hypotheses record the HashMap key discipline); iteration order is fixed to
  list order, and every place where the Rust iteration order could matter is
  noted at its definition.
* u64 becomes Nat.  Subtraction sites are Nat truncated subtraction; where a
  claim asserts absence of underflow we prove the corresponding inequality.
* f64 becomes the explicit fraction type Fr below (exact rational arithmetic,
  kernel computable), interpreted into the rationals by Fr.toQ.  All concrete
  counterexample runs are chosen so that every f64 operation the real program
  would perform on them is exact (small halves and integers), hence the exact
  model and IEEE double arithmetic agree on those runs.
* bit operations on packed ids become div / mod by powers of two, which agree
  with the Rust mask-and-shift expressions on all inputs.
-/
import Mathlib

set_option maxRecDepth 40000

/-! # Association list helpers (the HashMap embedding) -/

/-- Lookup in an association list (HashMap.get). -/
def alookup {β : Type} (k : Nat) : List (Nat × β) → Option β
  | [] => none
  | (a, b) :: t => if a = k then some b else alookup k t

/-- Insert or replace (HashMap.insert). The entry keeps its position when the
key is present and is appended otherwise. -/
def aset {β : Type} (k : Nat) (v : β) : List (Nat × β) → List (Nat × β)
  | [] => [(k, v)]
  | (a, b) :: t => if a = k then (k, v) :: t else (a, b) :: aset k v t

/-- HashMap entry(k).or_insert(d) followed by an in-place update f. -/
def aupd {β : Type} (k : Nat) (d : β) (f : β → β) : List (Nat × β) → List (Nat × β)
  | [] => [(k, f d)]
  | (a, b) :: t => if a = k then (a, f b) :: t else (a, b) :: aupd k d f t

/-- Lookup with a default (HashMap.get with unwrap_or / or_default). -/
def aget {β : Type} (k : Nat) (d : β) (l : List (Nat × β)) : β :=
  (alookup k l).getD d

theorem alookup_aset {β : Type} (k j : Nat) (v : β) (l : List (Nat × β)) :
    alookup j (aset k v l) = if k = j then some v else alookup j l := by
  induction l with
  | nil => simp only [aset, alookup]
  | cons e t ih =>
    obtain ⟨a, b⟩ := e
    simp only [aset]
    by_cases hak : a = k
    · subst hak
      simp only [if_pos rfl, alookup]
      by_cases haj : a = j <;> simp [haj]
    · simp only [if_neg hak, alookup, ih]
      by_cases haj : a = j <;> by_cases hkj : k = j <;> simp [haj, hkj] <;> omega

theorem alookup_aupd {β : Type} (k j : Nat) (d : β) (f : β → β) (l : List (Nat × β)) :
    alookup j (aupd k d f l) =
      if k = j then some (f ((alookup k l).getD d)) else alookup j l := by
  induction l with
  | nil => simp [aupd, alookup]
  | cons e t ih =>
    obtain ⟨a, b⟩ := e
    simp only [aupd]
    by_cases hak : a = k
    · subst hak
      simp only [if_pos rfl, alookup]
      by_cases haj : a = j <;> simp [haj]
    · simp only [if_neg hak, alookup, ih]
      by_cases haj : a = j <;> by_cases hkj : k = j <;>
        simp [haj, hkj, alookup] <;> omega

theorem aget_aupd {β : Type} (k j : Nat) (d d2 : β) (f : β → β) (l : List (Nat × β)) :
    aget j d2 (aupd k d f l) = if k = j then f (aget k d l) else aget j d2 l := by
  unfold aget
  rw [alookup_aupd]
  by_cases h : k = j <;> simp [h]

/-! # Exact fractions: the f64 embedding

The program stores and compares f64 probabilities (alpha values, saturation
levels).  We embed them as unreduced fractions of integers.  Every operation
below is exact rational arithmetic; Fr.toQ interprets a fraction in ℚ.  A
fraction is well formed (Fr.wf) when its denominator is positive; every
operation the embedded code performs preserves well-formedness at its use
sites (divisions are guarded by positivity tests in the source). -/

structure Fr where
  num : Int
  den : Int
  deriving DecidableEq, Repr

namespace Fr

def wf (x : Fr) : Prop := 0 < x.den

instance (x : Fr) : Decidable x.wf := by unfold wf; infer_instance

def toQ (x : Fr) : ℚ := (x.num : ℚ) / (x.den : ℚ)

def ofNat (n : Nat) : Fr := ⟨n, 1⟩

def one : Fr := ⟨1, 1⟩

def zero : Fr := ⟨0, 1⟩

def add (a b : Fr) : Fr := ⟨a.num * b.den + b.num * a.den, a.den * b.den⟩

def mul (a b : Fr) : Fr := ⟨a.num * b.num, a.den * b.den⟩

def sub (a b : Fr) : Fr := ⟨a.num * b.den - b.num * a.den, a.den * b.den⟩

/-- Division, normalizing the sign of the denominator so that well-formedness
is preserved whenever the divisor is nonzero. -/
def div (a b : Fr) : Fr :=
  if 0 ≤ b.num then ⟨a.num * b.den, a.den * b.num⟩
  else ⟨-(a.num * b.den), -(a.den * b.num)⟩

def blt (a b : Fr) : Bool := a.num * b.den < b.num * a.den

def ble (a b : Fr) : Bool := a.num * b.den ≤ b.num * a.den

/-- helpers::float_min.  Modelled from the spec: the helpers.rs module is not
among the provided sources; all call sites use it as the f64 minimum. -/
def fmin (a b : Fr) : Fr := if blt a b then a else b

/-- f64::round() as u64 on a nonnegative value: nearest integer, halves away
from zero; a negative argument saturates to 0, as the Rust cast does. -/
def roundNat (x : Fr) : Nat := (Int.fdiv (2 * x.num + x.den) (2 * x.den)).toNat

/-- plain `as u64` cast of a nonnegative f64: truncation toward zero; a
negative argument saturates to 0. -/
def floorNat (x : Fr) : Nat := (Int.fdiv x.num x.den).toNat

theorem toQ_ofNat (n : Nat) : toQ (ofNat n) = (n : ℚ) := by
  simp [toQ, ofNat]

theorem toQ_one : toQ one = 1 := by simp [toQ, one]

theorem wf_den_ne {x : Fr} (hx : x.wf) : (x.den : ℚ) ≠ 0 := by
  have : (0 : ℚ) < (x.den : ℚ) := by exact_mod_cast hx
  exact ne_of_gt this

theorem toQ_add {a b : Fr} (ha : a.wf) (hb : b.wf) : toQ (add a b) = toQ a + toQ b := by
  unfold toQ add
  push_cast
  rw [div_add_div _ _ (wf_den_ne ha) (wf_den_ne hb)]
  ring_nf

theorem toQ_sub {a b : Fr} (ha : a.wf) (hb : b.wf) : toQ (sub a b) = toQ a - toQ b := by
  unfold toQ sub
  push_cast
  rw [div_sub_div _ _ (wf_den_ne ha) (wf_den_ne hb)]
  ring_nf

theorem toQ_mul (a b : Fr) : toQ (mul a b) = toQ a * toQ b := by
  unfold toQ mul
  push_cast
  rw [div_mul_div_comm]

theorem wf_add {a b : Fr} (ha : a.wf) (hb : b.wf) : (add a b).wf := by
  unfold wf add at *
  exact mul_pos ha hb

theorem wf_sub {a b : Fr} (ha : a.wf) (hb : b.wf) : (sub a b).wf := by
  unfold wf sub at *
  exact mul_pos ha hb

theorem wf_mul {a b : Fr} (ha : a.wf) (hb : b.wf) : (mul a b).wf := by
  unfold wf mul at *
  exact mul_pos ha hb

theorem wf_div {a b : Fr} (ha : a.wf) (hb : b.num ≠ 0) : (div a b).wf := by
  unfold wf div at *
  rcases lt_trichotomy b.num 0 with h | h | h
  · rw [if_neg (by omega)]
    simp only
    have : a.den * b.num < 0 := mul_neg_of_pos_of_neg ha h
    omega
  · exact absurd h hb
  · rw [if_pos (le_of_lt h)]
    exact mul_pos ha h

theorem toQ_div {a b : Fr} (ha : a.wf) (hb : b.wf) : toQ (div a b) = toQ a / toQ b := by
  have key : (a.num : ℚ) / a.den / ((b.num : ℚ) / b.den)
      = ((a.num : ℚ) * b.den) / ((a.den : ℚ) * b.num) := by
    rw [div_div_eq_mul_div, div_mul_eq_mul_div, div_div]
  unfold toQ div
  by_cases h : 0 ≤ b.num
  · rw [if_pos h]
    push_cast
    rw [key]
  · rw [if_neg h]
    push_cast
    rw [neg_div_neg_eq, key]

theorem blt_iff {a b : Fr} (ha : a.wf) (hb : b.wf) : blt a b = true ↔ toQ a < toQ b := by
  unfold blt toQ
  rw [div_lt_div_iff (by exact_mod_cast ha) (by exact_mod_cast hb)]
  constructor
  · intro h
    exact_mod_cast of_decide_eq_true h
  · intro h
    simp only [decide_eq_true_eq]
    exact_mod_cast h

theorem ble_iff {a b : Fr} (ha : a.wf) (hb : b.wf) : ble a b = true ↔ toQ a ≤ toQ b := by
  unfold ble toQ
  rw [div_le_div_iff (by exact_mod_cast ha) (by exact_mod_cast hb)]
  constructor
  · intro h
    exact_mod_cast of_decide_eq_true h
  · intro h
    simp only [decide_eq_true_eq]
    exact_mod_cast h

theorem wf_fmin {a b : Fr} (ha : a.wf) (hb : b.wf) : (fmin a b).wf := by
  unfold fmin
  by_cases h : blt a b <;> simp [h, ha, hb]

theorem toQ_fmin {a b : Fr} (ha : a.wf) (hb : b.wf) :
    toQ (fmin a b) = min (toQ a) (toQ b) := by
  unfold fmin
  by_cases h : blt a b = true
  · rw [if_pos h]
    exact (min_eq_left (le_of_lt ((blt_iff ha hb).1 h))).symm
  · have hnot : ¬ toQ a < toQ b := fun hc => h ((blt_iff ha hb).2 hc)
    rw [if_neg (by simpa using h)]
    exact (min_eq_right (le_of_not_lt hnot)).symm

theorem fdiv_floor (n : ℤ) {d : ℤ} (hd : 0 < d) :
    Int.fdiv n d = ⌊(n : ℚ) / (d : ℚ)⌋ := by
  rw [Int.fdiv_eq_ediv _ (le_of_lt hd)]
  have h := Rat.floor_intCast_div_natCast n d.toNat
  have hd2 : ((d.toNat : ℕ) : ℤ) = d := Int.toNat_of_nonneg (le_of_lt hd)
  have hcast : ((d.toNat : ℕ) : ℚ) = (d : ℚ) := by exact_mod_cast hd2
  rw [hcast, hd2] at h
  exact h.symm

theorem floorNat_eq {x : Fr} (hx : x.wf) : (floorNat x : ℤ) = max ⌊toQ x⌋ 0 := by
  unfold floorNat toQ
  rw [fdiv_floor _ (show (0:ℤ) < x.den from hx)]
  omega

/-- Truncated casting of a nonnegative exact value is bounded by any natural
bound on the value; used for the back-adjustment commits. -/
theorem floorNat_le {x : Fr} (hx : x.wf) {r : Nat} (h : toQ x ≤ (r : ℚ)) :
    floorNat x ≤ r := by
  have h2 := floorNat_eq hx
  have hfl : ⌊toQ x⌋ ≤ (r : ℤ) := by
    have := Int.floor_le_floor h
    simpa using this
  omega

end Fr

/-! # The reuse-interval histogram data model (lease_gen.rs, RIHists)

The source maps set_phase_ref to a map from reuse interval to a pair of the
sample count and a per-phase cost record {ref_id: {ri: (count, {phase_id:
(head_cost, tail_cost)})}}. -/

structure CostRec where
  head : Nat
  tail : Nat
  deriving DecidableEq, Repr

structure RiEntry where
  cnt : Nat
  costs : List (Nat × CostRec)
  deriving DecidableEq, Repr

abbrev RefHist := List (Nat × RiEntry)

abbrev RIHists := List (Nat × RefHist)

/-! # The PPUC engine (lease_gen.rs, get_ppuc)

The source struct PPUC carries the f64 quotient ppuc together with new_hits.
The embedding keeps the two integer deltas the quotient is formed from; the
f64 field is PPUC.ppuc below and new_hits is the hit delta. -/

structure PPUC where
  hitsDelta : Nat
  costDelta : Nat
  lease : Nat
  old_lease : Nat
  ref_id : Nat
  deriving DecidableEq, Repr

/-- The f64 ppuc field: hit delta over cost delta. -/
def PPUC.ppuc (p : PPUC) : Fr := ⟨p.hitsDelta, p.costDelta⟩

def PPUC.new_hits (p : PPUC) : Nat := p.hitsDelta

/-- ri_hist_clone.sort_by on the first component. -/
def sortByRi (l : List (Nat × Nat)) : List (Nat × Nat) :=
  List.insertionSort (fun a b => a.1 ≤ b.1) l

/-- The loop of get_ppuc filling lease_hit_table and lease_cost_table: one
scan over the sorted histogram accumulating hits and head_cost; each table
entry is (ri, hits so far, head cost so far plus tail cost at ri). -/
def scanTables (total : Nat) : Nat → Nat → List (Nat × Nat) → List (Nat × Nat × Nat)
  | _, _, [] => []
  | hits, head, (ri, cnt) :: t =>
    let hits2 := hits + cnt
    let head2 := head + cnt * ri
    (ri, hits2, head2 + (total - hits2) * ri) :: scanTables total hits2 head2 t

/-- lease_hit_table.get: the table was seeded with (base_lease, 0) before the
scan, so a key absent from the scan output reads as 0 (only the base lease is
ever queried among such keys). -/
def tabHits (tabs : List (Nat × Nat × Nat)) (k : Nat) : Nat :=
  match tabs.find? (fun e => e.1 == k) with
  | some e => e.2.1
  | none => 0

/-- lease_cost_table.get, with the same seeding convention. -/
def tabCost (tabs : List (Nat × Nat × Nat)) (k : Nat) : Nat :=
  match tabs.find? (fun e => e.1 == k) with
  | some e => e.2.2
  | none => 0

/-- lease_gen.rs get_ppuc.  The subtraction sites are u64 subtractions in the
source; they are Nat truncated subtraction here, and the amended claim C2
shows the tables are monotone along the filter so no underflow occurs. -/
def get_ppuc (ref_id base_lease : Nat) (ref_ri_hist : RefHist) : List PPUC :=
  let ri_hist : List (Nat × Nat) := ref_ri_hist.map (fun e => (e.1, e.2.cnt))
  let total_count := (ri_hist.map (fun e => e.2)).sum
  let sorted := sortByRi ri_hist
  let tabs := scanTables total_count 0 0 sorted
  ((sorted.map (fun e => e.1)).filter (fun k => decide (base_lease < k))).map (fun k =>
    { hitsDelta := tabHits tabs k - tabHits tabs base_lease
      costDelta := tabCost tabs k - tabCost tabs base_lease
      lease := k
      old_lease := base_lease
      ref_id := ref_id })

/-! ## The closed-form hit and cost tables (the formulas of the claims) -/

/-- hits(L): sum of count(ri) over sampled ri with ri at most L. -/
def hitsLe (hist : List (Nat × Nat)) (L : Nat) : Nat :=
  ((hist.filter (fun e => e.1 ≤ L)).map (fun e => e.2)).sum

/-- head part of cost(L): sum of count(ri) times ri over ri at most L. -/
def headLe (hist : List (Nat × Nat)) (L : Nat) : Nat :=
  ((hist.filter (fun e => e.1 ≤ L)).map (fun e => e.2 * e.1)).sum

def totalCount (hist : List (Nat × Nat)) : Nat :=
  (hist.map (fun e => e.2)).sum

/-- cost(L) of the specification: head part plus (total_count minus hits(L))
times L. -/
def costLe (hist : List (Nat × Nat)) (L : Nat) : Nat :=
  headLe hist L + (totalCount hist - hitsLe hist L) * L

/-- What the hit table of get_ppuc actually holds at the base lease: the
closed-form value when the base lease is a sampled reuse interval, and the
pre-seeded 0 otherwise. -/
def baseHits (hist : List (Nat × Nat)) (base : Nat) : Nat :=
  if base ∈ hist.map (fun e => e.1) then hitsLe hist base else 0

/-- What the cost table of get_ppuc actually holds at the base lease. -/
def baseCost (hist : List (Nat × Nat)) (base : Nat) : Nat :=
  if base ∈ hist.map (fun e => e.1) then costLe hist base else 0

theorem hitsLe_le_total (hist : List (Nat × Nat)) (L : Nat) :
    hitsLe hist L ≤ totalCount hist := by
  induction hist with
  | nil => simp [hitsLe, totalCount]
  | cons e t ih =>
    unfold hitsLe totalCount at *
    by_cases h : e.1 ≤ L <;> simp [List.filter_cons, h] <;> omega

theorem hitsLe_cons (e : Nat × Nat) (t : List (Nat × Nat)) (L : Nat) :
    hitsLe (e :: t) L = (if e.1 ≤ L then e.2 else 0) + hitsLe t L := by
  unfold hitsLe
  by_cases h : e.1 ≤ L <;> simp [List.filter_cons, h]

theorem headLe_cons (e : Nat × Nat) (t : List (Nat × Nat)) (L : Nat) :
    headLe (e :: t) L = (if e.1 ≤ L then e.2 * e.1 else 0) + headLe t L := by
  unfold headLe
  by_cases h : e.1 ≤ L <;> simp [List.filter_cons, h]

theorem totalCount_cons (e : Nat × Nat) (t : List (Nat × Nat)) :
    totalCount (e :: t) = e.2 + totalCount t := by
  simp [totalCount]

/-- cost(L) is the sum over the histogram of count times min(ri, L). -/
theorem costLe_eq_sum_min (hist : List (Nat × Nat)) (L : Nat) :
    costLe hist L = (hist.map (fun e => e.2 * min e.1 L)).sum := by
  induction hist with
  | nil => simp [costLe, headLe, totalCount, hitsLe]
  | cons e t ih =>
    have htot := hitsLe_le_total t L
    unfold costLe at ih ⊢
    rw [headLe_cons, totalCount_cons, hitsLe_cons, List.map_cons, List.sum_cons]
    by_cases h : e.1 ≤ L
    · rw [if_pos h, if_pos h, min_eq_left h]
      generalize headLe t L = A at *
      generalize totalCount t = B at *
      generalize hitsLe t L = C at *
      generalize (t.map (fun e => e.2 * min e.1 L)).sum = D at *
      have h1 : e.2 + B - (e.2 + C) = B - C := by omega
      rw [h1]
      omega
    · rw [if_neg h, if_neg h, min_eq_right (Nat.le_of_lt (Nat.lt_of_not_le h))]
      generalize headLe t L = A at *
      generalize totalCount t = B at *
      generalize hitsLe t L = C at *
      generalize (t.map (fun e => e.2 * min e.1 L)).sum = D at *
      have h1 : e.2 + B - (0 + C) = e.2 + (B - C) := by omega
      rw [h1, Nat.add_mul]
      omega

theorem hitsLe_zero_of_gt {l : List (Nat × Nat)} {k : Nat} (h : ∀ e ∈ l, k < e.1) :
    hitsLe l k = 0 := by
  induction l with
  | nil => simp [hitsLe]
  | cons e t ih =>
    rw [hitsLe_cons, if_neg (by
      have := h e (by simp)
      omega), ih (fun x hx => h x (by simp [hx]))]

theorem headLe_zero_of_gt {l : List (Nat × Nat)} {k : Nat} (h : ∀ e ∈ l, k < e.1) :
    headLe l k = 0 := by
  induction l with
  | nil => simp [headLe]
  | cons e t ih =>
    rw [headLe_cons, if_neg (by
      have := h e (by simp)
      omega), ih (fun x hx => h x (by simp [hx]))]

theorem scanTables_spec (total : Nat) (l : List (Nat × Nat)) (h0 c0 : Nat)
    (hs : l.Pairwise (fun a b => a.1 < b.1)) :
    ∀ k ∈ l.map (fun e => e.1),
      tabHits (scanTables total h0 c0 l) k = h0 + hitsLe l k ∧
      tabCost (scanTables total h0 c0 l) k =
        c0 + headLe l k + (total - (h0 + hitsLe l k)) * k := by
  induction l generalizing h0 c0 with
  | nil => simp
  | cons e t ih =>
    obtain ⟨ri, cnt⟩ := e
    rw [List.pairwise_cons] at hs
    obtain ⟨hfirst, ht⟩ := hs
    intro k hk
    rw [List.map_cons, List.mem_cons] at hk
    unfold scanTables
    rcases hk with hk | hk
    · subst hk
      have hz : hitsLe t k = 0 := hitsLe_zero_of_gt (fun x hx => by simpa using hfirst x hx)
      have hzh : headLe t k = 0 := headLe_zero_of_gt (fun x hx => by simpa using hfirst x hx)
      constructor
      · rw [tabHits, List.find?_cons_of_pos _ (by simp), hitsLe_cons]
        simp [hz]
      · rw [tabCost, List.find?_cons_of_pos _ (by simp), hitsLe_cons, headLe_cons]
        simp only [le_refl, if_pos, hz, hzh, Nat.add_zero]
    · have hlt : ri < k := by
        rw [List.mem_map] at hk
        obtain ⟨x, hx, hxe⟩ := hk
        have := hfirst x hx
        omega
      have hne : ((ri : Nat) == k) = false := by
        simp
        omega
      have hih := ih (h0 + cnt) (c0 + cnt * ri) ht k hk
      constructor
      · rw [tabHits, List.find?_cons_of_neg _ (by simp [hne]), ← tabHits, hih.1,
          hitsLe_cons, if_pos (by omega)]
        omega
      · rw [tabCost, List.find?_cons_of_neg _ (by simp [hne]), ← tabCost, hih.2,
          hitsLe_cons, headLe_cons, if_pos (by omega), if_pos (by omega)]
        dsimp only
        have hx : total - (h0 + cnt + hitsLe t k) = total - (h0 + (cnt + hitsLe t k)) := by
          omega
        rw [hx]
        omega

theorem scanTables_keys (total : Nat) (h0 c0 : Nat) (l : List (Nat × Nat)) :
    (scanTables total h0 c0 l).map (fun e => e.1) = l.map (fun e => e.1) := by
  induction l generalizing h0 c0 with
  | nil => rfl
  | cons e t ih =>
    obtain ⟨ri, cnt⟩ := e
    unfold scanTables
    simp [ih]

theorem tabHits_not_mem {tabs : List (Nat × Nat × Nat)} {k : Nat}
    (h : k ∉ tabs.map (fun e => e.1)) : tabHits tabs k = 0 := by
  rw [tabHits, List.find?_eq_none.2]
  intro x hx
  simp only [beq_iff_eq]
  intro hc
  exact h (by
    rw [List.mem_map]
    exact ⟨x, hx, hc⟩)

theorem tabCost_not_mem {tabs : List (Nat × Nat × Nat)} {k : Nat}
    (h : k ∉ tabs.map (fun e => e.1)) : tabCost tabs k = 0 := by
  rw [tabCost, List.find?_eq_none.2]
  intro x hx
  simp only [beq_iff_eq]
  intro hc
  exact h (by
    rw [List.mem_map]
    exact ⟨x, hx, hc⟩)

theorem sortByRi_perm (l : List (Nat × Nat)) : (sortByRi l).Perm l :=
  List.perm_insertionSort _ l

theorem sortByRi_pairwise (l : List (Nat × Nat))
    (hnd : (l.map (fun e => e.1)).Nodup) :
    (sortByRi l).Pairwise (fun a b => a.1 < b.1) := by
  haveI : IsTotal (Nat × Nat) (fun a b => a.1 ≤ b.1) := ⟨fun a b => Nat.le_total a.1 b.1⟩
  haveI : IsTrans (Nat × Nat) (fun a b => a.1 ≤ b.1) := ⟨fun a b c h1 h2 => le_trans h1 h2⟩
  have hs : (sortByRi l).Pairwise (fun a b => a.1 ≤ b.1) :=
    List.sorted_insertionSort _ l
  have hnd2 : ((sortByRi l).map (fun e => e.1)).Nodup :=
    (((sortByRi_perm l).map (fun e => e.1)).nodup_iff).2 hnd
  have hne : (sortByRi l).Pairwise (fun a b => a.1 ≠ b.1) :=
    List.pairwise_map.1 hnd2
  exact (hs.and hne).imp (fun h => lt_of_le_of_ne h.1 h.2)

theorem hitsLe_perm {l l2 : List (Nat × Nat)} (h : l.Perm l2) (L : Nat) :
    hitsLe l L = hitsLe l2 L :=
  ((h.filter _).map _).sum_eq

theorem headLe_perm {l l2 : List (Nat × Nat)} (h : l.Perm l2) (L : Nat) :
    headLe l L = headLe l2 L :=
  ((h.filter _).map _).sum_eq

theorem totalCount_perm {l l2 : List (Nat × Nat)} (h : l.Perm l2) :
    totalCount l = totalCount l2 :=
  (h.map _).sum_eq

theorem costLe_perm {l l2 : List (Nat × Nat)} (h : l.Perm l2) (L : Nat) :
    costLe l L = costLe l2 L := by
  unfold costLe
  rw [hitsLe_perm h, headLe_perm h, totalCount_perm h]

/-- The projection of a reference histogram used by get_ppuc: the collect of
(ri, count) pairs. -/
def cntHist (h : RefHist) : List (Nat × Nat) := h.map (fun e => (e.1, e.2.cnt))

/-- Characterization of get_ppuc: one record for each sampled reuse interval
above the base lease, whose deltas are differences of the closed-form tables,
with the base value read through the table seeded at 0. -/
theorem get_ppuc_eq (r base : Nat) (h : RefHist)
    (hnd : ((cntHist h).map (fun e => e.1)).Nodup) :
    get_ppuc r base h =
      (((sortByRi (cntHist h)).map (fun e => e.1)).filter
          (fun k => decide (base < k))).map (fun k =>
        { hitsDelta := hitsLe (cntHist h) k - baseHits (cntHist h) base
          costDelta := costLe (cntHist h) k - baseCost (cntHist h) base
          lease := k
          old_lease := base
          ref_id := r }) := by
  unfold get_ppuc
  rw [← cntHist]
  apply List.map_congr_left
  intro k hk
  rw [List.mem_filter] at hk
  obtain ⟨hkmem, _⟩ := hk
  have hperm := sortByRi_perm (cntHist h)
  have hpw := sortByRi_pairwise (cntHist h) hnd
  have hspec := scanTables_spec (totalCount (cntHist h)) (sortByRi (cntHist h)) 0 0 hpw
  have htot : ((cntHist h).map (fun e => e.2)).sum = totalCount (cntHist h) := rfl
  rw [htot]
  have hk2 := hspec k hkmem
  have hkhits : tabHits (scanTables (totalCount (cntHist h)) 0 0 (sortByRi (cntHist h))) k
      = hitsLe (cntHist h) k := by
    rw [hk2.1, hitsLe_perm hperm]
    omega
  have hkcost : tabCost (scanTables (totalCount (cntHist h)) 0 0 (sortByRi (cntHist h))) k
      = costLe (cntHist h) k := by
    rw [hk2.2]
    simp only [Nat.zero_add]
    rw [hitsLe_perm hperm, headLe_perm hperm, costLe]
  have hbhits : tabHits (scanTables (totalCount (cntHist h)) 0 0 (sortByRi (cntHist h))) base
      = baseHits (cntHist h) base := by
    by_cases hb : base ∈ (sortByRi (cntHist h)).map (fun e => e.1)
    · have hb2 := hspec base hb
      rw [hb2.1, hitsLe_perm hperm]
      unfold baseHits
      rw [if_pos (by
        have := (hperm.map (fun e => e.1)).mem_iff.1 hb
        exact this)]
      omega
    · rw [tabHits_not_mem (by rwa [scanTables_keys])]
      unfold baseHits
      rw [if_neg (by
        intro hc
        exact hb (((hperm.map (fun e => e.1)).mem_iff).2 hc))]
  have hbcost : tabCost (scanTables (totalCount (cntHist h)) 0 0 (sortByRi (cntHist h))) base
      = baseCost (cntHist h) base := by
    by_cases hb : base ∈ (sortByRi (cntHist h)).map (fun e => e.1)
    · have hb2 := hspec base hb
      rw [hb2.2]
      simp only [Nat.zero_add]
      rw [hitsLe_perm hperm, headLe_perm hperm]
      unfold baseCost
      rw [if_pos (by
        have := (hperm.map (fun e => e.1)).mem_iff.1 hb
        exact this), costLe]
    · rw [tabCost_not_mem (by rwa [scanTables_keys])]
      unfold baseCost
      rw [if_neg (by
        intro hc
        exact hb (((hperm.map (fun e => e.1)).mem_iff).2 hc))]
  rw [hkhits, hkcost, hbhits, hbcost]

/-- Strict growth of the cost table between a lease and a larger sampled
reuse interval (counts positive). -/
theorem costLe_strict (hist : List (Nat × Nat)) (hpos : ∀ e ∈ hist, 0 < e.2)
    {b k : Nat} (hbk : b < k) (hk : k ∈ hist.map (fun e => e.1)) :
    costLe hist b < costLe hist k := by
  rw [costLe_eq_sum_min, costLe_eq_sum_min]
  apply List.sum_lt_sum
  · intro e _
    exact Nat.mul_le_mul_left _ (min_le_min (le_refl e.1) (le_of_lt hbk))
  · rw [List.mem_map] at hk
    obtain ⟨e, he, hek⟩ := hk
    refine ⟨e, he, ?_⟩
    have hc := hpos e he
    rw [hek, min_self, min_eq_right (le_of_lt hbk)]
    exact mul_lt_mul_of_pos_left hbk hc

/-- The cost table is positive at any sampled reuse interval above the base
lease (counts positive). -/
theorem costLe_pos (hist : List (Nat × Nat)) (hpos : ∀ e ∈ hist, 0 < e.2)
    {k : Nat} (hk1 : 1 ≤ k) (hk : k ∈ hist.map (fun e => e.1)) :
    0 < costLe hist k := by
  rw [costLe_eq_sum_min]
  rw [List.mem_map] at hk
  obtain ⟨e, he, hek⟩ := hk
  have hterm : 0 < e.2 * min e.1 k := by
    have := hpos e he
    rw [hek, min_self]
    exact Nat.mul_pos this (by omega)
  calc 0 < e.2 * min e.1 k := hterm
    _ ≤ _ := List.single_le_sum (fun x _ => Nat.zero_le x) _
      (List.mem_map_of_mem (fun e => e.2 * min e.1 k) he)

/-- Claim C2, counterexample.  Histogram with reuse intervals 1 and 3 (count
one each) and base lease 2, which is not a sampled interval: the single
emitted candidate (lease 3) carries new_hits = 2, because the table value at
the base lease is the pre-seeded 0, whereas the formula of the claim,
hits(3) - hits(2), gives 1.  Hence the claim as stated is false. -/
theorem C2_counterexample :
    (get_ppuc 7 2 [(1, ⟨1, []⟩), (3, ⟨1, []⟩)]).map PPUC.new_hits = [2] ∧
    hitsLe (cntHist [(1, ⟨1, []⟩), (3, ⟨1, []⟩)]) 3
      - hitsLe (cntHist [(1, ⟨1, []⟩), (3, ⟨1, []⟩)]) 2 = 1 ∧
    ¬ (∀ p ∈ get_ppuc 7 2 [(1, ⟨1, []⟩), (3, ⟨1, []⟩)],
        p.new_hits = hitsLe (cntHist [(1, ⟨1, []⟩), (3, ⟨1, []⟩)]) p.lease
          - hitsLe (cntHist [(1, ⟨1, []⟩), (3, ⟨1, []⟩)]) 2) := by
  refine ⟨by decide, by decide, by decide⟩

/-- Claim C2, amended: for every reference RI histogram (with the HashMap key
discipline) and every base lease b, get_ppuc emits one record per candidate
lease L that appears in the histogram with L > b (in ascending order of L),
and each record satisfies new_hits = hits(L) - hits_tab(b) and cost delta =
cost(L) - cost_tab(b), with hits(L) = sum of count(ri) over ri ≤ L and
cost(L) = head cost plus tail cost as in the claim; here hits_tab(b) and
cost_tab(b) equal hits(b) and cost(b) when b itself is a sampled reuse
interval and equal the pre-seeded table value 0 otherwise (this last
conditional is what the counterexample forces: the claim evaluated the base
entries by the closed formulas unconditionally).  The f64 ppuc field is the
quotient of the two deltas. -/
theorem C2_amended (r base : Nat) (h : RefHist)
    (hnd : ((cntHist h).map (fun e => e.1)).Nodup) :
    ((get_ppuc r base h).map (fun p => p.lease)).Perm
      (((cntHist h).map (fun e => e.1)).filter (fun k => decide (base < k))) ∧
    ∀ p ∈ get_ppuc r base h,
      p.new_hits = hitsLe (cntHist h) p.lease - baseHits (cntHist h) base ∧
      p.costDelta = costLe (cntHist h) p.lease - baseCost (cntHist h) base ∧
      p.old_lease = base ∧ p.ref_id = r := by
  rw [get_ppuc_eq r base h hnd]
  constructor
  · rw [List.map_map]
    have : ((fun p : PPUC => p.lease) ∘ fun k =>
        ({ hitsDelta := hitsLe (cntHist h) k - baseHits (cntHist h) base
           costDelta := costLe (cntHist h) k - baseCost (cntHist h) base
           lease := k, old_lease := base, ref_id := r } : PPUC)) = fun k => k := rfl
    rw [this, show (fun k : Nat => k) = id from rfl, List.map_id]
    exact ((sortByRi_perm (cntHist h)).map (fun e => e.1)).filter _
  · intro p hp
    rw [List.mem_map] at hp
    obtain ⟨k, _, hpk⟩ := hp
    subst hpk
    exact ⟨rfl, rfl, rfl, rfl⟩

/-- Claim C2, witness for the amended theorem: concrete histogram with
intervals 2 and 5 and base lease 2. -/
theorem C2_amended_witness :
    ((cntHist [(2, ⟨3, []⟩), (5, ⟨4, []⟩)]).map (fun e => e.1)).Nodup ∧
    (((get_ppuc 9 2 [(2, ⟨3, []⟩), (5, ⟨4, []⟩)]).map (fun p => p.lease)).Perm
        (((cntHist [(2, ⟨3, []⟩), (5, ⟨4, []⟩)]).map (fun e => e.1)).filter
          (fun k => decide (2 < k))) ∧
      ∀ p ∈ get_ppuc 9 2 [(2, ⟨3, []⟩), (5, ⟨4, []⟩)],
        p.new_hits = hitsLe (cntHist [(2, ⟨3, []⟩), (5, ⟨4, []⟩)]) p.lease
            - baseHits (cntHist [(2, ⟨3, []⟩), (5, ⟨4, []⟩)]) 2 ∧
        p.costDelta = costLe (cntHist [(2, ⟨3, []⟩), (5, ⟨4, []⟩)]) p.lease
            - baseCost (cntHist [(2, ⟨3, []⟩), (5, ⟨4, []⟩)]) 2 ∧
        p.old_lease = 2 ∧ p.ref_id = 9) :=
  ⟨by decide, C2_amended 9 2 [(2, ⟨3, []⟩), (5, ⟨4, []⟩)] (by decide)⟩

/-- Claim C10: for every reference RI histogram with positive sample counts
(as all histograms built from traces have) and every base lease, every record
emitted by get_ppuc has a strictly positive cost delta.  Hence the f64
division producing the ppuc field is an ordinary division by a nonzero
number: the quotient is a real value (never NaN, which would need 0 over 0),
so partial_cmp on two such values is always Some and the unwrap in the Ord
implementation of PPUC cannot panic while the allocator heaps order the
records (moreover the embedded fraction is well formed). -/
theorem C10_ppuc_never_nan (r base : Nat) (h : RefHist)
    (hnd : ((cntHist h).map (fun e => e.1)).Nodup)
    (hpos : ∀ e ∈ h, 0 < e.2.cnt) :
    ∀ p ∈ get_ppuc r base h, 0 < p.costDelta ∧ p.ppuc.wf := by
  intro p hp
  rw [get_ppuc_eq r base h hnd] at hp
  rw [List.mem_map] at hp
  obtain ⟨k, hk, hpk⟩ := hp
  rw [List.mem_filter] at hk
  obtain ⟨hkmem, hkgt⟩ := hk
  have hkgt2 : base < k := of_decide_eq_true hkgt
  have hkmem2 : k ∈ (cntHist h).map (fun e => e.1) :=
    ((sortByRi_perm (cntHist h)).map (fun e => e.1)).mem_iff.1 hkmem
  have hpos2 : ∀ e ∈ cntHist h, 0 < e.2 := by
    intro e he
    rw [cntHist, List.mem_map] at he
    obtain ⟨x, hx, hxe⟩ := he
    rw [← hxe]
    exact hpos x hx
  have hcost : 0 < costLe (cntHist h) k - baseCost (cntHist h) base := by
    unfold baseCost
    by_cases hb : base ∈ (cntHist h).map (fun e => e.1)
    · rw [if_pos hb]
      have := costLe_strict (cntHist h) hpos2 hkgt2 hkmem2
      omega
    · rw [if_neg hb]
      have := costLe_pos (cntHist h) hpos2 (by omega) hkmem2
      omega
  subst hpk
  refine ⟨hcost, ?_⟩
  unfold PPUC.ppuc Fr.wf
  simp only
  exact_mod_cast hcost

/-- Claim C10, witness: concrete histogram, every base in a sample of bases. -/
theorem C10_ppuc_never_nan_witness :
    ((cntHist [(2, ⟨3, []⟩), (5, ⟨4, []⟩)]).map (fun e => e.1)).Nodup ∧
    (∀ e ∈ ([(2, ⟨3, []⟩), (5, ⟨4, []⟩)] : RefHist), 0 < e.2.cnt) ∧
    ∀ p ∈ get_ppuc 9 0 [(2, ⟨3, []⟩), (5, ⟨4, []⟩)], 0 < p.costDelta ∧ p.ppuc.wf :=
  ⟨by decide, by decide,
    C10_ppuc_never_nan 9 0 [(2, ⟨3, []⟩), (5, ⟨4, []⟩)] (by decide) (by decide)⟩

/-! # Packed identifier fields

The Rust mask-and-shift expressions on packed u64 ids, as div / mod
arithmetic (equal on all inputs, including ids carrying set bits). -/

/-- (x & 0xFF000000) >> 24: the packed phase field. -/
def phaseOf (x : Nat) : Nat := x / 2 ^ 24 % 2 ^ 8

/-- x & 0xFFFFFFFF: the phase_ref part of a packed id. -/
def mask32 (x : Nat) : Nat := x % 2 ^ 32

/-- x & 0x00FFFFFF: the address part of a packed id. -/
def mask24 (x : Nat) : Nat := x % 2 ^ 24

/-! # Histogram construction (lease_gen.rs process_sample_cost, io.rs
build_ri_hists) -/

/-- ri_tuple.1.entry(p).or_insert((0, 0)).0 += amt. -/
def addHeadCost (p amt : Nat) (costs : List (Nat × CostRec)) : List (Nat × CostRec) :=
  aupd p ⟨0, 0⟩ (fun c => ⟨c.head + amt, c.tail⟩) costs

/-- ri_tuple.1.entry(p).or_insert((0, 0)).1 += amt. -/
def addTailCost (p amt : Nat) (costs : List (Nat × CostRec)) : List (Nat × CostRec) :=
  aupd p ⟨0, 0⟩ (fun c => ⟨c.head, c.tail + amt⟩) costs

/-- The head-branch update of the (count, costs) tuple at the reuse interval
ri: count += 1, this_phase_cost to the head cost of phase_id, and the spill
to the head cost of next_phase_tuple.1 when positive. -/
def headEntryUpd (phase_id ri use_time : Nat) (npt : Nat × Nat) (v : RiEntry) : RiEntry :=
  let this_phase_cost := min (npt.1 - use_time) ri
  let next_phase_cost := use_time + ri - npt.1
  let v2 : RiEntry := ⟨v.cnt + 1, addHeadCost phase_id this_phase_cost v.costs⟩
  if 0 < next_phase_cost then ⟨v2.cnt, addHeadCost npt.2 next_phase_cost v2.costs⟩
  else v2

/-- The tail-branch update of the (count, costs) tuple at one already
recorded interval ri_other smaller than the sampled ri. -/
def tailEntryUpd (phase_id ri_other use_time : Nat) (npt : Nat × Nat) (v : RiEntry) :
    RiEntry :=
  let this_phase_tail_cost := min (npt.1 - use_time) ri_other
  let next_phase_tail_cost := use_time + ri_other - npt.1
  let v2 : RiEntry := ⟨v.cnt, addTailCost phase_id this_phase_tail_cost v.costs⟩
  if 0 < next_phase_tail_cost then ⟨v2.cnt, addTailCost npt.2 next_phase_tail_cost v2.costs⟩
  else v2

/-- lease_gen.rs process_sample_cost, translated line by line.  The head
branch bumps the sample count at ri and adds the in-phase cost (capped at the
next phase boundary) to the head cost of the phase of the reference, plus the
spilled part to the head cost of the next phase when positive.  The tail
branch adds the analogous amounts to the tail costs of every already recorded
interval smaller than ri.  The u64 subtraction next_phase_tuple.0 - use_time
of the source appears as Nat truncated subtraction; the i64 max(, 0) of the
spill is exactly Nat truncated subtraction. -/
def process_sample_cost (ri_hists : RIHists) (phase_id_ref ri use_time : Nat)
    (next_phase_tuple : Nat × Nat) (is_head_cost : Bool) : RIHists :=
  let phase_id := phaseOf phase_id_ref
  if is_head_cost then
    aupd phase_id_ref [] (fun ref_hist =>
      aupd ri ⟨0, []⟩ (headEntryUpd phase_id ri use_time next_phase_tuple) ref_hist)
      ri_hists
  else
    aupd phase_id_ref [] (fun ref_hist =>
      ref_hist.map (fun ent =>
        if ent.1 < ri then
          (ent.1, tailEntryUpd phase_id ent.1 use_time next_phase_tuple ent.2)
        else ent)) ri_hists

/-- A sample as it reaches process_sample_cost: the histogram key, the
canonicalized reuse interval, the use time, and the next phase transition
(time b, phase q) that build_ri_hists looked up for it. -/
structure CSample where
  ref : Nat
  ri : Nat
  u : Nat
  b : Nat
  q : Nat
  deriving DecidableEq, Repr

/-- One pass of build_ri_hists over the trace in C-SHEL mode. -/
def buildPass (is_head : Bool) (samples : List CSample) (h0 : RIHists) : RIHists :=
  samples.foldl (fun h s => process_sample_cost h s.ref s.ri s.u (s.b, s.q) is_head) h0

/-- build_ri_hists in C-SHEL mode: a full head pass over the trace, then a
full tail pass. -/
def build_cshel_hists (samples : List CSample) : RIHists :=
  buildPass false samples (buildPass true samples [])

/-- build_ri_hists in SHEL mode (single pass): bump the count at ri and make
sure an empty cost record exists for the phase of the reference. -/
def shelBuildStep (h : RIHists) (s : CSample) : RIHists :=
  aupd s.ref [] (fun ref_hist =>
    aupd s.ri ⟨0, []⟩ (fun e =>
      ⟨e.cnt + 1, aupd (phaseOf s.ref) ⟨0, 0⟩ (fun c => c) e.costs⟩) ref_hist) h

def build_shel_hists (samples : List CSample) : RIHists :=
  samples.foldl shelBuildStep []

/-- samples_per_phase as accumulated by build_ri_hists (head pass). -/
def samplesPerPhase (samples : List CSample) : List (Nat × Nat) :=
  samples.foldl (fun m s => aupd (phaseOf s.ref) 0 (fun n => n + 1) m) []

/-! ## Raw samples and the phase transition lookup (io.rs) -/

/-- A parsed record of the input trace: the 32-bit phase_id_ref, the cache
set extracted from the tag, the 32-bit pattern of the signed backward_ri, and
the reuse time. -/
structure RawSample where
  phase_id_ref : Nat
  set : Nat
  ri_raw : Nat
  time : Nat
  deriving DecidableEq, Repr

/-- helpers::binary_search.  Modelled from the spec: helpers.rs is not among
the provided sources; the spec describes the lookup as a binary search over
the ordered transition list returning the first entry whose time is strictly
greater than the queried time, hence None when no such entry exists.  On a
sorted list that is the first such entry in list order. -/
def binary_search (transitions : List (Nat × Nat)) (t : Nat) : Option (Nat × Nat) :=
  transitions.find? (fun e => decide (t < e.1))

/-- The per-sample preprocessing of build_ri_hists (io.rs lines 62 to 79):
sign test of the 32-bit reuse interval, use time reconstruction, canonical
value 0xFFFFFF for negatives, and the phase transition lookup with the
(reuse_time + 1, 0) guard.  The u64 subtractions reconstructing the use time
appear as Nat truncated subtraction. -/
def toCSample (transitions : List (Nat × Nat)) (s : RawSample) : CSample :=
  let reuse_time := s.time
  let neg := 2 ^ 31 ≤ s.ri_raw
  let use_time := if neg then reuse_time - (2 ^ 32 - s.ri_raw) else reuse_time - s.ri_raw
  let ri_signed := if neg then 0xFFFFFF else s.ri_raw
  let npt := (binary_search transitions use_time).getD (reuse_time + 1, 0)
  ⟨s.phase_id_ref + s.set * 2 ^ 32, ri_signed, use_time, npt.1, npt.2⟩

/-! ## Getters for histogram contents -/

def refHistOf (h : RIHists) (ref : Nat) : RefHist := aget ref [] h

def entryOf (h : RIHists) (ref ri : Nat) : RiEntry := aget ri ⟨0, []⟩ (refHistOf h ref)

def costOf (h : RIHists) (ref ri p : Nat) : CostRec := aget p ⟨0, 0⟩ (entryOf h ref ri).costs

def memRi (h : RIHists) (ref ri : Nat) : Prop :=
  ri ∈ (refHistOf h ref).map (fun e => e.1)

instance (h : RIHists) (ref ri : Nat) : Decidable (memRi h ref ri) := by
  unfold memRi
  infer_instance

/-! # The two per-reference cost models (lease_gen.rs) -/

/-- The head cost a cost record list holds for phase p (0 when the phase has
no record). -/
def headAt (p : Nat) (costs : List (Nat × CostRec)) : Nat := (aget p ⟨0, 0⟩ costs).head

/-- The tail cost a cost record list holds for phase p. -/
def tailAt (p : Nat) (costs : List (Nat × CostRec)) : Nat := (aget p ⟨0, 0⟩ costs).tail

/-- The loop body sums of cshel_phase_ref_cost at one lease value: head costs
of all recorded intervals at most L plus the tail cost at exactly L, for the
given phase.  The source accumulates old_cost and new_cost in one loop over
the reference histogram; addition commutes, so the accumulation equals this
sum. -/
def cshelCostAt (ri_hist : RefHist) (phase L : Nat) : Nat :=
  (ri_hist.map (fun e =>
    (if e.1 ≤ L then headAt phase e.2.costs else 0) +
    (if e.1 = L then tailAt phase e.2.costs else 0))).sum

/-- lease_gen.rs cshel_phase_ref_cost.  The u64 subtraction
(new_cost - old_cost) of the source is Nat truncated subtraction here; claim
C9 is about when it cannot underflow. -/
def cshel_phase_ref_cost (sample_rate phase ref_id old_lease new_lease : Nat)
    (ri_hists : RIHists) : Nat :=
  match alookup ref_id ri_hists with
  | none => 0
  | some ri_hist =>
    (cshelCostAt ri_hist phase new_lease - cshelCostAt ri_hist phase old_lease)
      * sample_rate

/-- The loop body sums of shel_phase_ref_cost at one lease value: count times
min(ri, L) over the recorded intervals. -/
def shelCostAt (ri_hist : RefHist) (L : Nat) : Nat :=
  (ri_hist.map (fun e => e.2.cnt * min e.1 L)).sum

/-- lease_gen.rs shel_phase_ref_cost: only the phase of the reference itself
contributes. -/
def shel_phase_ref_cost (sample_rate phase ref_id old_lease new_lease : Nat)
    (ri_hists : RIHists) : Nat :=
  match alookup ref_id ri_hists with
  | none => 0
  | some ri_hist =>
    if phase ≠ phaseOf ref_id then 0
    else (shelCostAt ri_hist new_lease - shelCostAt ri_hist old_lease) * sample_rate

/-! ## Per-sample cost contributions -/

/-- The amount a sample with use time u, boundary b, next phase q and
reference phase `phase` adds to the cost record of phase p when charged at
length L: the capped in-phase part min(b - u, L) if p is the phase of the
reference, plus the spill u + L - b (when positive) if p is the next phase.
Both parts accrue to the same record when phase = q. -/
def phaseContrib (p phase q u b L : Nat) : Nat :=
  (if phase = p then min (b - u) L else 0) + (if q = p then u + L - b else 0)

theorem phaseContrib_mono (p phase q u b : Nat) {L1 L2 : Nat} (h : L1 ≤ L2) :
    phaseContrib p phase q u b L1 ≤ phaseContrib p phase q u b L2 := by
  unfold phaseContrib
  split_ifs <;> omega

/-! ## Effect of the per-sample updates on the stored costs -/

theorem headAt_addHeadCost (p p2 amt : Nat) (costs : List (Nat × CostRec)) :
    headAt p (addHeadCost p2 amt costs) =
      headAt p costs + (if p2 = p then amt else 0) := by
  unfold headAt addHeadCost
  rw [aget_aupd]
  by_cases h : p2 = p <;> simp [h, aget]

theorem tailAt_addHeadCost (p p2 amt : Nat) (costs : List (Nat × CostRec)) :
    tailAt p (addHeadCost p2 amt costs) = tailAt p costs := by
  unfold tailAt addHeadCost
  rw [aget_aupd]
  by_cases h : p2 = p
  · rw [if_pos h, h]
  · rw [if_neg h]

theorem headAt_addTailCost (p p2 amt : Nat) (costs : List (Nat × CostRec)) :
    headAt p (addTailCost p2 amt costs) = headAt p costs := by
  unfold headAt addTailCost
  rw [aget_aupd]
  by_cases h : p2 = p
  · rw [if_pos h, h]
  · rw [if_neg h]

theorem tailAt_addTailCost (p p2 amt : Nat) (costs : List (Nat × CostRec)) :
    tailAt p (addTailCost p2 amt costs) =
      tailAt p costs + (if p2 = p then amt else 0) := by
  unfold tailAt addTailCost
  rw [aget_aupd]
  by_cases h : p2 = p <;> simp [h, aget]

theorem headAt_headEntryUpd (phase ri u : Nat) (npt : Nat × Nat) (v : RiEntry) (p : Nat) :
    headAt p (headEntryUpd phase ri u npt v).costs =
      headAt p v.costs + phaseContrib p phase npt.2 u npt.1 ri := by
  unfold headEntryUpd phaseContrib
  by_cases h : 0 < u + ri - npt.1
  · rw [if_pos h]
    simp only [headAt_addHeadCost]
    split_ifs <;> omega
  · rw [if_neg h]
    simp only [headAt_addHeadCost]
    split_ifs <;> omega

theorem tailAt_headEntryUpd (phase ri u : Nat) (npt : Nat × Nat) (v : RiEntry) (p : Nat) :
    tailAt p (headEntryUpd phase ri u npt v).costs = tailAt p v.costs := by
  unfold headEntryUpd
  by_cases h : 0 < u + ri - npt.1 <;> simp [h, tailAt_addHeadCost]

theorem cnt_headEntryUpd (phase ri u : Nat) (npt : Nat × Nat) (v : RiEntry) :
    (headEntryUpd phase ri u npt v).cnt = v.cnt + 1 := by
  unfold headEntryUpd
  by_cases h : 0 < u + ri - npt.1 <;> simp [h]

theorem headAt_tailEntryUpd (phase r u : Nat) (npt : Nat × Nat) (v : RiEntry) (p : Nat) :
    headAt p (tailEntryUpd phase r u npt v).costs = headAt p v.costs := by
  unfold tailEntryUpd
  by_cases h : 0 < u + r - npt.1 <;> simp [h, headAt_addTailCost]

theorem tailAt_tailEntryUpd (phase r u : Nat) (npt : Nat × Nat) (v : RiEntry) (p : Nat) :
    tailAt p (tailEntryUpd phase r u npt v).costs =
      tailAt p v.costs + phaseContrib p phase npt.2 u npt.1 r := by
  unfold tailEntryUpd phaseContrib
  by_cases h : 0 < u + r - npt.1
  · rw [if_pos h]
    simp only [tailAt_addTailCost]
    split_ifs <;> omega
  · rw [if_neg h]
    simp only [tailAt_addTailCost]
    split_ifs <;> omega

theorem cnt_tailEntryUpd (phase r u : Nat) (npt : Nat × Nat) (v : RiEntry) :
    (tailEntryUpd phase r u npt v).cnt = v.cnt := by
  unfold tailEntryUpd
  by_cases h : 0 < u + r - npt.1 <;> simp [h]

/-- Generic additivity of a projected sum under a HashMap entry update: when
the update raises the projection at key k by d2 and the default entry
projects to 0, the total rises by d2. -/
theorem sum_map_aupd {β : Type} (g : Nat × β → Nat) (k : Nat) (d : β) (f : β → β)
    (d2 : Nat) (l : List (Nat × β)) (hf : ∀ v, g (k, f v) = g (k, v) + d2)
    (hd : g (k, d) = 0) :
    ((aupd k d f l).map g).sum = (l.map g).sum + d2 := by
  induction l with
  | nil => simp [aupd, hf d, hd]
  | cons e t ih =>
    obtain ⟨a, b⟩ := e
    unfold aupd
    by_cases hak : a = k
    · subst hak
      rw [if_pos rfl]
      simp only [List.map_cons, List.sum_cons]
      rw [hf b]
      omega
    · rw [if_neg hak]
      simp only [List.map_cons, List.sum_cons]
      rw [ih]
      omega

/-- The cost contribution of one sample charged at length L (head cost at
L = the sampled ri, tail cost at smaller L). -/
def sampleContrib (s : CSample) (p L : Nat) : Nat :=
  phaseContrib p (phaseOf s.ref) s.q s.u s.b L

theorem cshelCostAt_headupd (rh : RefHist) (phase ri u : Nat) (npt : Nat × Nat)
    (p L : Nat) :
    cshelCostAt (aupd ri ⟨0, []⟩ (headEntryUpd phase ri u npt) rh) p L
      = cshelCostAt rh p L +
        (if ri ≤ L then phaseContrib p phase npt.2 u npt.1 ri else 0) := by
  unfold cshelCostAt
  apply sum_map_aupd
  · intro v
    simp only
    rw [headAt_headEntryUpd, tailAt_headEntryUpd]
    by_cases h1 : ri ≤ L <;> by_cases h2 : ri = L <;> simp [h1, h2] <;> omega
  · simp [headAt, tailAt, aget, alookup]

theorem cshelCostAt_tailstep (rh : RefHist) (hnd : (rh.map (fun e => e.1)).Nodup)
    (phase ri u : Nat) (npt : Nat × Nat) (p L : Nat) :
    cshelCostAt (rh.map (fun ent =>
        if ent.1 < ri then (ent.1, tailEntryUpd phase ent.1 u npt ent.2) else ent)) p L
      = cshelCostAt rh p L +
        (if L < ri ∧ L ∈ rh.map (fun e => e.1)
         then phaseContrib p phase npt.2 u npt.1 L else 0) := by
  induction rh with
  | nil => simp [cshelCostAt]
  | cons e t ih =>
    rw [List.map_cons, List.nodup_cons] at hnd
    obtain ⟨hnotin, hnd2⟩ := hnd
    unfold cshelCostAt at *
    simp only [List.map_cons, List.sum_cons]
    rw [ih hnd2]
    by_cases hlt : e.1 < ri
    · rw [if_pos hlt]
      simp only
      rw [headAt_tailEntryUpd, tailAt_tailEntryUpd]
      by_cases heq : e.1 = L
      · subst heq
        have hmemf : ¬ (e.1 < ri ∧ e.1 ∈ List.map (fun e => e.1) t) :=
          fun hc => hnotin hc.2
        have hmemt : e.1 < ri ∧ e.1 ∈ e.1 :: List.map (fun e => e.1) t :=
          ⟨hlt, List.mem_cons_self _ _⟩
        rw [if_neg hmemf, if_pos hmemt]
        simp only [eq_self_iff_true, le_refl, if_true]
        omega
      · simp only [if_neg heq]
        by_cases hmem : L < ri ∧ L ∈ List.map (fun e => e.1) t
        · rw [if_pos hmem,
            if_pos (⟨hmem.1, List.mem_cons.2 (Or.inr hmem.2)⟩ :
              L < ri ∧ L ∈ e.1 :: List.map (fun e => e.1) t)]
          omega
        · rw [if_neg hmem, if_neg (fun hc => by
            rcases List.mem_cons.1 hc.2 with hL | hL
            · exact heq hL.symm
            · exact hmem ⟨hc.1, hL⟩ : ¬ (L < ri ∧ L ∈ e.1 :: List.map (fun e => e.1) t))]
          omega
    · rw [if_neg hlt]
      by_cases hmem : L < ri ∧ L ∈ List.map (fun e => e.1) t
      · rw [if_pos hmem,
          if_pos (⟨hmem.1, List.mem_cons.2 (Or.inr hmem.2)⟩ :
            L < ri ∧ L ∈ e.1 :: List.map (fun e => e.1) t)]
        omega
      · rw [if_neg hmem, if_neg (fun hc => by
          rcases List.mem_cons.1 hc.2 with hL | hL
          · exact hlt (hL ▸ hc.1)
          · exact hmem ⟨hc.1, hL⟩ : ¬ (L < ri ∧ L ∈ e.1 :: List.map (fun e => e.1) t))]
        omega

/-! ## Key bookkeeping for the histogram builder -/

theorem aupd_keys {β : Type} (k : Nat) (d : β) (f : β → β) (l : List (Nat × β)) :
    (aupd k d f l).map (fun e => e.1) =
      if k ∈ l.map (fun e => e.1) then l.map (fun e => e.1)
      else l.map (fun e => e.1) ++ [k] := by
  induction l with
  | nil => simp [aupd]
  | cons e t ih =>
    obtain ⟨a, b⟩ := e
    unfold aupd
    by_cases hak : a = k
    · subst hak
      simp
    · simp only [if_neg hak, List.map_cons, ih]
      by_cases hk : k ∈ t.map (fun e => e.1)
      · rw [if_pos hk, if_pos (by simp [hk])]
      · rw [if_neg hk, if_neg (by
          simp only [List.mem_cons]
          rintro (h | h)
          · exact hak h.symm
          · exact hk h)]
        simp

theorem aupd_keys_nodup {β : Type} (k : Nat) (d : β) (f : β → β) (l : List (Nat × β))
    (h : (l.map (fun e => e.1)).Nodup) : ((aupd k d f l).map (fun e => e.1)).Nodup := by
  rw [aupd_keys]
  by_cases hk : k ∈ l.map (fun e => e.1)
  · rwa [if_pos hk]
  · rw [if_neg hk]
    simp [List.nodup_append, h, hk]

theorem tailmap_keys (rh : RefHist) (phase ri u : Nat) (npt : Nat × Nat) :
    (rh.map (fun ent =>
        if ent.1 < ri then (ent.1, tailEntryUpd phase ent.1 u npt ent.2) else ent)).map
        (fun e => e.1)
      = rh.map (fun e => e.1) := by
  rw [List.map_map]
  apply List.map_congr_left
  intro e _
  by_cases h : e.1 < ri <;> simp [h]

/-- Histograms whose key lists obey the HashMap discipline at every level we
sum over. -/
def WfKeys (h : RIHists) : Prop :=
  ∀ ref, ((refHistOf h ref).map (fun e => e.1)).Nodup

theorem process_sample_cost_head (h : RIHists) (ref ri u : Nat) (npt : Nat × Nat) :
    process_sample_cost h ref ri u npt true
      = aupd ref []
          (fun rh => aupd ri ⟨0, []⟩ (headEntryUpd (phaseOf ref) ri u npt) rh) h := rfl

theorem process_sample_cost_tail (h : RIHists) (ref ri u : Nat) (npt : Nat × Nat) :
    process_sample_cost h ref ri u npt false
      = aupd ref []
          (fun rh => rh.map (fun ent =>
            if ent.1 < ri then (ent.1, tailEntryUpd (phaseOf ref) ent.1 u npt ent.2)
            else ent)) h := rfl

theorem refHistOf_headstep (h : RIHists) (ref ri u : Nat) (npt : Nat × Nat) (ref2 : Nat) :
    refHistOf (process_sample_cost h ref ri u npt true) ref2
      = if ref = ref2
        then aupd ri ⟨0, []⟩ (headEntryUpd (phaseOf ref) ri u npt) (refHistOf h ref)
        else refHistOf h ref2 := by
  rw [process_sample_cost_head]
  unfold refHistOf
  rw [aget_aupd]

theorem refHistOf_tailstep (h : RIHists) (ref ri u : Nat) (npt : Nat × Nat) (ref2 : Nat) :
    refHistOf (process_sample_cost h ref ri u npt false) ref2
      = if ref = ref2
        then (refHistOf h ref).map (fun ent =>
          if ent.1 < ri then (ent.1, tailEntryUpd (phaseOf ref) ent.1 u npt ent.2) else ent)
        else refHistOf h ref2 := by
  rw [process_sample_cost_tail]
  unfold refHistOf
  rw [aget_aupd]

theorem WfKeys_headstep (h : RIHists) (ref ri u : Nat) (npt : Nat × Nat)
    (hw : WfKeys h) : WfKeys (process_sample_cost h ref ri u npt true) := by
  intro ref2
  rw [refHistOf_headstep]
  by_cases hr : ref = ref2
  · rw [if_pos hr]
    exact aupd_keys_nodup _ _ _ _ (hw ref)
  · rw [if_neg hr]
    exact hw ref2

theorem WfKeys_tailstep (h : RIHists) (ref ri u : Nat) (npt : Nat × Nat)
    (hw : WfKeys h) : WfKeys (process_sample_cost h ref ri u npt false) := by
  intro ref2
  rw [refHistOf_tailstep]
  by_cases hr : ref = ref2
  · rw [if_pos hr, tailmap_keys]
    exact hw ref
  · rw [if_neg hr]
    exact hw ref2

theorem memRi_tailstep (h : RIHists) (ref ri u : Nat) (npt : Nat × Nat) (ref2 ri2 : Nat) :
    memRi (process_sample_cost h ref ri u npt false) ref2 ri2 ↔ memRi h ref2 ri2 := by
  unfold memRi
  rw [refHistOf_tailstep]
  by_cases hr : ref = ref2
  · rw [if_pos hr, tailmap_keys, hr]
  · rw [if_neg hr]


theorem memRi_headstep (h : RIHists) (ref ri u : Nat) (npt : Nat × Nat) (ref2 ri2 : Nat) :
    memRi (process_sample_cost h ref ri u npt true) ref2 ri2 ↔
      memRi h ref2 ri2 ∨ (ref = ref2 ∧ ri = ri2) := by
  unfold memRi
  rw [refHistOf_headstep]
  by_cases hr : ref = ref2
  · rw [if_pos hr, aupd_keys]
    subst hr
    by_cases hk : ri ∈ (refHistOf h ref).map (fun e => e.1)
    · rw [if_pos hk]
      constructor
      · intro hm
        exact Or.inl hm
      · rintro (hm | hm)
        · exact hm
        · rw [← hm.2]
          exact hk
    · rw [if_neg hk]
      rw [List.mem_append]
      constructor
      · rintro (hm | hm)
        · exact Or.inl hm
        · simp at hm
          exact Or.inr ⟨rfl, hm.symm⟩
      · rintro (hm | hm)
        · exact Or.inl hm
        · simp [hm.2]
  · rw [if_neg hr]
    constructor
    · intro hm
      exact Or.inl hm
    · rintro (hm | hm)
      · exact hm
      · exact absurd hm.1 hr

theorem buildPass_cons (is_head : Bool) (s : CSample) (S : List CSample) (h0 : RIHists) :
    buildPass is_head (s :: S) h0 =
      buildPass is_head S (process_sample_cost h0 s.ref s.ri s.u (s.b, s.q) is_head) := rfl

theorem WfKeys_nil : WfKeys [] := by
  intro ref
  simp [refHistOf, aget, alookup]

theorem WfKeys_buildPass (is_head : Bool) (S : List CSample) (h0 : RIHists)
    (hw : WfKeys h0) : WfKeys (buildPass is_head S h0) := by
  induction S generalizing h0 with
  | nil => exact hw
  | cons s S ih =>
    rw [buildPass_cons]
    cases is_head
    · exact ih _ (WfKeys_tailstep _ _ _ _ _ hw)
    · exact ih _ (WfKeys_headstep _ _ _ _ _ hw)

theorem memRi_buildPass_head (S : List CSample) (h0 : RIHists) (ref ri : Nat) :
    memRi (buildPass true S h0) ref ri ↔
      memRi h0 ref ri ∨ ∃ s ∈ S, s.ref = ref ∧ s.ri = ri := by
  induction S generalizing h0 with
  | nil => simp [buildPass]
  | cons s S ih =>
    rw [buildPass_cons, ih, memRi_headstep]
    constructor
    · rintro ((hm | hm) | hm)
      · exact Or.inl hm
      · exact Or.inr ⟨s, by simp, hm⟩
      · obtain ⟨x, hx, hxp⟩ := hm
        exact Or.inr ⟨x, by simp [hx], hxp⟩
    · rintro (hm | hm)
      · exact Or.inl (Or.inl hm)
      · obtain ⟨x, hx, hxp⟩ := hm
        rcases List.mem_cons.1 hx with hx2 | hx2
        · subst hx2
          exact Or.inl (Or.inr hxp)
        · exact Or.inr ⟨x, hx2, hxp⟩

theorem memRi_buildPass_tail (S : List CSample) (h0 : RIHists) (ref ri : Nat) :
    memRi (buildPass false S h0) ref ri ↔ memRi h0 ref ri := by
  induction S generalizing h0 with
  | nil => exact Iff.rfl
  | cons s S ih =>
    rw [buildPass_cons, ih, memRi_tailstep]

theorem cshelCostAt_buildPass_head (S : List CSample) (h0 : RIHists) (ref p L : Nat) :
    cshelCostAt (refHistOf (buildPass true S h0) ref) p L
      = cshelCostAt (refHistOf h0 ref) p L +
        ((S.filter (fun s => s.ref == ref)).map
          (fun s => if s.ri ≤ L then sampleContrib s p s.ri else 0)).sum := by
  induction S generalizing h0 with
  | nil => simp [buildPass]
  | cons s S ih =>
    rw [buildPass_cons, ih]
    rw [List.filter_cons]
    by_cases hs : s.ref = ref
    · rw [if_pos (by simpa using hs)]
      rw [List.map_cons, List.sum_cons]
      have hstep := refHistOf_headstep h0 s.ref s.ri s.u (s.b, s.q) ref
      rw [if_pos hs] at hstep
      rw [hstep, cshelCostAt_headupd]
      unfold sampleContrib
      simp only
      rw [hs]
      omega
    · rw [if_neg (by simpa using hs)]
      have hstep := refHistOf_headstep h0 s.ref s.ri s.u (s.b, s.q) ref
      rw [if_neg hs] at hstep
      rw [hstep]

theorem cshelCostAt_buildPass_tail (S : List CSample) (h0 : RIHists) (ref p L : Nat)
    (hw : WfKeys h0) :
    cshelCostAt (refHistOf (buildPass false S h0) ref) p L
      = cshelCostAt (refHistOf h0 ref) p L +
        (if memRi h0 ref L then
          ((S.filter (fun s => s.ref == ref)).map
            (fun s => if L < s.ri then sampleContrib s p L else 0)).sum
         else 0) := by
  induction S generalizing h0 with
  | nil => simp [buildPass]
  | cons s S ih =>
    rw [buildPass_cons, ih _ (WfKeys_tailstep _ _ _ _ _ hw)]
    have hmem := memRi_tailstep h0 s.ref s.ri s.u (s.b, s.q) ref L
    simp only [hmem]
    rw [List.filter_cons]
    have hstep := refHistOf_tailstep h0 s.ref s.ri s.u (s.b, s.q) ref
    by_cases hs : s.ref = ref
    · rw [if_pos (show (s.ref == ref) = true by simpa using hs)]
      rw [List.map_cons, List.sum_cons]
      rw [if_pos hs] at hstep
      rw [hstep, hs, cshelCostAt_tailstep _ (hw ref)]
      unfold sampleContrib memRi
      simp only [hs]
      by_cases hm : L ∈ (refHistOf h0 ref).map (fun e => e.1)
      · rw [if_pos hm, if_pos hm]
        by_cases hlr : L < s.ri
        · rw [if_pos ⟨hlr, hm⟩, if_pos hlr]
          omega
        · rw [if_neg (fun hc => hlr hc.1), if_neg hlr]
          omega
      · rw [if_neg hm, if_neg hm, if_neg (fun hc => hm hc.2)]
    · rw [if_neg (show ¬ (s.ref == ref) = true by simpa using hs)]
      rw [if_neg hs] at hstep
      rw [hstep]

/-- Characterization of the two-pass C-SHEL histogram of one reference: the
cost the cshel cost model reads at (phase, L) is the sum over the samples of
that reference of the head contribution at the sampled interval when it is at
most L, plus, when L itself is a sampled interval of the reference, the tail
contributions at L of all samples with larger intervals. -/
theorem cshelCostAt_build (S : List CSample) (ref p L : Nat) :
    cshelCostAt (refHistOf (build_cshel_hists S) ref) p L
      = ((S.filter (fun s => s.ref == ref)).map
          (fun s => if s.ri ≤ L then sampleContrib s p s.ri else 0)).sum +
        (if ∃ s ∈ S, s.ref = ref ∧ s.ri = L then
          ((S.filter (fun s => s.ref == ref)).map
            (fun s => if L < s.ri then sampleContrib s p L else 0)).sum
         else 0) := by
  unfold build_cshel_hists
  rw [cshelCostAt_buildPass_tail _ _ _ _ _ (WfKeys_buildPass true S [] WfKeys_nil),
    cshelCostAt_buildPass_head]
  have hnil : cshelCostAt (refHistOf [] ref) p L = 0 := by
    simp [cshelCostAt, refHistOf, aget, alookup]
  rw [hnil]
  have hmem : memRi (buildPass true S []) ref L ↔ ∃ s ∈ S, s.ref = ref ∧ s.ri = L := by
    rw [memRi_buildPass_head]
    have : ¬ memRi ([] : RIHists) ref L := by
      simp [memRi, refHistOf, aget, alookup]
    constructor
    · rintro (hm | hm)
      · exact absurd hm this
      · exact hm
    · exact Or.inr
  by_cases hx : ∃ s ∈ S, s.ref = ref ∧ s.ri = L
  · rw [if_pos (hmem.2 hx), if_pos hx]
    omega
  · rw [if_neg (fun hc => hx (hmem.1 hc)), if_neg hx]
    omega

theorem sum_map_split (f g : CSample → Nat) (l : List CSample) :
    (l.map (fun x => f x + g x)).sum = (l.map f).sum + (l.map g).sum := by
  induction l with
  | nil => simp
  | cons x l ih =>
    simp only [List.map_cons, List.sum_cons, ih]
    omega

/-- Claim C9, counterexample.  A histogram built by the two-pass construction
itself: one reference (id 1, phase 0) with two samples, reuse intervals 5 and
10, all inside one phase (boundary 100).  The tail pass charges tail cost 5
to the entry at interval 5.  For old_lease = 5 and new_lease = 7 (a pair with
old at most new) the accumulated old cost is 10 (head 5 plus tail 5) and the
accumulated new cost is only 5, because 7 is not a recorded interval and so
picks up no tail term: new_cost < old_cost and the u64 subtraction
new_cost - old_cost in cshel_phase_ref_cost underflows. -/
theorem C9_counterexample :
    (5 : Nat) ≤ 7 ∧
    cshelCostAt (refHistOf (build_cshel_hists
        [⟨1, 5, 0, 100, 0⟩, ⟨1, 10, 20, 100, 0⟩]) 1) 0 5 = 10 ∧
    cshelCostAt (refHistOf (build_cshel_hists
        [⟨1, 5, 0, 100, 0⟩, ⟨1, 10, 20, 100, 0⟩]) 1) 0 7 = 5 ∧
    cshelCostAt (refHistOf (build_cshel_hists
        [⟨1, 5, 0, 100, 0⟩, ⟨1, 10, 20, 100, 0⟩]) 1) 0 7
      < cshelCostAt (refHistOf (build_cshel_hists
        [⟨1, 5, 0, 100, 0⟩, ⟨1, 10, 20, 100, 0⟩]) 1) 0 5 := by
  refine ⟨by decide, by decide, by decide, by decide⟩

/-- Claim C9, amended: for every histogram produced by the two-pass
construction and every pair of leases with old_lease at most new_lease such
that new_lease is a sampled reuse interval of the reference (which holds for
every call the allocator makes with a candidate popped from the PPUC heap),
the accumulated new cost is at least the accumulated old cost, so the
unsigned subtraction new_cost - old_cost in cshel_phase_ref_cost does not
underflow.  The sampled-interval hypothesis on new_lease is what the
counterexample forces; the claim as stated quantified over every pair of
leases. -/
theorem C9_amended (S : List CSample) (ref p old new : Nat)
    (hle : old ≤ new) (hnew : ∃ s ∈ S, s.ref = ref ∧ s.ri = new) :
    cshelCostAt (refHistOf (build_cshel_hists S) ref) p old
      ≤ cshelCostAt (refHistOf (build_cshel_hists S) ref) p new := by
  rw [cshelCostAt_build, cshelCostAt_build, if_pos hnew]
  have hpoint : ∀ s ∈ S.filter (fun s => s.ref == ref),
      (fun x => (if x.ri ≤ old then sampleContrib x p x.ri else 0) +
        (if old < x.ri then sampleContrib x p old else 0)) s ≤
      (fun x => (if x.ri ≤ new then sampleContrib x p x.ri else 0) +
        (if new < x.ri then sampleContrib x p new else 0)) s := by
    intro s _
    simp only
    unfold sampleContrib
    by_cases h1 : s.ri ≤ old
    · rw [if_pos h1, if_pos (h1.trans hle), if_neg (by omega), if_neg (by omega)]
    · by_cases h2 : s.ri ≤ new
      · rw [if_neg h1, if_pos h2, if_pos (by omega), if_neg (by omega)]
        have := phaseContrib_mono p (phaseOf s.ref) s.q s.u s.b (show old ≤ s.ri by omega)
        omega
      · rw [if_neg h1, if_neg h2, if_pos (by omega), if_pos (by omega)]
        have := phaseContrib_mono p (phaseOf s.ref) s.q s.u s.b hle
        omega
  have hmain := List.sum_le_sum hpoint
  rw [sum_map_split, sum_map_split] at hmain
  by_cases hold : ∃ s ∈ S, s.ref = ref ∧ s.ri = old
  · rw [if_pos hold]
    exact hmain
  · rw [if_neg hold]
    omega

/-- Claim C9, witness for the amended theorem at the concrete two-sample
histogram with old_lease 5 and new_lease 10 (a sampled interval). -/
theorem C9_amended_witness :
    (5 : Nat) ≤ 10 ∧
    (∃ s ∈ [(⟨1, 5, 0, 100, 0⟩ : CSample), ⟨1, 10, 20, 100, 0⟩],
      s.ref = 1 ∧ s.ri = 10) ∧
    cshelCostAt (refHistOf (build_cshel_hists
        [⟨1, 5, 0, 100, 0⟩, ⟨1, 10, 20, 100, 0⟩]) 1) 0 5
      ≤ cshelCostAt (refHistOf (build_cshel_hists
        [⟨1, 5, 0, 100, 0⟩, ⟨1, 10, 20, 100, 0⟩]) 1) 0 10 :=
  ⟨by decide, by decide,
    C9_amended [⟨1, 5, 0, 100, 0⟩, ⟨1, 10, 20, 100, 0⟩] 1 0 5 10 (by decide) (by decide)⟩

theorem entryOf_headstep (h : RIHists) (ref ri u : Nat) (npt : Nat × Nat) :
    entryOf (process_sample_cost h ref ri u npt true) ref ri
      = headEntryUpd (phaseOf ref) ri u npt (entryOf h ref ri) := by
  unfold entryOf
  rw [refHistOf_headstep, if_pos rfl]
  unfold aget
  rw [alookup_aupd, if_pos rfl]
  rfl

theorem alookup_map_entry {β : Type} (g : Nat → β → β) (k : Nat) (l : List (Nat × β)) :
    alookup k (l.map (fun e => (e.1, g e.1 e.2))) = (alookup k l).map (g k) := by
  induction l with
  | nil => rfl
  | cons e t ih =>
    obtain ⟨a, b⟩ := e
    simp only [List.map_cons]
    unfold alookup
    by_cases hak : a = k
    · subst hak
      rw [if_pos rfl, if_pos rfl]
      rfl
    · rw [if_neg hak, if_neg hak]
      exact ih

theorem alookup_isSome_of_memkey {β : Type} {l : List (Nat × β)} {k : Nat}
    (h : k ∈ l.map (fun e => e.1)) : ∃ v, alookup k l = some v := by
  induction l with
  | nil => simp at h
  | cons e t ih =>
    obtain ⟨a, b⟩ := e
    unfold alookup
    by_cases hak : a = k
    · exact ⟨b, by rw [if_pos hak]⟩
    · rw [if_neg hak]
      refine ih ?_
      simp only [List.map_cons, List.mem_cons] at h
      rcases h with h | h
      · exact absurd h.symm hak
      · exact h

/-- The tail pass updates the entry of every recorded reuse interval smaller
than the sampled one through tailEntryUpd and leaves the others unchanged. -/
theorem entryOf_tailstep (h : RIHists) (ref ri u : Nat) (npt : Nat × Nat)
    (ri2 : Nat) (hmem : memRi h ref ri2) :
    entryOf (process_sample_cost h ref ri u npt false) ref ri2
      = if ri2 < ri then tailEntryUpd (phaseOf ref) ri2 u npt (entryOf h ref ri2)
        else entryOf h ref ri2 := by
  unfold entryOf
  rw [refHistOf_tailstep, if_pos rfl]
  have hform : (refHistOf h ref).map (fun ent =>
        if ent.1 < ri then (ent.1, tailEntryUpd (phaseOf ref) ent.1 u npt ent.2) else ent)
      = (refHistOf h ref).map (fun ent =>
        (ent.1, if ent.1 < ri then tailEntryUpd (phaseOf ref) ent.1 u npt ent.2 else ent.2)) := by
    apply List.map_congr_left
    intro e _
    obtain ⟨a, b⟩ := e
    by_cases hc : a < ri
    · simp [hc]
    · simp [hc]
  rw [hform]
  unfold aget
  rw [alookup_map_entry (g := fun a b =>
    if a < ri then tailEntryUpd (phaseOf ref) a u npt b else b)]
  obtain ⟨v, hv⟩ := alookup_isSome_of_memkey hmem
  rw [hv]
  by_cases hc : ri2 < ri
  · simp [hc]
  · simp [hc]

/-- Claim C4, counterexample.  A sample whose backward_ri is 0xFFFFFFFF
(minus one as a signed 32-bit value) at reuse time 10 for the phase-1
reference 0x01000005, with the single sentinel transition (0, 0): the head
pass stores it under the canonical interval 0x00FFFFFF but charges head cost
min(boundary - use_time, 0xFFFFFF) = 2 to phase 1 (and the spilled remainder
to phase 0), so the sample does not contribute zero head cost to every
phase. -/
theorem C4_counterexample :
    (toCSample [(0, 0)] ⟨0x01000005, 0, 0xFFFFFFFF, 10⟩).ri = 0xFFFFFF ∧
    headAt 1 (entryOf (buildPass true [toCSample [(0, 0)] ⟨0x01000005, 0, 0xFFFFFFFF, 10⟩] [])
        (toCSample [(0, 0)] ⟨0x01000005, 0, 0xFFFFFFFF, 10⟩).ref 0xFFFFFF).costs = 2 ∧
    ¬ headAt 1 (entryOf (buildPass true [toCSample [(0, 0)] ⟨0x01000005, 0, 0xFFFFFFFF, 10⟩] [])
        (toCSample [(0, 0)] ⟨0x01000005, 0, 0xFFFFFFFF, 10⟩).ref 0xFFFFFF).costs = 0 := by
  refine ⟨by decide, by decide, by decide⟩

/-- Claim C4, amended: a sample whose backward_ri is negative as a signed
32-bit value is indeed stored in the histograms under the canonical reuse
interval 0x00FFFFFF (that part of the claim holds), but it contributes cost
exactly like an ordinary sample of reuse interval 0xFFFFFF at use time
reuse_time - |ri|: the head pass bumps the count at the canonical interval by
one and adds phaseContrib (min(boundary - use, 0xFFFFFF) to the phase of the
reference plus the positive spill to the next phase) to the head costs, which
is nonzero whenever the boundary lies after the use time; and the tail pass
adds the tail contribution phaseContrib at length ri2 to every recorded
reuse interval ri2 smaller than 0xFFFFFF of the reference.  The zero-cost
part of the claim is what the counterexample refutes. -/
theorem C4_amended (trans : List (Nat × Nat)) (s : RawSample)
    (hneg : 2 ^ 31 ≤ s.ri_raw) (h : RIHists) (p : Nat) :
    (toCSample trans s).ri = 0xFFFFFF ∧
    (entryOf (process_sample_cost h (toCSample trans s).ref 0xFFFFFF (toCSample trans s).u
        ((toCSample trans s).b, (toCSample trans s).q) true)
        (toCSample trans s).ref 0xFFFFFF).cnt
      = (entryOf h (toCSample trans s).ref 0xFFFFFF).cnt + 1 ∧
    (headAt p (entryOf (process_sample_cost h (toCSample trans s).ref 0xFFFFFF
        (toCSample trans s).u ((toCSample trans s).b, (toCSample trans s).q) true)
        (toCSample trans s).ref 0xFFFFFF).costs
      = headAt p (entryOf h (toCSample trans s).ref 0xFFFFFF).costs
        + phaseContrib p (phaseOf (toCSample trans s).ref) (toCSample trans s).q
            (toCSample trans s).u (toCSample trans s).b 0xFFFFFF) ∧
    ∀ ri2, memRi h (toCSample trans s).ref ri2 → ri2 < 0xFFFFFF →
      tailAt p (entryOf (process_sample_cost h (toCSample trans s).ref 0xFFFFFF
          (toCSample trans s).u ((toCSample trans s).b, (toCSample trans s).q) false)
          (toCSample trans s).ref ri2).costs
        = tailAt p (entryOf h (toCSample trans s).ref ri2).costs
          + phaseContrib p (phaseOf (toCSample trans s).ref) (toCSample trans s).q
              (toCSample trans s).u (toCSample trans s).b ri2 := by
  refine ⟨?_, ?_, ?_, ?_⟩
  · unfold toCSample
    simp only [if_pos hneg]
  · rw [entryOf_headstep]
    exact cnt_headEntryUpd _ _ _ _ _
  · rw [entryOf_headstep]
    exact headAt_headEntryUpd _ _ _ _ _ _
  · intro ri2 hm hlt
    rw [entryOf_tailstep _ _ _ _ _ _ hm, if_pos hlt]
    exact tailAt_tailEntryUpd _ _ _ _ _ _

/-- Claim C4, witness for the amended theorem on the concrete negative
sample of the counterexample: the head-pass count bump on the empty
histogram, and the tail-pass charge at the recorded smaller interval 5 of a
histogram holding that interval. -/
theorem C4_amended_witness :
    2 ^ 31 ≤ (⟨0x01000005, 0, 0xFFFFFFFF, 10⟩ : RawSample).ri_raw ∧
    (toCSample [(0, 0)] ⟨0x01000005, 0, 0xFFFFFFFF, 10⟩).ri = 0xFFFFFF ∧
    ((entryOf (process_sample_cost []
        (toCSample [(0, 0)] ⟨0x01000005, 0, 0xFFFFFFFF, 10⟩).ref 0xFFFFFF
        (toCSample [(0, 0)] ⟨0x01000005, 0, 0xFFFFFFFF, 10⟩).u
        ((toCSample [(0, 0)] ⟨0x01000005, 0, 0xFFFFFFFF, 10⟩).b,
          (toCSample [(0, 0)] ⟨0x01000005, 0, 0xFFFFFFFF, 10⟩).q) true)
        (toCSample [(0, 0)] ⟨0x01000005, 0, 0xFFFFFFFF, 10⟩).ref 0xFFFFFF).cnt
      = (entryOf [] (toCSample [(0, 0)] ⟨0x01000005, 0, 0xFFFFFFFF, 10⟩).ref 0xFFFFFF).cnt
        + 1) ∧
    memRi [(0x01000005, [(5, ⟨1, []⟩)])]
        (toCSample [(0, 0)] ⟨0x01000005, 0, 0xFFFFFFFF, 10⟩).ref 5 ∧
    (5 : Nat) < 0xFFFFFF ∧
    tailAt 1 (entryOf (process_sample_cost [(0x01000005, [(5, ⟨1, []⟩)])]
        (toCSample [(0, 0)] ⟨0x01000005, 0, 0xFFFFFFFF, 10⟩).ref 0xFFFFFF
        (toCSample [(0, 0)] ⟨0x01000005, 0, 0xFFFFFFFF, 10⟩).u
        ((toCSample [(0, 0)] ⟨0x01000005, 0, 0xFFFFFFFF, 10⟩).b,
          (toCSample [(0, 0)] ⟨0x01000005, 0, 0xFFFFFFFF, 10⟩).q) false)
        (toCSample [(0, 0)] ⟨0x01000005, 0, 0xFFFFFFFF, 10⟩).ref 5).costs
      = tailAt 1 (entryOf [(0x01000005, [(5, ⟨1, []⟩)])]
          (toCSample [(0, 0)] ⟨0x01000005, 0, 0xFFFFFFFF, 10⟩).ref 5).costs
        + phaseContrib 1 (phaseOf (toCSample [(0, 0)] ⟨0x01000005, 0, 0xFFFFFFFF, 10⟩).ref)
            (toCSample [(0, 0)] ⟨0x01000005, 0, 0xFFFFFFFF, 10⟩).q
            (toCSample [(0, 0)] ⟨0x01000005, 0, 0xFFFFFFFF, 10⟩).u
            (toCSample [(0, 0)] ⟨0x01000005, 0, 0xFFFFFFFF, 10⟩).b 5 :=
  ⟨by decide, (C4_amended [(0, 0)] ⟨0x01000005, 0, 0xFFFFFFFF, 10⟩ (by decide) [] 1).1,
    (C4_amended [(0, 0)] ⟨0x01000005, 0, 0xFFFFFFFF, 10⟩ (by decide) [] 1).2.1,
    by decide, by decide,
    (C4_amended [(0, 0)] ⟨0x01000005, 0, 0xFFFFFFFF, 10⟩ (by decide)
        [(0x01000005, [(5, ⟨1, []⟩)])] 1).2.2.2 5 (by decide) (by decide)⟩

/-- Claim C7, counterexample.  A sample with reuse interval 4 at reuse time
10 (use time 6) and no phase transition strictly after the use time: the
lookup in build_ri_hists falls back to (reuse_time + 1, 0) = (11, 0), not to
(use_time + 1, 0) = (7, 0) as the claim states. -/
theorem C7_counterexample :
    (toCSample [(0, 0)] ⟨5, 0, 4, 10⟩).u = 6 ∧
    binary_search [(0, 0)] 6 = none ∧
    ((toCSample [(0, 0)] ⟨5, 0, 4, 10⟩).b, (toCSample [(0, 0)] ⟨5, 0, 4, 10⟩).q) = (11, 0) ∧
    ¬ ((toCSample [(0, 0)] ⟨5, 0, 4, 10⟩).b, (toCSample [(0, 0)] ⟨5, 0, 4, 10⟩).q)
        = ((toCSample [(0, 0)] ⟨5, 0, 4, 10⟩).u + 1, 0) := by
  refine ⟨by decide, by decide, by decide, by decide⟩

/-- Claim C7, amended: when no phase transition lies strictly after the use
time of the sample, the phase transition lookup of build_ri_hists returns the
guard value (reuse_time + 1, 0), where reuse_time is the time field of the
sample (equal to use_time plus the magnitude of the reuse interval), not
(use_time + 1, 0). -/
theorem C7_amended (trans : List (Nat × Nat)) (s : RawSample)
    (hnone : ∀ e ∈ trans, e.1 ≤ (toCSample trans s).u) :
    ((toCSample trans s).b, (toCSample trans s).q) = (s.time + 1, 0) := by
  have hfind : binary_search trans
      (if 2 ^ 31 ≤ s.ri_raw then s.time - (2 ^ 32 - s.ri_raw) else s.time - s.ri_raw)
      = none := by
    apply List.find?_eq_none.2
    intro e he
    have := hnone e he
    simp only [decide_eq_true_eq]
    have hu : (toCSample trans s).u =
        (if 2 ^ 31 ≤ s.ri_raw then s.time - (2 ^ 32 - s.ri_raw) else s.time - s.ri_raw) := rfl
    rw [hu] at this
    omega
  have hb : (toCSample trans s).b = ((binary_search trans
      (if 2 ^ 31 ≤ s.ri_raw then s.time - (2 ^ 32 - s.ri_raw) else s.time - s.ri_raw)).getD
        (s.time + 1, 0)).1 := rfl
  have hq : (toCSample trans s).q = ((binary_search trans
      (if 2 ^ 31 ≤ s.ri_raw then s.time - (2 ^ 32 - s.ri_raw) else s.time - s.ri_raw)).getD
        (s.time + 1, 0)).2 := rfl
  rw [hb, hq, hfind]
  rfl

/-- Claim C7, witness for the amended theorem on a concrete sample. -/
theorem C7_amended_witness :
    (∀ e ∈ [((0 : Nat), (0 : Nat))], e.1 ≤ (toCSample [(0, 0)] ⟨5, 0, 4, 10⟩).u) ∧
    ((toCSample [(0, 0)] ⟨5, 0, 4, 10⟩).b, (toCSample [(0, 0)] ⟨5, 0, 4, 10⟩).q) = (11, 0) :=
  ⟨by decide, C7_amended [(0, 0)] ⟨5, 0, 4, 10⟩ (by decide)⟩

/-! # The assignment record and the pruner (lease_gen.rs LeaseResults) -/

structure LeaseResults where
  leases : List (Nat × Nat)
  dual_leases : List (Nat × Fr × Nat)
  lease_hits : List (Nat × List (Nat × Nat))
  trace_length : Nat
  deriving DecidableEq, Repr

/-- lease_gen.rs get_num_leases_per_phase: count the leases of every phase
(entry(phase).and_modify(+1).or_insert(1)). -/
def get_num_leases_per_phase (leases : List (Nat × Nat)) : List (Nat × Nat) :=
  leases.foldl (fun m e => aupd (phaseOf e.1) 0 (fun n => n + 1) m) []

/-- The importance of a reference: its total sample count over all reuse
intervals.  The source unwraps the histogram lookup (a reference absent from
the histograms would panic there); the embedding reads an absent reference as
an empty histogram, so its importance is 0. -/
def refImportance (ri_hists : RIHists) (ref : Nat) : Nat :=
  ((refHistOf ri_hists ref).map (fun e => e.2.cnt)).sum

/-- The importance table the pruner builds for one phase, in the iteration
order of the leases map. -/
def importanceList (leases : List (Nat × Nat)) (ri_hists : RIHists) (phase : Nat) :
    List (Nat × Nat) :=
  (leases.filter (fun e => phaseOf e.1 == phase)).map
    (fun e => (e.1, refImportance ri_hists e.1))

/-- The references the pruner keeps for one phase: the importance table
sorted by importance descending, first llt_size entries. -/
def phaseTop (leases : List (Nat × Nat)) (ri_hists : RIHists) (llt_size phase : Nat) :
    List Nat :=
  ((List.insertionSort (fun a b : Nat × Nat => b.2 ≤ a.2)
      (importanceList leases ri_hists phase)).take llt_size).map (fun e => e.1)

/-- HashMap entry(k).or_insert(v): keep the map unchanged when the key is
present, append the binding otherwise. -/
def ainsNew {β : Type} (k : Nat) (v : β) (l : List (Nat × β)) : List (Nat × β) :=
  match alookup k l with
  | some _ => l
  | none => l ++ [(k, v)]

/-- One kept reference: copy its lease, and its dual lease when it has
one, into the pruned maps. -/
def pruneStep (origLeases : List (Nat × Nat)) (origDuals : List (Nat × Fr × Nat))
    (acc : List (Nat × Nat) × List (Nat × Fr × Nat)) (ref : Nat) :
    List (Nat × Nat) × List (Nat × Fr × Nat) :=
  (ainsNew ref (aget ref 0 origLeases) acc.1,
   match alookup ref origDuals with
   | some v => ainsNew ref v acc.2
   | none => acc.2)

/-- lease_gen.rs LeaseResults::prune_leases_to_fit_llt: per phase, keep the
top llt_size references by importance and drop the rest from both maps.  The
phase iteration order is the first-occurrence order of the leases map. -/
def prune_leases_to_fit_llt (lr : LeaseResults) (ri_hists : RIHists) (llt_size : Nat) :
    LeaseResults :=
  let references_per_phase := get_num_leases_per_phase lr.leases
  let out := (references_per_phase.map (fun e => e.1)).foldl (fun acc phase =>
      (phaseTop lr.leases ri_hists llt_size phase).foldl
        (pruneStep lr.leases lr.dual_leases) acc)
    ([], [])
  { lr with leases := out.1, dual_leases := out.2 }

/-! ## Pruner characterization -/

theorem alookup_eq_none {β : Type} (j : Nat) (l : List (Nat × β)) :
    alookup j l = none ↔ j ∉ l.map (fun e => e.1) := by
  induction l with
  | nil => simp [alookup]
  | cons e t ih =>
    obtain ⟨a, b⟩ := e
    by_cases h : a = j
    · subst h; simp [alookup]
    · simp [alookup, h, ih, Ne.symm h]

theorem alookup_append_single {β : Type} (j k : Nat) (v : β) (l : List (Nat × β))
    (h : alookup k l = none) :
    alookup j (l ++ [(k, v)]) = if j = k then some v else alookup j l := by
  induction l with
  | nil =>
    by_cases hjk : j = k
    · subst hjk; simp [alookup]
    · simp [alookup, hjk, Ne.symm hjk]
  | cons e t ih =>
    obtain ⟨a, b⟩ := e
    have h3 : alookup k t = none := by
      by_cases hak : a = k
      · subst hak; simp [alookup] at h
      · simpa [alookup, hak] using h
    by_cases haj : a = j
    · subst haj
      by_cases hjk : a = k
      · subst hjk; simp [alookup] at h
      · simp [alookup, hjk]
    · rw [List.cons_append]
      show (if a = j then some b else alookup j (t ++ [(k, v)])) = _
      rw [if_neg haj, ih h3]
      by_cases hjk : j = k
      · simp [hjk]
      · simp [alookup, hjk, haj]

theorem alookup_ainsNew {β : Type} (j k : Nat) (v : β) (l : List (Nat × β)) :
    alookup j (ainsNew k v l)
      = if j = k then some ((alookup k l).getD v) else alookup j l := by
  unfold ainsNew
  cases h : alookup k l with
  | some w =>
    by_cases hjk : j = k
    · subst hjk; simp [h]
    · simp [hjk]
  | none =>
    rw [alookup_append_single j k v l h]
    simp [h]

theorem lookup_foldl_ains {β : Type} (v : Nat → β) (T : List Nat) (L : List (Nat × β))
    (j : Nat) :
    alookup j (T.foldl (fun a r => ainsNew r (v r) a) L)
      = if j ∈ T then some ((alookup j L).getD (v j)) else alookup j L := by
  induction T generalizing L with
  | nil => simp
  | cons r T ih =>
    simp only [List.foldl_cons, ih, alookup_ainsNew, List.mem_cons]
    by_cases hjr : j = r
    · subst hjr
      by_cases hjT : j ∈ T <;> simp [hjT]
    · by_cases hjT : j ∈ T <;> simp [hjr, hjT]

def ainsOpt {β : Type} (D : List (Nat × β)) (a : List (Nat × β)) (r : Nat) :
    List (Nat × β) :=
  match alookup r D with
  | some w => ainsNew r w a
  | none => a

theorem lookup_foldl_ainsOpt {β : Type} (D : List (Nat × β)) (T : List Nat)
    (L : List (Nat × β)) (j : Nat) :
    alookup j (T.foldl (ainsOpt D) L)
      = if j ∈ T then
          (alookup j D).elim (alookup j L) (fun w => some ((alookup j L).getD w))
        else alookup j L := by
  induction T generalizing L with
  | nil => simp
  | cons r T ih =>
    simp only [List.foldl_cons, List.mem_cons]
    by_cases hjr : j = r
    · subst hjr
      cases hD : alookup j D with
      | some w =>
        simp only [ainsOpt, hD, ih, alookup_ainsNew]
        by_cases hjT : j ∈ T <;> simp [hjT, hD]
      | none =>
        simp only [ainsOpt, hD, ih]
        by_cases hjT : j ∈ T <;> simp [hjT, hD]
    · cases hD : alookup r D with
      | some w =>
        simp only [ainsOpt, hD, ih, alookup_ainsNew]
        by_cases hjT : j ∈ T <;> simp [hjr, hjT]
      | none =>
        simp only [ainsOpt, hD, ih]
        by_cases hjT : j ∈ T <;> simp [hjr, hjT]

theorem keys_foldl_ains {β : Type} (v : Nat → β) (T : List Nat) (L : List (Nat × β))
    (hnd : (L.map (fun e => e.1) ++ T).Nodup) :
    (T.foldl (fun a r => ainsNew r (v r) a) L).map (fun e => e.1)
      = L.map (fun e => e.1) ++ T := by
  induction T generalizing L with
  | nil => simp
  | cons r T ih =>
    have hr : r ∉ L.map (fun e => e.1) := by
      intro hmem
      rcases List.nodup_append.mp hnd with ⟨_, _, hdisj⟩
      exact hdisj hmem (List.mem_cons_self r T)
    have hnone : alookup r L = none := (alookup_eq_none r L).mpr hr
    have hstep : ainsNew r (v r) L = L ++ [(r, v r)] := by
      unfold ainsNew; rw [hnone]
    simp only [List.foldl_cons, hstep]
    have hkeys : ((L ++ [(r, v r)]).map (fun e => e.1)) = L.map (fun e => e.1) ++ [r] := by
      simp
    have hnd2 : ((L ++ [(r, v r)]).map (fun e => e.1) ++ T).Nodup := by
      rw [hkeys, List.append_assoc]
      simpa using hnd
    rw [ih (L ++ [(r, v r)]) hnd2, hkeys, List.append_assoc]
    rfl

theorem foldl_pruneStep_fst (L : List (Nat × Nat)) (D : List (Nat × Fr × Nat))
    (T : List Nat) (acc : List (Nat × Nat) × List (Nat × Fr × Nat)) :
    (T.foldl (pruneStep L D) acc).1
      = T.foldl (fun a r => ainsNew r (aget r 0 L) a) acc.1 := by
  induction T generalizing acc with
  | nil => rfl
  | cons r T ih =>
    simp only [List.foldl_cons]
    rw [ih]
    rfl

theorem foldl_pruneStep_snd (L : List (Nat × Nat)) (D : List (Nat × Fr × Nat))
    (T : List Nat) (acc : List (Nat × Nat) × List (Nat × Fr × Nat)) :
    (T.foldl (pruneStep L D) acc).2
      = T.foldl (ainsOpt D) acc.2 := by
  induction T generalizing acc with
  | nil => rfl
  | cons r T ih =>
    simp only [List.foldl_cons]
    rw [ih]
    unfold pruneStep ainsOpt
    cases alookup r D <;> rfl

/-- The list of references the pruner keeps, over all phases in order. -/
def pruneSel (L : List (Nat × Nat)) (ri_hists : RIHists) (llt : Nat) : List Nat :=
  (((get_num_leases_per_phase L).map (fun e => e.1)).map
    (phaseTop L ri_hists llt)).join

theorem foldl_join_eq {α β : Type} (f : β → α → β) (b : β) (Q : List (List α)) :
    Q.join.foldl f b = Q.foldl (fun acc l => l.foldl f acc) b := by
  induction Q generalizing b with
  | nil => rfl
  | cons l Q ih => simp [List.foldl_append, ih]

theorem fold_phases_fst (L : List (Nat × Nat)) (D : List (Nat × Fr × Nat))
    (Q : List Nat) (tops : Nat → List Nat)
    (acc : List (Nat × Nat) × List (Nat × Fr × Nat)) :
    (Q.foldl (fun a p => (tops p).foldl (pruneStep L D) a) acc).1
      = Q.foldl (fun a p => (tops p).foldl
          (fun a r => ainsNew r (aget r 0 L) a) a) acc.1 := by
  induction Q generalizing acc with
  | nil => rfl
  | cons p Q ih =>
    simp only [List.foldl_cons]
    rw [ih, foldl_pruneStep_fst]

theorem fold_phases_snd (L : List (Nat × Nat)) (D : List (Nat × Fr × Nat))
    (Q : List Nat) (tops : Nat → List Nat)
    (acc : List (Nat × Nat) × List (Nat × Fr × Nat)) :
    (Q.foldl (fun a p => (tops p).foldl (pruneStep L D) a) acc).2
      = Q.foldl (fun a p => (tops p).foldl (ainsOpt D) a) acc.2 := by
  induction Q generalizing acc with
  | nil => rfl
  | cons p Q ih =>
    simp only [List.foldl_cons]
    rw [ih, foldl_pruneStep_snd]

theorem prune_leases_eq (lr : LeaseResults) (ri : RIHists) (llt : Nat) :
    (prune_leases_to_fit_llt lr ri llt).leases
      = (pruneSel lr.leases ri llt).foldl
          (fun a r => ainsNew r (aget r 0 lr.leases) a) [] := by
  unfold prune_leases_to_fit_llt pruneSel
  rw [foldl_join_eq, List.foldl_map]
  exact fold_phases_fst lr.leases lr.dual_leases _ _ ([], [])

theorem prune_duals_eq (lr : LeaseResults) (ri : RIHists) (llt : Nat) :
    (prune_leases_to_fit_llt lr ri llt).dual_leases
      = (pruneSel lr.leases ri llt).foldl (ainsOpt lr.dual_leases) [] := by
  unfold prune_leases_to_fit_llt pruneSel
  rw [foldl_join_eq, List.foldl_map]
  exact fold_phases_snd lr.leases lr.dual_leases _ _ ([], [])

theorem prune_lookup_leases (lr : LeaseResults) (ri : RIHists) (llt j : Nat) :
    alookup j (prune_leases_to_fit_llt lr ri llt).leases
      = if j ∈ pruneSel lr.leases ri llt then some (aget j 0 lr.leases) else none := by
  rw [prune_leases_eq, lookup_foldl_ains]
  by_cases h : j ∈ pruneSel lr.leases ri llt <;> simp [h, alookup]

theorem prune_lookup_duals (lr : LeaseResults) (ri : RIHists) (llt j : Nat) :
    alookup j (prune_leases_to_fit_llt lr ri llt).dual_leases
      = if j ∈ pruneSel lr.leases ri llt then alookup j lr.dual_leases else none := by
  rw [prune_duals_eq, lookup_foldl_ainsOpt]
  by_cases h : j ∈ pruneSel lr.leases ri llt <;>
    cases hD : alookup j lr.dual_leases <;> simp [h, hD, alookup]

theorem mem_aupd_keys {β : Type} (p k : Nat) (d : β) (f : β → β) (l : List (Nat × β)) :
    p ∈ (aupd k d f l).map (fun e => e.1)
      ↔ p = k ∨ p ∈ l.map (fun e => e.1) := by
  rw [aupd_keys]
  by_cases hk : k ∈ l.map (fun e => e.1)
  · rw [if_pos hk]
    constructor
    · exact Or.inr
    · rintro (rfl | h)
      · exact hk
      · exact h
  · rw [if_neg hk]
    simp [or_comm]

theorem nodup_numLeases_keys (L : List (Nat × Nat)) :
    ((get_num_leases_per_phase L).map (fun e => e.1)).Nodup := by
  unfold get_num_leases_per_phase
  have main : ∀ (m : List (Nat × Nat)), (m.map (fun e => e.1)).Nodup →
      ((L.foldl (fun m e => aupd (phaseOf e.1) 0 (fun n => n + 1) m) m).map
        (fun e => e.1)).Nodup := by
    induction L with
    | nil => intro m hm; exact hm
    | cons e t ih =>
      intro m hm
      exact ih _ (aupd_keys_nodup _ _ _ _ hm)
  exact main [] (by simp)

theorem mem_numLeases_keys (L : List (Nat × Nat)) (p : Nat) :
    p ∈ (get_num_leases_per_phase L).map (fun e => e.1)
      ↔ ∃ e ∈ L, phaseOf e.1 = p := by
  unfold get_num_leases_per_phase
  have main : ∀ (m : List (Nat × Nat)),
      (p ∈ (L.foldl (fun m e => aupd (phaseOf e.1) 0 (fun n => n + 1) m) m).map
        (fun e => e.1)
       ↔ p ∈ m.map (fun e => e.1) ∨ ∃ e ∈ L, phaseOf e.1 = p) := by
    induction L with
    | nil => intro m; simp
    | cons e t ih =>
      intro m
      rw [List.foldl_cons, ih, mem_aupd_keys]
      constructor
      · rintro ((rfl | hm) | ⟨x, hx, hp⟩)
        · exact Or.inr ⟨e, List.mem_cons_self e t, rfl⟩
        · exact Or.inl hm
        · exact Or.inr ⟨x, List.mem_cons_of_mem e hx, hp⟩
      · rintro (hm | ⟨x, hx, hp⟩)
        · exact Or.inl (Or.inr hm)
        · rcases List.mem_cons.mp hx with rfl | hx2
          · exact Or.inl (Or.inl hp.symm)
          · exact Or.inr ⟨x, hx2, hp⟩
  rw [main []]
  simp

theorem mem_phaseTop {L : List (Nat × Nat)} {ri : RIHists} {llt p r : Nat}
    (h : r ∈ phaseTop L ri llt p) :
    phaseOf r = p ∧ r ∈ L.map (fun e => e.1) := by
  unfold phaseTop at h
  rcases List.mem_map.mp h with ⟨e, he, rfl⟩
  have he2 : e ∈ List.insertionSort (fun a b : Nat × Nat => b.2 ≤ a.2)
      (importanceList L ri p) := List.take_subset _ _ he
  have he3 : e ∈ importanceList L ri p :=
    (List.perm_insertionSort _ _).mem_iff.mp he2
  unfold importanceList at he3
  rcases List.mem_map.mp he3 with ⟨x, hx, rfl⟩
  have hxf := List.mem_filter.mp hx
  constructor
  · simpa using hxf.2
  · exact List.mem_map.mpr ⟨x, hxf.1, rfl⟩

theorem mem_importance_keys (L : List (Nat × Nat)) (ri : RIHists) (p j : Nat) :
    j ∈ (importanceList L ri p).map (fun e => e.1)
      ↔ j ∈ L.map (fun e => e.1) ∧ phaseOf j = p := by
  unfold importanceList
  rw [List.map_map]
  constructor
  · intro h
    rcases List.mem_map.mp h with ⟨x, hx, rfl⟩
    have hxf := List.mem_filter.mp hx
    exact ⟨List.mem_map.mpr ⟨x, hxf.1, rfl⟩, by simpa using hxf.2⟩
  · rintro ⟨hj, hp⟩
    rcases List.mem_map.mp hj with ⟨x, hx, rfl⟩
    exact List.mem_map.mpr ⟨x, List.mem_filter.mpr ⟨hx, by simpa using hp⟩, rfl⟩

theorem importance_keys_eq (L : List (Nat × Nat)) (ri : RIHists) (p : Nat) :
    (importanceList L ri p).map (fun e => e.1)
      = (L.filter (fun e => phaseOf e.1 == p)).map (fun e => e.1) := by
  unfold importanceList
  rw [List.map_map]
  rfl

theorem nodup_phaseTop {L : List (Nat × Nat)} {ri : RIHists} {llt p : Nat}
    (hnd : (L.map (fun e => e.1)).Nodup) :
    (phaseTop L ri llt p).Nodup := by
  unfold phaseTop
  have h1 : ((L.filter (fun e => phaseOf e.1 == p)).map (fun e => e.1)).Nodup :=
    hnd.sublist (List.Sublist.map (fun e => e.1) (List.filter_sublist L))
  have h2 : ((importanceList L ri p).map (fun e => e.1)).Nodup := by
    rw [importance_keys_eq]; exact h1
  have hperm : List.Perm
      ((List.insertionSort (fun a b : Nat × Nat => b.2 ≤ a.2)
        (importanceList L ri p)).map (fun e => e.1))
      ((importanceList L ri p).map (fun e => e.1)) :=
    (List.perm_insertionSort _ _).map _
  have h3 := (hperm.nodup_iff).mpr h2
  exact h3.sublist (List.Sublist.map (fun e : Nat × Nat => e.1) (List.take_sublist llt _))

theorem length_phaseTop_le (L : List (Nat × Nat)) (ri : RIHists) (llt p : Nat) :
    (phaseTop L ri llt p).length ≤ llt := by
  unfold phaseTop
  rw [List.length_map]
  exact List.length_take_le _ _

theorem mem_pruneSel {L : List (Nat × Nat)} {ri : RIHists} {llt j : Nat} :
    j ∈ pruneSel L ri llt
      ↔ ∃ p, p ∈ (get_num_leases_per_phase L).map (fun e => e.1)
          ∧ j ∈ phaseTop L ri llt p := by
  unfold pruneSel
  constructor
  · intro h
    rcases List.mem_join.mp h with ⟨l, hl, hj⟩
    rcases List.mem_map.mp hl with ⟨p, hp, rfl⟩
    exact ⟨p, hp, hj⟩
  · rintro ⟨p, hp, hj⟩
    exact List.mem_join.mpr ⟨_, List.mem_map.mpr ⟨p, hp, rfl⟩, hj⟩

theorem nodup_pruneSel (L : List (Nat × Nat)) (ri : RIHists) (llt : Nat)
    (hnd : (L.map (fun e => e.1)).Nodup) :
    (pruneSel L ri llt).Nodup := by
  unfold pruneSel
  rw [List.nodup_join]
  constructor
  · intro l hl
    rcases List.mem_map.mp hl with ⟨p, _, rfl⟩
    exact nodup_phaseTop hnd
  · rw [List.pairwise_map]
    have hq := (nodup_numLeases_keys L)
    refine hq.imp ?_
    intro p q hpq x hxp hxq
    exact hpq ((mem_phaseTop hxp).1 ▸ (mem_phaseTop hxq).1.symm ▸ rfl)

theorem prune_keys (lr : LeaseResults) (ri : RIHists) (llt : Nat)
    (hnd : (lr.leases.map (fun e => e.1)).Nodup) :
    (prune_leases_to_fit_llt lr ri llt).leases.map (fun e => e.1)
      = pruneSel lr.leases ri llt := by
  rw [prune_leases_eq]
  have h := keys_foldl_ains (fun r => aget r 0 lr.leases)
    (pruneSel lr.leases ri llt) []
    (by simpa using nodup_pruneSel lr.leases ri llt hnd)
  simpa using h

theorem mem_phaseTop_of_small (L : List (Nat × Nat)) (ri : RIHists) (llt p j : Nat)
    (hlen : (L.filter (fun e => phaseOf e.1 == p)).length ≤ llt)
    (hj : j ∈ L.map (fun e => e.1)) (hp : phaseOf j = p) :
    j ∈ phaseTop L ri llt p := by
  unfold phaseTop
  have hlen2 : (List.insertionSort (fun a b : Nat × Nat => b.2 ≤ a.2)
      (importanceList L ri p)).length ≤ llt := by
    rw [List.length_insertionSort]
    unfold importanceList
    simpa using hlen
  rw [List.take_of_length_le hlen2]
  have hperm : List.Perm
      ((List.insertionSort (fun a b : Nat × Nat => b.2 ≤ a.2)
        (importanceList L ri p)).map (fun e => e.1))
      ((importanceList L ri p).map (fun e => e.1)) :=
    (List.perm_insertionSort _ _).map _
  rw [hperm.mem_iff]
  exact (mem_importance_keys L ri p j).mpr ⟨hj, hp⟩

theorem pruned_filter_length_le (lr : LeaseResults) (ri : RIHists) (llt p : Nat)
    (hnd : (lr.leases.map (fun e => e.1)).Nodup) :
    ((prune_leases_to_fit_llt lr ri llt).leases.filter
      (fun e => phaseOf e.1 == p)).length ≤ llt := by
  have hkeys := prune_keys lr ri llt hnd
  have hnd1 : ((prune_leases_to_fit_llt lr ri llt).leases.map (fun e => e.1)).Nodup := by
    rw [hkeys]; exact nodup_pruneSel lr.leases ri llt hnd
  have hndF : (((prune_leases_to_fit_llt lr ri llt).leases.filter
      (fun e => phaseOf e.1 == p)).map (fun e => e.1)).Nodup :=
    hnd1.sublist (List.Sublist.map (fun e : Nat × Nat => e.1)
      (List.filter_sublist _))
  have hsub : ((prune_leases_to_fit_llt lr ri llt).leases.filter
      (fun e => phaseOf e.1 == p)).map (fun e => e.1)
        ⊆ phaseTop lr.leases ri llt p := by
    intro x hx
    rcases List.mem_map.mp hx with ⟨e, he, rfl⟩
    have hef := List.mem_filter.mp he
    have hxk : e.1 ∈ (prune_leases_to_fit_llt lr ri llt).leases.map (fun e => e.1) :=
      List.mem_map.mpr ⟨e, hef.1, rfl⟩
    rw [hkeys] at hxk
    rcases mem_pruneSel.mp hxk with ⟨q, _, hxq⟩
    have hq := (mem_phaseTop hxq).1
    have hp : phaseOf e.1 = p := by simpa using hef.2
    rw [hp] at hq
    rw [hq]
    exact hxq
  have hsp := List.subperm_of_subset hndF hsub
  have hle := hsp.length_le
  rw [List.length_map] at hle
  exact le_trans hle (length_phaseTop_le lr.leases ri llt p)

theorem mem_pruneSel_prune (lr : LeaseResults) (ri : RIHists) (llt j : Nat)
    (hnd : (lr.leases.map (fun e => e.1)).Nodup) :
    j ∈ pruneSel (prune_leases_to_fit_llt lr ri llt).leases ri llt
      ↔ j ∈ pruneSel lr.leases ri llt := by
  constructor
  · intro h
    rcases mem_pruneSel.mp h with ⟨p, _, hj⟩
    have hk := (mem_phaseTop hj).2
    rw [prune_keys lr ri llt hnd] at hk
    exact hk
  · intro h
    have hjk : j ∈ (prune_leases_to_fit_llt lr ri llt).leases.map (fun e => e.1) := by
      rw [prune_keys lr ri llt hnd]; exact h
    refine mem_pruneSel.mpr ⟨phaseOf j, ?_, ?_⟩
    · rw [mem_numLeases_keys]
      rcases List.mem_map.mp hjk with ⟨e, he, rfl⟩
      exact ⟨e, he, rfl⟩
    · exact mem_phaseTop_of_small _ ri llt (phaseOf j) j
        (pruned_filter_length_le lr ri llt (phaseOf j) hnd) hjk rfl

/-- C8: prune_leases_to_fit_llt is idempotent: for any LeaseResults whose
leases map has well-formed (duplicate-free) keys, pruning twice with the same
RI histograms and the same llt_size gives the same leases map and the same
dual_leases map (as HashMap lookups) as pruning once. -/
theorem C8_prune_idempotent (lr : LeaseResults) (ri : RIHists) (llt : Nat)
    (hnd : (lr.leases.map (fun e => e.1)).Nodup) :
    (∀ j, alookup j (prune_leases_to_fit_llt
            (prune_leases_to_fit_llt lr ri llt) ri llt).leases
          = alookup j (prune_leases_to_fit_llt lr ri llt).leases)
    ∧ (∀ j, alookup j (prune_leases_to_fit_llt
            (prune_leases_to_fit_llt lr ri llt) ri llt).dual_leases
          = alookup j (prune_leases_to_fit_llt lr ri llt).dual_leases) := by
  constructor
  · intro j
    rw [prune_lookup_leases, prune_lookup_leases]
    by_cases h : j ∈ pruneSel lr.leases ri llt
    · have h2 : j ∈ pruneSel (prune_leases_to_fit_llt lr ri llt).leases ri llt :=
        (mem_pruneSel_prune lr ri llt j hnd).mpr h
      rw [if_pos h2, if_pos h]
      unfold aget
      rw [prune_lookup_leases, if_pos h]
      simp [aget]
    · have h2 : j ∉ pruneSel (prune_leases_to_fit_llt lr ri llt).leases ri llt :=
        fun hc => h ((mem_pruneSel_prune lr ri llt j hnd).mp hc)
      rw [if_neg h2, if_neg h]
  · intro j
    by_cases h : j ∈ pruneSel lr.leases ri llt
    · have h2 : j ∈ pruneSel (prune_leases_to_fit_llt lr ri llt).leases ri llt :=
        (mem_pruneSel_prune lr ri llt j hnd).mpr h
      rw [prune_lookup_duals, if_pos h2, prune_lookup_duals, if_pos h]
    · have h2 : j ∉ pruneSel (prune_leases_to_fit_llt lr ri llt).leases ri llt :=
        fun hc => h ((mem_pruneSel_prune lr ri llt j hnd).mp hc)
      rw [prune_lookup_duals, if_neg h2, prune_lookup_duals, if_neg h]

/-- A concrete assignment for exercising the pruner: two references in phase
0 with distinct importance, one of them holding a dual lease, llt_size 1. -/
def pruneDemo : LeaseResults :=
  { leases := [(1, 5), (2, 3)]
    dual_leases := [(1, ⟨1, 2⟩, 10)]
    lease_hits := []
    trace_length := 100 }

/-- The histograms for the pruner demo: reference 2 is the more important. -/
def pruneDemoHists : RIHists :=
  [(2, [(4, ⟨7, []⟩)]), (1, [(4, ⟨2, []⟩)])]

theorem C8_prune_idempotent_witness :
    ((pruneDemo.leases.map (fun e => e.1)).Nodup)
    ∧ ((∀ j, alookup j (prune_leases_to_fit_llt
            (prune_leases_to_fit_llt pruneDemo pruneDemoHists 1)
            pruneDemoHists 1).leases
          = alookup j (prune_leases_to_fit_llt pruneDemo pruneDemoHists 1).leases)
      ∧ (∀ j, alookup j (prune_leases_to_fit_llt
            (prune_leases_to_fit_llt pruneDemo pruneDemoHists 1)
            pruneDemoHists 1).dual_leases
          = alookup j (prune_leases_to_fit_llt pruneDemo pruneDemoHists 1).dual_leases)) :=
  ⟨by decide, C8_prune_idempotent pruneDemo pruneDemoHists 1 (by decide)⟩

/-! # The predictor (io.rs, dump_leases)

The source iterates the leases HashMap to build the lease vector (iteration
order of the embedding: list order), sorts it by (phase, address), and
accumulates the predicted hit count one rounded term at a time.  The
lease_hits lookup per reference is unwrapped in the source (a missing table
would panic); the embedding reads a missing table as empty. -/

/-- One row of the lease output vector for one leases entry:
(phase, address, short lease, long lease, percentage), with a zero lease
rewritten to 1 and percentage = 1.0 - p for a dual lease of stored first
component p, 1.0 otherwise. -/
def vecEntry (dual_leases : List (Nat × Fr × Nat)) (e : Nat × Nat) :
    Nat × Nat × Nat × Nat × Fr :=
  let lease := if 0 < e.2 then e.2 else 1
  match alookup e.1 dual_leases with
  | some d => (phaseOf e.1, e.1 % 2 ^ 24, lease, d.2, Fr.sub Fr.one d.1)
  | none => (phaseOf e.1, e.1 % 2 ^ 24, lease, 0, Fr.one)

def leaseVector (lr : LeaseResults) : List (Nat × Nat × Nat × Nat × Fr) :=
  lr.leases.map (vecEntry lr.dual_leases)

/-- sort_by_key (phase, address). -/
def vecLex (a b : Nat × Nat × Nat × Nat × Fr) : Prop :=
  a.1 < b.1 ∨ (a.1 = b.1 ∧ a.2.1 ≤ b.2.1)

instance vecLexDec : DecidableRel vecLex := fun a b => by
  unfold vecLex
  infer_instance

/-- The predicted hits of one vector row: the short-lease hit entry times the
percentage plus the long-lease hit entry times 1 - percentage, each rounded,
with absent hit entries contributing nothing. -/
def hitsOfEntry (lease_hits : List (Nat × List (Nat × Nat))) 
    (ent : Nat × Nat × Nat × Nat × Fr) : Nat :=
  match ent with
  | (phase, address, lease_short, lease_long, percentage) =>
    let pa := address + phase * 2 ^ 24
    let tbl := aget pa [] lease_hits
    (match alookup lease_short tbl with
     | some h => (Fr.mul ⟨(h : Int), 1⟩ percentage).roundNat
     | none => 0)
    + (match alookup lease_long tbl with
       | some h => (Fr.mul ⟨(h : Int), 1⟩ (Fr.sub Fr.one percentage)).roundNat
       | none => 0)

/-- The accumulated num_hits of io.rs dump_leases. -/
def dumpNumHits (lr : LeaseResults) : Nat :=
  (List.insertionSort vecLex (leaseVector lr)).foldl
    (fun acc ent => acc + hitsOfEntry lr.lease_hits ent) 0

/-- io.rs dump_leases: returns (trace_length,
trace_length - num_hits * sampling_rate + first_misses). -/
def dump_leases (lr : LeaseResults) (sampling_rate first_misses : Nat) : Nat × Nat :=
  (lr.trace_length,
   lr.trace_length - dumpNumHits lr * sampling_rate + first_misses)

/-- The hit total exactly as claim C3 states it, reading the stored first
component of a dual entry as alpha, the probability of the short lease:
sum over references of short_hits * alpha + long_hits * (1 - alpha), in exact
rational arithmetic, with alpha = 1 for references without a dual lease. -/
def claimHitsStoredShortP (lr : LeaseResults) : ℚ :=
  (lr.leases.map (fun e =>
    let pa := e.1 % 2 ^ 24 + phaseOf e.1 * 2 ^ 24
    let tbl := aget pa [] lr.lease_hits
    let lease := if 0 < e.2 then e.2 else 1
    match alookup e.1 lr.dual_leases with
    | some d => ((aget lease 0 tbl : ℕ) : ℚ) * d.1.toQ + ((aget d.2 0 tbl : ℕ) : ℚ) * (1 - d.1.toQ)
    | none => ((aget lease 0 tbl : ℕ) : ℚ))).sum

/-- The hit total as claim C3 states it under the other reading of the
stored dual component: alpha, the probability of the short lease, taken as
1 - p for stored p. -/
def claimHitsStoredLongP (lr : LeaseResults) : ℚ :=
  (lr.leases.map (fun e =>
    let pa := e.1 % 2 ^ 24 + phaseOf e.1 * 2 ^ 24
    let tbl := aget pa [] lr.lease_hits
    let lease := if 0 < e.2 then e.2 else 1
    match alookup e.1 lr.dual_leases with
    | some d => ((aget lease 0 tbl : ℕ) : ℚ) * (1 - d.1.toQ) + ((aget d.2 0 tbl : ℕ) : ℚ) * d.1.toQ
    | none => ((aget lease 0 tbl : ℕ) : ℚ))).sum

/-- The per-reference predicted hits the code actually computes: alpha is
1 - p for a stored dual component p (1 for no dual), and each of the two
products is rounded to the nearest integer separately. -/
def refPredictedHits (lr : LeaseResults) (e : Nat × Nat) : Nat :=
  let alpha := match alookup e.1 lr.dual_leases with
               | some d => Fr.sub Fr.one d.1
               | none => Fr.one
  let longLease := match alookup e.1 lr.dual_leases with
                   | some d => d.2
                   | none => 0
  let pa := e.1 % 2 ^ 24 + phaseOf e.1 * 2 ^ 24
  let tbl := aget pa [] lr.lease_hits
  let lease := if 0 < e.2 then e.2 else 1
  (match alookup lease tbl with
   | some h => (Fr.mul ⟨(h : Int), 1⟩ alpha).roundNat
   | none => 0)
  + (match alookup longLease tbl with
     | some h => (Fr.mul ⟨(h : Int), 1⟩ (Fr.sub Fr.one alpha)).roundNat
     | none => 0)

theorem foldl_add_map {α : Type} (f : α → Nat) (l : List α) (n : Nat) :
    l.foldl (fun acc x => acc + f x) n = n + (l.map f).sum := by
  induction l generalizing n with
  | nil => simp
  | cons a t ih =>
    simp only [List.foldl_cons, List.map_cons, List.sum_cons, ih]
    omega

theorem hitsOfEntry_vecEntry (lr : LeaseResults) (e : Nat × Nat) :
    hitsOfEntry lr.lease_hits (vecEntry lr.dual_leases e) = refPredictedHits lr e := by
  unfold hitsOfEntry vecEntry refPredictedHits
  cases alookup e.1 lr.dual_leases with
  | some d => simp [Nat.add_comm (e.1 % 2 ^ 24) (phaseOf e.1 * 2 ^ 24)]
  | none => simp [Nat.add_comm (e.1 % 2 ^ 24) (phaseOf e.1 * 2 ^ 24)]

/-- A run of the predictor on one dual-leased reference: short lease 2 with
1 sampled hit, long lease 5 with 2 sampled hits, stored dual component 1/4. -/
def dumpDemo : LeaseResults :=
  { leases := [(7, 2)]
    dual_leases := [(7, ⟨1, 4⟩, 5)]
    lease_hits := [(7, [(2, 1), (5, 2)])]
    trace_length := 100 }

/-- C3 counterexample: the predictor rounds each of the two products to an
integer separately, so the accumulated num_hits (here 2) differs from the
exact sum short_hits * alpha + long_hits * (1 - alpha) of the claim under
both readings of the stored dual component (7/4 when alpha is read as the
stored p = 1/4, 5/4 when alpha is read as 1 - p = 3/4), and the returned
predicted miss count uses the rounded total. -/
theorem C3_counterexample :
    ((dumpNumHits dumpDemo : ℕ) : ℚ) ≠ claimHitsStoredShortP dumpDemo
    ∧ ((dumpNumHits dumpDemo : ℕ) : ℚ) ≠ claimHitsStoredLongP dumpDemo
    ∧ dump_leases dumpDemo 1 0 = (100, 98) := by
  have h2 : dumpNumHits dumpDemo = 2 := by decide
  have hA : claimHitsStoredShortP dumpDemo = 7 / 4 := by
    norm_num [claimHitsStoredShortP, dumpDemo, aget, alookup, phaseOf, Fr.toQ]
  have hB : claimHitsStoredLongP dumpDemo = 5 / 4 := by
    norm_num [claimHitsStoredLongP, dumpDemo, aget, alookup, phaseOf, Fr.toQ]
  refine ⟨?_, ?_, ?_⟩
  · rw [h2, hA]; norm_num
  · rw [h2, hB]; norm_num
  · unfold dump_leases
    rw [h2]
    rfl

/-- C3 amended: the predicted totals of dump_leases.  The first component is
the trace length; the predicted miss count is trace_length - hits *
sampling_rate + first_misses where hits is the sum over assigned references
of round(short_hits * alpha) + round(long_hits * (1 - alpha)), each product
rounded to the nearest integer separately, with alpha = 1 - p for a stored
dual component p and alpha = 1 for references without a dual lease, and
absent hit-table entries contributing 0; sorting the lease vector does not
change the total. -/
theorem C3_amended (lr : LeaseResults) (rate fm : Nat) :
    dump_leases lr rate fm
      = (lr.trace_length,
         lr.trace_length - ((lr.leases.map (refPredictedHits lr)).sum) * rate + fm) := by
  unfold dump_leases
  suffices h : dumpNumHits lr = (lr.leases.map (refPredictedHits lr)).sum by rw [h]
  unfold dumpNumHits
  rw [foldl_add_map, Nat.zero_add]
  have hperm : List.Perm (List.insertionSort vecLex (leaseVector lr)) (leaseVector lr) :=
    List.perm_insertionSort _ _
  rw [(hperm.map (hitsOfEntry lr.lease_hits)).sum_eq]
  unfold leaseVector
  rw [List.map_map]
  have hmap : List.map (hitsOfEntry lr.lease_hits ∘ vecEntry lr.dual_leases) lr.leases
      = List.map (refPredictedHits lr) lr.leases :=
    List.map_congr_left (fun e _ => hitsOfEntry_vecEntry lr e)
  rw [hmap]

/-! # The SHEL / C-SHEL allocator (lease_gen.rs, shel_cshel)

The allocator is embedded as an explicit state machine: shelInit builds the
state the source holds when it enters its main loop, shelStep is one loop
iteration, and shelRun iterates with fuel.  HashMap iteration orders are the
first-occurrence orders of the association lists; the key-set iteration
order of samples_per_phase, which the source captures once in phase_ids, is
an explicit context field.  f64 arithmetic is exact rational arithmetic (Fr);
BinaryHeap with the reversed PPUC ordering pops an element of minimum ppuc
(ties resolved to the earliest pushed, where the source leaves the order
unspecified).  Unwrapped HashMap lookups read defaults where the source
would panic. -/

structure ShelCtx where
  cshel : Bool
  set_mask : Nat
  cache_size : Nat
  sample_rate : Nat
  discretize : Nat
  ri_hists : RIHists
  samples_per_phase : List (Nat × Nat)
  phase_ids : List Nat
  deriving Repr

def numSets (ctx : ShelCtx) : Nat := ctx.set_mask + 1

/-- The dual-lease threshold 1.0 - (2^D - 1.5)/(2^D - 1.0) = 0.5/(2^D - 1).
Exact in f64 for D = 1; for larger D the f64 quotient differs from the
exact value by rounding, which the embedding ignores. -/
def minAlpha (d : Nat) : Fr := ⟨1, 2 * (2 ^ d - 1)⟩

def Fr.eqOne (a : Fr) : Bool := a.num == a.den

structure ShelState where
  cost_per_phase : List (Nat × List (Nat × Nat))
  budget_per_phase : List (Nat × Nat)
  leases : List (Nat × Nat)
  dual_leases : List (Nat × Fr × Nat)
  trace_length : Nat
  lease_hits : List (Nat × List (Nat × Nat))
  dual_lease_phases : List Nat
  past_lease_values : List (Nat × Nat × Nat)
  last_lease_cost : List (Nat × List (Nat × (Nat × Nat × Nat)))
  ppuc_tree : List PPUC
  deriving Repr

/-- The per-phase, per-set cost of moving ref_id from old_lease to new_lease
in the selected mode. -/
def costFn (ctx : ShelCtx) (phase spr old new : Nat) : Nat :=
  if ctx.cshel then cshel_phase_ref_cost ctx.sample_rate phase spr old new ctx.ri_hists
  else shel_phase_ref_cost ctx.sample_rate phase spr old new ctx.ri_hists

/-- new_phase_ref_cost as a function of phase and set. -/
def nprcF (ctx : ShelCtx) (ref_id old new : Nat) (phase set : Nat) : Nat :=
  costFn ctx phase (ref_id + set * 2 ^ 32) old new

def heapMin (p : PPUC) (h : List PPUC) : PPUC :=
  h.foldl (fun m q => if Fr.blt q.ppuc m.ppuc then q else m) p

def popHeap (h : List PPUC) : Option (PPUC × List PPUC) :=
  match h with
  | [] => none
  | p :: t =>
    let m := heapMin p t
    some (m, (p :: t).erase m)

def pushPPUC (ctx : ShelCtx) (h : List PPUC) (ref lease : Nat) : List PPUC :=
  h ++ get_ppuc ref lease (aget ref [] ctx.ri_hists)

def shelInit (ctx : ShelCtx) : ShelState :=
  let leases := ctx.ri_hists.foldl (fun l e => aset (mask32 e.1) 1 l) []
  let lease_hits := ctx.ri_hists.foldl (fun lh e =>
    (get_ppuc e.1 0 e.2).foldl (fun lh p =>
      aupd p.ref_id [] (aupd p.lease 0 (fun h => h + p.new_hits)) lh) lh) []
  let ppuc_tree := ctx.ri_hists.foldl (fun h e => h ++ get_ppuc e.1 1 e.2) []
  let budget := ctx.samples_per_phase.foldl (fun b e =>
    ainsNew e.1 (e.2 * ctx.cache_size / numSets ctx * ctx.sample_rate) b) []
  let trace_length := ctx.samples_per_phase.foldl
    (fun t e => t + e.2 * ctx.sample_rate) 0
  let cost := ctx.ri_hists.foldl (fun cpp e =>
    let phase := phaseOf e.1
    (List.range (numSets ctx)).foldl (fun cpp set =>
      let c := costFn ctx phase (mask32 e.1 + set * 2 ^ 32) 0 1
      aupd phase [] (fun sets => aupd set 0 (fun v => v + c) sets) cpp) cpp) []
  { cost_per_phase := cost
    budget_per_phase := budget
    leases := leases
    dual_leases := []
    trace_length := trace_length
    lease_hits := lease_hits
    dual_lease_phases := []
    past_lease_values := []
    last_lease_cost := []
    ppuc_tree := ppuc_tree }

def acceptableB (ctx : ShelCtx) (cpp : List (Nat × List (Nat × Nat)))
    (budget : List (Nat × Nat)) (nprc : Nat → Nat → Nat) : Bool :=
  cpp.all (fun pe => (List.range (numSets ctx)).all (fun st =>
    nprc pe.1 st + aget st 0 pe.2 ≤ aget pe.1 0 budget))

/-- The running minimum alpha over every (phase, set) entry with a positive
new cost, starting from 1.0; remaining budget uses truncated subtraction
where the source would already have panicked. -/
def alphaFold (cpp : List (Nat × List (Nat × Nat))) (budget : List (Nat × Nat))
    (nprc : Nat → Nat → Nat) : Fr :=
  cpp.foldl (fun a pe =>
    pe.2.foldl (fun a se =>
      let c := nprc pe.1 se.1
      if 0 < c then
        Fr.fmin a ⟨((aget pe.1 0 budget - se.2 : Nat) : Int), (c : Int)⟩
      else a) a) Fr.one

/-- The same running minimum restricted to the phase of the candidate. -/
def alphaFoldPhase (cpp : List (Nat × List (Nat × Nat))) (budget : List (Nat × Nat))
    (nprc : Nat → Nat → Nat) (phase0 : Nat) : Fr :=
  cpp.foldl (fun a pe =>
    pe.2.foldl (fun a se =>
      let c := nprc pe.1 se.1
      if pe.1 = phase0 ∧ 0 < c then
        Fr.fmin a ⟨((aget pe.1 0 budget - se.2 : Nat) : Int), (c : Int)⟩
      else a) a) Fr.one

/-- Add f to every (phase, set) cost entry. -/
def addCost (cpp : List (Nat × List (Nat × Nat))) (f : Nat → Nat → Nat) :
    List (Nat × List (Nat × Nat)) :=
  cpp.map (fun pe => (pe.1, pe.2.map (fun se => (se.1, se.2 + f pe.1 se.1))))

/-- Add f to every (phase, set) cost entry and clamp to the phase budget. -/
def bumpClampCost (cpp : List (Nat × List (Nat × Nat))) (budget : List (Nat × Nat))
    (f : Nat → Nat → Nat) : List (Nat × List (Nat × Nat)) :=
  cpp.map (fun pe => (pe.1, pe.2.map (fun se =>
    let v := se.2 + f pe.1 se.1
    (se.1, if aget pe.1 0 budget < v then aget pe.1 0 budget else v))))

/-- The accumulator of the C-SHEL back-adjustment scan (lease_gen.rs
1086-1168): tentative per-phase per-set costs, tentative per-phase alphas,
the feasibility flag and the running (not per-phase) minimum alpha. -/
structure AdjA where
  new_costs : List (Nat × List (Nat × Nat))
  new_alpha : List (Nat × Fr)
  adjust : Bool
  phase_alpha : Fr

/-- The set loop of the back-adjustment scan for one phase, with the two
inner breaks leaving the remaining sets of the phase unprocessed. -/
def adjSets (cpp : List (Nat × List (Nat × Nat)))
    (llc : List (Nat × List (Nat × Nat × Nat × Nat)))
    (budget : List (Nat × Nat)) (ma cpa : Fr) (nprc : Nat → Nat → Nat)
    (p : Nat) : AdjA → List Nat → AdjA
  | st, [] => st
  | st, set :: rest =>
    let sprc := nprc p set
    if 0 < sprc then
      let pca := match alookup p llc with
        | none => 0
        | some t =>
          match alookup set t with
          | none => 0
          | some v => v.1
      let new_cost := aget set 0 (aget p [] cpp) - pca
        + (Fr.mul ⟨(sprc : Int), 1⟩ cpa).roundNat
      let st1 := { st with new_costs := aupd p [] (aset set new_cost) st.new_costs }
      if aget p 0 budget < new_cost then { st1 with adjust := false }
      else
        let remaining := aget p 0 budget - new_cost
        let pcm := if pca ≠ 0 then (aget set (0, 0, 0) (aget p [] llc)).2.1 else 0
        if pcm ≠ 0 then
          let spa := Fr.fmin Fr.one ⟨(remaining : Int), (pcm : Int)⟩
          if Fr.ble spa ma then { st1 with adjust := false }
          else
            let pa2 := if Fr.blt spa st.phase_alpha then spa else st.phase_alpha
            adjSets cpp llc budget ma cpa nprc p
              { st1 with phase_alpha := pa2, new_alpha := aset p pa2 st.new_alpha } rest
        else adjSets cpp llc budget ma cpa nprc p st1 rest
    else
      adjSets cpp llc budget ma cpa nprc p
        { st with new_costs := aupd p [] (aset set (aget set 0 (aget p [] cpp))) st.new_costs }
        rest

def adjPhaseA (ctx : ShelCtx) (cpp : List (Nat × List (Nat × Nat)))
    (llc : List (Nat × List (Nat × Nat × Nat × Nat)))
    (budget : List (Nat × Nat)) (cpa : Fr) (nprc : Nat → Nat → Nat) : AdjA :=
  ctx.phase_ids.foldl
    (fun st p => adjSets cpp llc budget (minAlpha ctx.discretize) cpa nprc p st
      (List.range (numSets ctx)))
    ⟨[], [], true, Fr.one⟩

/-- The mutable state of the back-adjustment commit loop (lease_gen.rs
1169-1241). -/
structure AdjB where
  cpp : List (Nat × List (Nat × Nat))
  llc : List (Nat × List (Nat × Nat × Nat × Nat))
  leases : List (Nat × Nat)
  duals : List (Nat × Fr × Nat)
  dlp : List Nat

/-- One (phase, set) step of the back-adjustment commit.  The phase test
against the candidate uses the unmasked ref_id exactly as the source does
(lease_gen.rs 1194). -/
def adjStepB (plv : List (Nat × Nat × Nat)) (budget : List (Nat × Nat))
    (A : AdjA) (m_ref_id : Nat) (b : AdjB) (p set : Nat) : AdjB :=
  match alookup p A.new_alpha with
  | some na =>
    let entry := aget set (0, 0, 0) (aget p [] b.llc)
    let old_max := entry.2.1
    let old_ref := entry.2.2
    let npc := (Fr.mul ⟨(old_max : Int), 1⟩ na).floorNat
    let b1 :=
      if p ∈ b.dlp then
        { b with duals := aset old_ref (na, (aget old_ref (Fr.zero, 0) b.duals).2) b.duals }
      else if p ≠ m_ref_id / 2 ^ 24 then
        { b with
          duals := aset old_ref (na, (aget old_ref (0, 0) plv).1) b.duals
          leases := aset old_ref (aget old_ref (0, 0) plv).2 b.leases
          dlp := b.dlp ++ [p] }
      else b
    { b1 with
      llc := aupd p [] (aset set (npc, old_max, old_ref)) b1.llc
      cpp := aupd p [] (aset set (aget set 0 (aget p [] A.new_costs) + npc)) b1.cpp }
  | none =>
    let v := aget set 0 (aget p [] A.new_costs)
    let v2 := if aget p 0 budget < v then aget p 0 budget else v
    { b with cpp := aupd p [] (aset set v2) b.cpp }

def adjPhaseB (ctx : ShelCtx) (plv : List (Nat × Nat × Nat))
    (budget : List (Nat × Nat)) (A : AdjA) (m_ref_id : Nat) (b0 : AdjB) : AdjB :=
  ctx.phase_ids.foldl
    (fun b p => (List.range (numSets ctx)).foldl
      (fun b set => adjStepB plv budget A m_ref_id b p set) b)
    b0

inductive StepRes where
  | cont (s : ShelState)
  | done (r : LeaseResults)

/-- The results record returned at either termination point. -/
def doneRes (s : ShelState) : LeaseResults :=
  ⟨s.leases, s.dual_leases, s.lease_hits, s.trace_length⟩

/-- Commit a single lease: store it and push the follow-up candidates. -/
def singleState (ctx : ShelCtx) (m : PPUC) (ref_id : Nat) (s : ShelState) : ShelState :=
  { s with
    leases := aset ref_id m.lease s.leases
    ppuc_tree := pushPPUC ctx s.ppuc_tree m.ref_id m.lease }

/-- Commit a dual lease: record the per-set last lease costs, mark the
phase, and store (alpha, long lease) for the reference. -/
def dualState (ctx : ShelCtx) (m : PPUC) (ref_id phase : Nat) (alpha : Fr)
    (nprc : Nat → Nat → Nat) (s : ShelState) : ShelState :=
  { s with
    last_lease_cost := aset phase
      ((List.range (numSets ctx)).foldl (fun t st =>
        aset st ((Fr.mul ⟨(nprc phase st : Int), 1⟩ alpha).roundNat, nprc phase st, ref_id) t)
        (aget phase [] s.last_lease_cost)) s.last_lease_cost
    dual_lease_phases := s.dual_lease_phases ++ [phase]
    dual_leases := aset ref_id (alpha, m.lease) s.dual_leases }

/-- The acceptable-lease commit. -/
def acceptState (ctx : ShelCtx) (m : PPUC) (ref_id phase : Nat)
    (nprc : Nat → Nat → Nat) (s : ShelState) : ShelState :=
  { s with
    cost_per_phase := addCost s.cost_per_phase nprc
    past_lease_values := aset ref_id (m.lease, aget ref_id 0 s.leases)
      s.past_lease_values
    last_lease_cost := aset phase
      ((List.range (numSets ctx)).foldl
        (fun t st => aset st (nprc phase st, nprc phase st, ref_id) t)
        (aget phase [] s.last_lease_cost)) s.last_lease_cost
    leases := aset ref_id m.lease s.leases
    ppuc_tree := pushPPUC ctx s.ppuc_tree m.ref_id m.lease }

/-- The tail of the unacceptable-lease path (lease_gen.rs 1259-1328): commit
a single lease when alpha is exactly 1.0 and no set of the phase is full,
otherwise record the dual lease. -/
def shelCommit (ctx : ShelCtx) (m : PPUC) (ref_id phase : Nat) (alpha : Fr)
    (nprc : Nat → Nat → Nat) (s : ShelState) : StepRes :=
  let set_full := (List.range (numSets ctx)).any (fun st =>
    aget st 0 (aget phase [] s.cost_per_phase) == aget phase 0 s.budget_per_phase)
  if Fr.eqOne alpha && !set_full then .cont (singleState ctx m ref_id s)
  else .cont (dualState ctx m ref_id phase alpha nprc s)

/-- One iteration of the main loop of shel_cshel. -/
def shelStep (ctx : ShelCtx) (s0 : ShelState) : StepRes :=
  match popHeap s0.ppuc_tree with
  | none => .done (doneRes s0)
  | some (m, rest) =>
    let s := { s0 with ppuc_tree := rest }
    let phase := mask32 m.ref_id / 2 ^ 24
    let ref_id := mask32 m.ref_id
    if m.old_lease ≠ aget ref_id 0 s.leases then .cont s
    else
      let set_full := (List.range (numSets ctx)).any (fun st =>
        aget st 0 (aget phase [] s.cost_per_phase) == aget phase 0 s.budget_per_phase)
      if set_full then .cont s
      else if s.dual_lease_phases.length == s.cost_per_phase.length then
        .done (doneRes s)
      else if phase ∈ s.dual_lease_phases then .cont s
      else
        let old_lease := aget ref_id 0 s.leases
        let nprc := nprcF ctx ref_id old_lease m.lease
        if acceptableB ctx s.cost_per_phase s.budget_per_phase nprc then
          .cont (acceptState ctx m ref_id phase nprc s)
        else
          let alpha0 := alphaFold s.cost_per_phase s.budget_per_phase nprc
          let cpa := alphaFoldPhase s.cost_per_phase s.budget_per_phase nprc phase
          if Fr.blt cpa (minAlpha ctx.discretize) then .cont s
          else
            let alphaGt := Fr.blt (minAlpha ctx.discretize) alpha0
            let cpp1 := if alphaGt then
                bumpClampCost s.cost_per_phase s.budget_per_phase
                  (fun p st => (Fr.mul ⟨(nprc p st : Int), 1⟩ alpha0).roundNat)
              else s.cost_per_phase
            if ctx.cshel && !alphaGt then
              let A := adjPhaseA ctx cpp1 s.last_lease_cost s.budget_per_phase cpa nprc
              if A.adjust then
                let B := adjPhaseB ctx s.past_lease_values s.budget_per_phase A m.ref_id
                  ⟨cpp1, s.last_lease_cost, s.leases, s.dual_leases, s.dual_lease_phases⟩
                shelCommit ctx m ref_id phase cpa nprc
                  { s with
                    cost_per_phase := B.cpp
                    last_lease_cost := B.llc
                    leases := B.leases
                    dual_leases := B.duals
                    dual_lease_phases := B.dlp }
              else .cont s
            else
              shelCommit ctx m ref_id phase alpha0 nprc { s with cost_per_phase := cpp1 }

def shelRun (ctx : ShelCtx) : Nat → ShelState → Option LeaseResults
  | 0, _ => none
  | fuel + 1, s =>
    match shelStep ctx s with
    | .done r => some r
    | .cont s2 => shelRun ctx fuel s2

/-- lease_gen.rs shel_cshel, as the fuelled machine started from the
initialization state. -/
def shel_cshel (ctx : ShelCtx) (fuel : Nat) : Option LeaseResults :=
  shelRun ctx fuel (shelInit ctx)

/-- A two-set SHEL context: one reference (phase 0, address 5) sampled in
both cache sets, 3 samples in phase 0, cache size 2. -/
def shelDemoCtx : ShelCtx :=
  { cshel := false
    set_mask := 1
    cache_size := 2
    sample_rate := 1
    discretize := 9
    ri_hists := [(5, [(2, ⟨2, []⟩)]), (5 + 2 ^ 32, [(2, ⟨1, []⟩)])]
    samples_per_phase := [(0, 3)]
    phase_ids := [0] }

/-- C1 counterexample: the initialization loop of shel_cshel iterates every
histogram key and, for each, adds the lease-1 cost of every cache set, so
with two sets each set cost is accumulated once per histogram key of the
same reference: at loop entry (the state shelInit, reached on every run)
phase 0 set 0 carries cost 4 while the budget is 3 * 2 / 2 = 3.  The claimed
invariant cost_per_phase[p][s] <= budget_per_phase[p][s] is already violated
before the first commit. -/
theorem C1_counterexample :
    aget 0 0 (shelInit shelDemoCtx).budget_per_phase
      < aget 0 0 (aget 0 [] (shelInit shelDemoCtx).cost_per_phase) := by
  decide

/-- A C-SHEL context with two sets and two phases.  Reference 0x1000001
(phase 1, set 0) is accepted first; the set-1 candidate 0x100000002 of
phase 1 then takes the unacceptable path with its own-phase alpha 1/2 and
global alpha 1/2, entering the back-adjustment, whose phase test compares
phase 1 against the unmasked ref_id shifted by 24 (257). -/
def cshelBugCtx : ShelCtx :=
  { cshel := true
    set_mask := 1
    cache_size := 1
    sample_rate := 1
    discretize := 1
    ri_hists :=
      [(2 ^ 24 + 1, [(1, ⟨1, []⟩), (30, ⟨1, [(1, ⟨1, 0⟩)]⟩)]),
       (2 ^ 32 + 2 ^ 24 + 2, [(1, ⟨1, []⟩), (4, ⟨1, []⟩)]),
       (2 ^ 24 + 2, [(1, ⟨1, []⟩), (3, ⟨1, [(1, ⟨2, 0⟩), (2, ⟨4, 0⟩)]⟩)]),
       (2 ^ 25 + 1, [(1, ⟨1, []⟩), (2, ⟨1, [(2, ⟨1, 0⟩)]⟩)])]
    samples_per_phase := [(1, 4), (2, 4)]
    phase_ids := [1, 2] }

/-- C6: after this C-SHEL run returns, phase 1 holds dual leases for the two
distinct references 0x1000001 and 0x1000002: the back-adjustment creates a
dual for the previously assigned reference of the candidate phase because
its guard compares the phase against the unmasked packed id (lease_gen.rs
1194), and the candidate then receives its own dual lease. -/
theorem C6_two_duals_one_phase :
    (shel_cshel cshelBugCtx 10).isSome
    ∧ (alookup (2 ^ 24 + 1)
        ((shel_cshel cshelBugCtx 10).getD ⟨[], [], [], 0⟩).dual_leases).isSome
    ∧ (alookup (2 ^ 24 + 2)
        ((shel_cshel cshelBugCtx 10).getD ⟨[], [], [], 0⟩).dual_leases).isSome
    ∧ phaseOf (2 ^ 24 + 1) = 1 ∧ phaseOf (2 ^ 24 + 2) = 1
    ∧ (2 ^ 24 + 1 : Nat) ≠ 2 ^ 24 + 2 := by
  decide

/-! # The PRL allocator (lease_gen.rs, prl)

Embedded like shel_cshel: explicit state, one loop iteration per step,
fuel-bounded runner.  bin_ranks and sorted_bins are overwritten in full on
every unsuitable iteration, and the first element of sorted_bins after
sorting carries the minimum of the stored prefix minima, which equals the
final running alpha; the embedding uses that value directly. -/

structure PrlCtx where
  set_mask : Nat
  cache_size : Nat
  sample_rate : Nat
  discretize : Nat
  bin_width : Nat
  ri_hists : RIHists
  samples_per_phase : List (Nat × Nat)
  binned_ris : List (Nat × List (Nat × List (Nat × Nat)))
  binned_freqs : List (Nat × List (Nat × Nat))
  deriving Repr

def binTarget (ctx : PrlCtx) : Nat :=
  ctx.bin_width * ctx.cache_size / (ctx.set_mask + 1)

/-- lease_gen.rs get_avg_lease: sum of ri * freq over positive RIs at most
the lease, and lease * freq for the others. -/
def get_avg_lease (binned_ris : List (Nat × List (Nat × List (Nat × Nat))))
    (addr bin lease : Nat) : Nat :=
  ((aget addr [] (aget bin [] binned_ris)).map (fun e =>
    if 0 < e.1 ∧ e.1 ≤ lease then e.1 * e.2 else lease * e.2)).sum

/-- (avg_lease - old_avg_lease) * sample_rate as an exact f64 value. -/
def prlImpact (ctx : PrlCtx) (set_addr bin old new : Nat) : Fr :=
  ⟨((get_avg_lease ctx.binned_ris set_addr bin new : Int)
      - (get_avg_lease ctx.binned_ris set_addr bin old : Int)) * ctx.sample_rate, 1⟩

structure PrlState where
  leases : List (Nat × Nat)
  dual_leases : List (Nat × Fr × Nat)
  lease_hits : List (Nat × List (Nat × Nat))
  trace_length : Nat
  bin_saturation : List (Nat × List (Nat × Fr))
  impact_dict : List (Nat × List (Nat × Fr))
  ppuc_tree : List PPUC
  deriving Repr

/-- One (bin, set) step of the saturation / impact-dict initialization for
one address. -/
def prlInitSet (ctx : PrlCtx) (addr bin : Nat)
    (p : List (Nat × List (Nat × Fr)) × List (Nat × List (Nat × Fr))) (set : Nat) :
    List (Nat × List (Nat × Fr)) × List (Nat × List (Nat × Fr)) :=
  let p1 :=
    if (alookup addr (aget bin [] ctx.binned_ris)).isSome then
      (aupd bin [] (aupd set Fr.zero
        (fun v => Fr.add v (prlImpact ctx addr bin 0 1))) p.1, p.2)
    else p
  (p1.1, aupd bin [] (ainsNew set Fr.zero) p1.2)

/-- The saturation / impact-dict initialization step for one address. -/
def prlInitAddr (ctx : PrlCtx)
    (p : List (Nat × List (Nat × Fr)) × List (Nat × List (Nat × Fr))) (addr : Nat) :
    List (Nat × List (Nat × Fr)) × List (Nat × List (Nat × Fr)) :=
  (p.1.map (fun e => e.1)).foldl (fun p bin =>
    (List.range (ctx.set_mask + 1)).foldl (prlInitSet ctx addr bin) p) p

def prlInit (ctx : PrlCtx) : PrlState :=
  let nS := ctx.set_mask + 1
  let sat0 := (ctx.binned_freqs.map (fun e => e.1)).foldl (fun bs bin =>
    (List.range nS).foldl (fun bs set => aupd bin [] (ainsNew set Fr.zero) bs) bs) []
  let addrs := (aget 0 [] ctx.binned_freqs).map (fun e => e.1)
  let leases := addrs.foldl (fun ls a => aset (a % 2 ^ 24) 1 ls) []
  let satimp := addrs.foldl (prlInitAddr ctx) (sat0, [])
  let trace_length := ctx.samples_per_phase.foldl
    (fun t e => t + e.2 * ctx.sample_rate) 0
  let lease_hits := ctx.ri_hists.foldl (fun lh e =>
    (get_ppuc e.1 0 e.2).foldl (fun lh p =>
      aupd p.ref_id [] (ainsNew p.lease p.new_hits) lh) lh) []
  let heap := ctx.ri_hists.foldl (fun h e => h ++ get_ppuc e.1 1 e.2) []
  { leases := leases
    dual_leases := []
    lease_hits := lease_hits
    trace_length := trace_length
    bin_saturation := satimp.1
    impact_dict := satimp.2
    ppuc_tree := heap }

inductive PrlRes where
  | cont (s : PrlState)
  | done (r : LeaseResults)

/-- One (bin, set) step of the impact scan. -/
def prlScanSet (ctx : PrlCtx) (s : PrlState) (maddr lease bin : Nat)
    (acc : List (Nat × List (Nat × Fr)) × Bool × Nat) (set : Nat) :
    List (Nat × List (Nat × Fr)) × Bool × Nat :=
  if (alookup (maddr + set * 2 ^ 32) (aget bin [] ctx.binned_ris)).isSome then
    (aupd bin [] (aset set (prlImpact ctx (maddr + set * 2 ^ 32) bin
        (aget maddr 0 s.leases) lease)) acc.1,
     decide ((prlImpact ctx (maddr + set * 2 ^ 32) bin
        (aget maddr 0 s.leases) lease).num < 0),
     acc.2.2 + if Fr.blt ⟨(binTarget ctx : Int), 1⟩
         (Fr.add (aget set Fr.zero (aget bin [] s.bin_saturation))
           (prlImpact ctx (maddr + set * 2 ^ 32) bin (aget maddr 0 s.leases) lease))
       then 1 else 0)
  else
    (aupd bin [] (aset set Fr.zero) acc.1,
     acc.2.1,
     acc.2.2 + if Fr.blt ⟨(binTarget ctx : Int), 1⟩
         (Fr.add (aget set Fr.zero (aget bin [] s.bin_saturation)) Fr.zero)
       then 1 else 0)

/-- The impact scan of one iteration: the updated impact_dict, the final
neg_impact flag and the number of unsuitable (bin, set) pairs. -/
def prlScan (ctx : PrlCtx) (s : PrlState) (maddr lease : Nat) :
    List (Nat × List (Nat × Fr)) × Bool × Nat :=
  s.bin_saturation.foldl
    (fun acc be => (be.2.map (fun e => e.1)).foldl
      (prlScanSet ctx s maddr lease be.1) acc)
    (s.impact_dict, false, 0)

/-- One (bin, set) step of the saturation update. -/
def prlSatSet (ctx : PrlCtx) (s : PrlState) (imp2 : List (Nat × List (Nat × Fr)))
    (maddr : Nat) (f : Fr → Fr) (bin : Nat)
    (bs : List (Nat × List (Nat × Fr))) (set : Nat) : List (Nat × List (Nat × Fr)) :=
  if (alookup (maddr + set * 2 ^ 32) (aget bin [] ctx.binned_ris)).isSome then
    aupd bin []
      (aset set (Fr.add (aget set Fr.zero (aget bin [] s.bin_saturation))
        (f (aget set Fr.zero (aget bin [] imp2))))) bs
  else bs

/-- Saturation after adding every applicable impact scaled by f (identity on
the accept path, multiplication by the ratio on the dual path). -/
def prlSatAdd (ctx : PrlCtx) (s : PrlState) (imp2 : List (Nat × List (Nat × Fr)))
    (maddr : Nat) (f : Fr → Fr) : List (Nat × List (Nat × Fr)) :=
  s.bin_saturation.foldl (fun bs be =>
    (be.2.map (fun e => e.1)).foldl (prlSatSet ctx s imp2 maddr f be.1) bs)
    s.bin_saturation

/-- One (bin, set) step of the full-bin count and running alpha. -/
def prlAlphaSet (ctx : PrlCtx) (imp2 : List (Nat × List (Nat × Fr))) (bin : Nat)
    (acc : Nat × Fr) (se : Nat × Fr) : Nat × Fr :=
  (acc.1 + if Fr.ble ⟨(binTarget ctx : Int), 1⟩ se.2 then 1 else 0,
   if Fr.ble ⟨(binTarget ctx : Int), 1⟩
       (Fr.add se.2 (aget se.1 Fr.zero (aget bin [] imp2)))
     ∧ (aget se.1 Fr.zero (aget bin [] imp2)).num ≠ 0 then
     Fr.fmin (Fr.div (Fr.sub ⟨(binTarget ctx : Int), 1⟩ se.2)
       (aget se.1 Fr.zero (aget bin [] imp2))) acc.2
   else acc.2)

/-- The full-bin count and running alpha of the dual-lease path. -/
def prlAlphaFold (ctx : PrlCtx) (s : PrlState)
    (imp2 : List (Nat × List (Nat × Fr))) : Nat × Fr :=
  s.bin_saturation.foldl
    (fun acc be => be.2.foldl (prlAlphaSet ctx imp2 be.1) acc)
    (0, Fr.one)

def prlAcceptState (ctx : PrlCtx) (m : PPUC) (maddr : Nat)
    (imp2 : List (Nat × List (Nat × Fr))) (s : PrlState) : PrlState :=
  { s with
    impact_dict := imp2
    leases := aset maddr m.lease s.leases
    ppuc_tree := s.ppuc_tree ++ get_ppuc m.ref_id m.lease (aget m.ref_id [] ctx.ri_hists)
    bin_saturation := prlSatAdd ctx s imp2 maddr (fun v => v) }

def prlDualState (ctx : PrlCtx) (m : PPUC) (maddr : Nat) (ratio : Fr)
    (imp2 : List (Nat × List (Nat × Fr))) (s : PrlState) : PrlState :=
  { s with
    impact_dict := imp2
    dual_leases := aset m.ref_id (ratio, m.lease) s.dual_leases
    bin_saturation := prlSatAdd ctx s imp2 maddr (fun v => Fr.mul v ratio) }

/-- One iteration of the main loop of prl. -/
def prlStep (ctx : PrlCtx) (s0 : PrlState) : PrlRes :=
  match popHeap s0.ppuc_tree with
  | none => .done ⟨s0.leases, s0.dual_leases, s0.lease_hits, s0.trace_length⟩
  | some (m, rest) =>
    let s := { s0 with ppuc_tree := rest }
    let maddr := mask32 m.ref_id
    if m.old_lease ≠ aget maddr 0 s.leases then .cont s
    else if (alookup maddr s.dual_leases).isSome then .cont s
    else
      let scan := prlScan ctx s maddr m.lease
      let imp2 := scan.1
      if scan.2.1 then .cont { s with impact_dict := imp2 }
      else if scan.2.2 < 1 then .cont (prlAcceptState ctx m maddr imp2 s)
      else
        let fa := prlAlphaFold ctx s imp2
        let ratio := if fa.1 = 0 then fa.2 else Fr.zero
        if Fr.blt (minAlpha ctx.discretize) ratio then
          .cont (prlDualState ctx m maddr ratio imp2 s)
        else .cont { s with impact_dict := imp2 }

def prlRun (ctx : PrlCtx) : Nat → PrlState → Option LeaseResults
  | 0, _ => none
  | fuel + 1, s =>
    match prlStep ctx s with
    | .done r => some r
    | .cont s2 => prlRun ctx fuel s2

/-- lease_gen.rs prl, as the fuelled machine started from its
initialization state. -/
def prl (ctx : PrlCtx) (fuel : Nat) : Option LeaseResults :=
  prlRun ctx fuel (prlInit ctx)

/-- A single-set SHEL context with discretize_width 1 (min_alpha exactly
1/2) in which the only candidate takes the unacceptable path with
remaining budget 4 against cost 8. -/
def shelMinCtx : ShelCtx :=
  { cshel := false
    set_mask := 0
    cache_size := 2
    sample_rate := 1
    discretize := 1
    ri_hists := [(5, [(1, ⟨1, []⟩), (5, ⟨2, []⟩)]), (6, [(1, ⟨1, []⟩)])]
    samples_per_phase := [(0, 4)]
    phase_ids := [0] }

/-- A two-set PRL context whose only candidate is the set-1 reference
0x100000007: its dual lease is inserted under the raw set-augmented id. -/
def prlBugCtx : PrlCtx :=
  { set_mask := 1
    cache_size := 2
    sample_rate := 1
    discretize := 1
    bin_width := 4
    ri_hists := [(7 + 2 ^ 32, [(1, ⟨1, []⟩), (3, ⟨2, []⟩)])]
    samples_per_phase := [(0, 3)]
    binned_ris := [(0, [(7 + 2 ^ 32, [(2, 5)])])]
    binned_freqs := [(0, [(7, 1)])] }

/-- A two-set C-SHEL context in which the back-adjustment of the set-1
candidate 0x100000001 (own-phase alpha exactly 1.0, global alpha exactly
min_alpha) converts the candidate's own reference 0x1000001 into a dual
lease with long lease 2 through the unmasked phase guard of lease_gen.rs
1194 (1 != 257), after which alpha = 1.0 commits the candidate as a single
lease of 4: the returned state stores lease 4 next to a dual whose long
lease is 2. -/
def cshelDualCtx : ShelCtx :=
  { cshel := true
    set_mask := 1
    cache_size := 2
    sample_rate := 1
    discretize := 1
    ri_hists :=
      [(2 ^ 32 + 2 ^ 24 + 1,
        [(1, ⟨1, [(1, ⟨1, 0⟩)]⟩), (2, ⟨1, [(1, ⟨2, 0⟩)]⟩),
         (4, ⟨1, [(1, ⟨4, 0⟩), (2, ⟨6, 0⟩)]⟩)]),
       (2 ^ 25 + 2, [(1, ⟨1, [(2, ⟨1, 0⟩)]⟩), (3, ⟨1, [(2, ⟨2, 0⟩)]⟩)]),
       (2 ^ 32 + 2 ^ 25 + 2, [(1, ⟨1, [(2, ⟨1, 0⟩)]⟩), (3, ⟨1, [(2, ⟨8, 0⟩)]⟩)])]
    samples_per_phase := [(1, 8), (2, 13)]
    phase_ids := [1, 2] }

/-- C5 counterexample.  First part: a SHEL run returns a dual lease whose
alpha equals min_alpha exactly (stored as 4/8 = 1/2 = min_alpha for
discretize_width 1), because the guards compare with < (line 1057) and >
(line 1064) and alpha = current_phase_alpha is committed unchanged; the
claimed strict bound min_alpha < alpha fails.  Second part: a PRL run
inserts its dual lease under the unmasked set-augmented id (line 648),
which is not a key of the leases map (keyed by masked ids).  Third part: a
C-SHEL run returns with a dual lease for 0x1000001 whose long lease is 2
while the leases map stores 4 for the same reference - the back-adjustment
converted the candidate's own reference into a dual through the unmasked
guard of lease_gen.rs 1194 and the subsequent alpha = 1.0 commit then
stored the full candidate lease - so in C-SHEL mode even the non-strict
containment short < long fails. -/
theorem C5_counterexample :
    ((shel_cshel shelMinCtx 10).isSome
      ∧ alookup 5 ((shel_cshel shelMinCtx 10).getD ⟨[], [], [], 0⟩).dual_leases
          = some (⟨4, 8⟩, 5)
      ∧ Fr.blt (minAlpha 1) ⟨4, 8⟩ = false
      ∧ Fr.ble (minAlpha 1) ⟨4, 8⟩ = true)
    ∧ ((prl prlBugCtx 10).isSome
      ∧ (alookup (7 + 2 ^ 32)
          ((prl prlBugCtx 10).getD ⟨[], [], [], 0⟩).dual_leases).isSome
      ∧ alookup (7 + 2 ^ 32)
          ((prl prlBugCtx 10).getD ⟨[], [], [], 0⟩).leases = none)
    ∧ ((shel_cshel cshelDualCtx 12).isSome
      ∧ (alookup (2 ^ 24 + 1)
          ((shel_cshel cshelDualCtx 12).getD ⟨[], [], [], 0⟩).dual_leases).isSome
      ∧ (aget (2 ^ 24 + 1) (Fr.zero, 0)
          ((shel_cshel cshelDualCtx 12).getD ⟨[], [], [], 0⟩).dual_leases).2 = 2
      ∧ alookup (2 ^ 24 + 1)
          ((shel_cshel cshelDualCtx 12).getD ⟨[], [], [], 0⟩).leases = some 4
      ∧ ¬ (4 : Nat) < 2) := by
  decide

/-! ## Allocator invariants -/

theorem get_ppuc_mem {ref base : Nat} {hist : RefHist} {p : PPUC}
    (h : p ∈ get_ppuc ref base hist) :
    p.ref_id = ref ∧ p.old_lease = base ∧ base < p.lease := by
  unfold get_ppuc at h
  rcases List.mem_map.mp h with ⟨k, hk, rfl⟩
  have hf := List.of_mem_filter hk
  refine ⟨rfl, rfl, ?_⟩
  simpa using hf

theorem heapMin_mem (p : PPUC) (h : List PPUC) : heapMin p h ∈ p :: h := by
  unfold heapMin
  induction h generalizing p with
  | nil => simp
  | cons q t ih =>
    simp only [List.foldl_cons]
    by_cases hb : Fr.blt q.ppuc p.ppuc = true
    · rw [if_pos hb]
      rcases List.mem_cons.mp (ih q) with h1 | h1
      · exact List.mem_cons.mpr (Or.inr (List.mem_cons.mpr (Or.inl h1)))
      · exact List.mem_cons.mpr (Or.inr (List.mem_cons.mpr (Or.inr h1)))
    · rw [if_neg hb]
      rcases List.mem_cons.mp (ih p) with h1 | h1
      · exact List.mem_cons.mpr (Or.inl h1)
      · exact List.mem_cons.mpr (Or.inr (List.mem_cons.mpr (Or.inr h1)))

theorem popHeap_mem {h : List PPUC} {m : PPUC} {rest : List PPUC}
    (hp : popHeap h = some (m, rest)) : m ∈ h ∧ ∀ q ∈ rest, q ∈ h := by
  unfold popHeap at hp
  cases h with
  | nil => simp at hp
  | cons p t =>
    simp only [Option.some.injEq, Prod.mk.injEq] at hp
    obtain ⟨hm, hr⟩ := hp
    constructor
    · rw [← hm]; exact heapMin_mem p t
    · intro q hq
      rw [← hr] at hq
      exact (List.erase_sublist _ _).subset hq

/-- Folding a value-decreasing wf-preserving update keeps well-formedness
and never increases the value. -/
theorem foldl_dec {α : Type} (f : Fr → α → Fr) (l : List α)
    (hf : ∀ a x, x ∈ l → a.wf → (f a x).wf ∧ (f a x).toQ ≤ a.toQ) :
    ∀ a : Fr, a.wf → (l.foldl f a).wf ∧ (l.foldl f a).toQ ≤ a.toQ := by
  induction l with
  | nil => intro a ha; exact ⟨ha, le_refl _⟩
  | cons x t ih =>
    intro a ha
    have hx := hf a x (List.mem_cons_self x t) ha
    have ht := ih (fun a y hy => hf a y (List.mem_cons_of_mem x hy)) (f a x) hx.1
    exact ⟨ht.1, le_trans ht.2 hx.2⟩

theorem fmin_step {a v : Fr} (ha : a.wf) (hv : v.wf) :
    (Fr.fmin a v).wf ∧ (Fr.fmin a v).toQ ≤ a.toQ := by
  refine ⟨Fr.wf_fmin ha hv, ?_⟩
  rw [Fr.toQ_fmin ha hv]
  exact min_le_left _ _

theorem alphaFoldPhase_wf_le (cpp : List (Nat × List (Nat × Nat)))
    (budget : List (Nat × Nat)) (nprc : Nat → Nat → Nat) (p0 : Nat) :
    (alphaFoldPhase cpp budget nprc p0).wf
      ∧ (alphaFoldPhase cpp budget nprc p0).toQ ≤ 1 := by
  unfold alphaFoldPhase
  have h := foldl_dec
    (fun a pe => pe.2.foldl (fun a se =>
      let c := nprc pe.1 se.1
      if pe.1 = p0 ∧ 0 < c then
        Fr.fmin a ⟨((aget pe.1 0 budget - se.2 : Nat) : Int), (c : Int)⟩
      else a) a) cpp ?_ Fr.one (by simp [Fr.wf, Fr.one])
  · refine ⟨h.1, ?_⟩
    calc (cpp.foldl _ Fr.one).toQ ≤ Fr.one.toQ := h.2
    _ = 1 := Fr.toQ_one
  · intro a pe _ ha
    refine foldl_dec _ pe.2 ?_ a ha
    intro a2 se _ ha2
    by_cases hc : pe.1 = p0 ∧ 0 < nprc pe.1 se.1
    · simp only [if_pos hc]
      exact fmin_step ha2 (by simpa [Fr.wf] using hc.2)
    · simp only [if_neg hc]
      exact ⟨ha2, le_refl _⟩

theorem alphaFold_wf_le (cpp : List (Nat × List (Nat × Nat)))
    (budget : List (Nat × Nat)) (nprc : Nat → Nat → Nat) :
    (alphaFold cpp budget nprc).wf ∧ (alphaFold cpp budget nprc).toQ ≤ 1 := by
  unfold alphaFold
  have h := foldl_dec
    (fun a pe => pe.2.foldl (fun a se =>
      let c := nprc pe.1 se.1
      if 0 < c then
        Fr.fmin a ⟨((aget pe.1 0 budget - se.2 : Nat) : Int), (c : Int)⟩
      else a) a) cpp ?_ Fr.one (by simp [Fr.wf, Fr.one])
  · refine ⟨h.1, ?_⟩
    calc (cpp.foldl _ Fr.one).toQ ≤ Fr.one.toQ := h.2
    _ = 1 := Fr.toQ_one
  · intro a pe _ ha
    refine foldl_dec _ pe.2 ?_ a ha
    intro a2 se _ ha2
    by_cases hc : 0 < nprc pe.1 se.1
    · simp only [if_pos hc]
      exact fmin_step ha2 (by simpa [Fr.wf] using hc)
    · simp only [if_neg hc]
      exact ⟨ha2, le_refl _⟩

theorem minAlpha_wf {d : Nat} (hd : 1 ≤ d) : (minAlpha d).wf := by
  unfold minAlpha Fr.wf
  have : 2 ≤ 2 ^ d := by
    calc 2 = 2 ^ 1 := by norm_num
    _ ≤ 2 ^ d := Nat.pow_le_pow_right (by norm_num) hd
  simp only
  have h2 : 1 ≤ 2 ^ d - 1 := by omega
  have h3 : (1 : Int) ≤ ((2 ^ d - 1 : Nat) : Int) := by exact_mod_cast h2
  have h4 : ((2 : Nat) ^ d - 1 : Nat) = ((2 : Int) ^ d - 1) := by
    push_cast [Nat.cast_sub (by omega : 1 ≤ 2 ^ d)]
    ring
  omega

theorem mem_aset_or {β : Type} {k : Nat} {v : β} {l : List (Nat × β)} {e : Nat × β}
    (h : e ∈ aset k v l) : e = (k, v) ∨ e ∈ l := by
  induction l with
  | nil => simpa [aset] using h
  | cons x t ih =>
    obtain ⟨a, b⟩ := x
    unfold aset at h
    by_cases hak : a = k
    · rw [if_pos hak] at h
      rcases List.mem_cons.mp h with h1 | h1
      · exact Or.inl h1
      · exact Or.inr (List.mem_cons_of_mem _ h1)
    · rw [if_neg hak] at h
      rcases List.mem_cons.mp h with h1 | h1
      · exact Or.inr (h1 ▸ List.mem_cons_self _ _)
      · rcases ih h1 with h2 | h2
        · exact Or.inl h2
        · exact Or.inr (List.mem_cons_of_mem _ h2)

theorem aget_pos_lookup {k : Nat} {l : List (Nat × Nat)} (h : 1 ≤ aget k 0 l) :
    alookup k l = some (aget k 0 l) := by
  unfold aget at *
  cases hl : alookup k l with
  | none => rw [hl] at h; simp at h
  | some v => simp

theorem phaseOf_add_set (ref st : Nat) : phaseOf (ref + st * 2 ^ 32) = phaseOf ref := by
  unfold phaseOf
  have h1 : ref + st * 2 ^ 32 = ref + st * 2 ^ 8 * 2 ^ 24 := by ring
  rw [h1, Nat.add_mul_div_right _ _ (by norm_num : 0 < (2 ^ 24 : Nat)),
    Nat.add_mul_mod_self_right]

theorem mask32_div_eq_phaseOf (x : Nat) : mask32 x / 2 ^ 24 = phaseOf (mask32 x) := by
  unfold mask32 phaseOf
  omega

/-- SHEL mode: the phase-ref cost vanishes outside the phase of the
reference. -/
theorem nprcF_shel_ne (ctx : ShelCtx) (hm : ctx.cshel = false) (ref old new p st : Nat)
    (hp : p ≠ phaseOf ref) : nprcF ctx ref old new p st = 0 := by
  unfold nprcF costFn
  rw [hm]
  simp only [Bool.false_eq_true, if_false]
  unfold shel_phase_ref_cost
  cases alookup (ref + st * 2 ^ 32) ctx.ri_hists with
  | none => rfl
  | some h =>
    simp only [phaseOf_add_set]
    rw [if_pos hp]

theorem foldl_ext {α β : Type} (f g : β → α → β) (l : List α)
    (h : ∀ a x, x ∈ l → f a x = g a x) : ∀ b, l.foldl f b = l.foldl g b := by
  induction l with
  | nil => intro b; rfl
  | cons x t ih =>
    intro b
    rw [List.foldl_cons, List.foldl_cons, h b x (List.mem_cons_self x t)]
    exact ih (fun a y hy => h a y (List.mem_cons_of_mem x hy)) _

/-- When the cost function vanishes outside phase0, the global running alpha
is the phase-restricted one. -/
theorem alphaFold_eq_phase (cpp : List (Nat × List (Nat × Nat)))
    (budget : List (Nat × Nat)) (nprc : Nat → Nat → Nat) (phase0 : Nat)
    (h0 : ∀ p st, p ≠ phase0 → nprc p st = 0) :
    alphaFold cpp budget nprc = alphaFoldPhase cpp budget nprc phase0 := by
  unfold alphaFold alphaFoldPhase
  apply foldl_ext
  intro a pe _
  apply foldl_ext
  intro a2 se _
  by_cases hp : pe.1 = phase0
  · simp only [hp, true_and]
  · have hz : nprc pe.1 se.1 = 0 := h0 pe.1 se.1 hp
    simp only [hz, lt_irrefl, if_false]
    simp [hp]

/-- The per-entry dual-lease property: the reference holds a (short) lease
strictly below the long lease, and the short-lease probability alpha lies
between min_alpha and 1. -/
def DualProp (ma : Fr) (leases : List (Nat × Nat)) (e : Nat × Fr × Nat) : Prop :=
  (∃ sh, alookup e.1 leases = some sh ∧ sh < e.2.2)
    ∧ e.2.1.wf ∧ ma.toQ ≤ e.2.1.toQ ∧ e.2.1.toQ ≤ 1

def DualInv (ma : Fr) (s : ShelState) : Prop :=
  ∀ e ∈ s.dual_leases, DualProp ma s.leases e

/-- Every dual-leased reference lies in a phase recorded as dual, so the
phase guard of the loop freezes its leases entry. -/
def PhaseInv (s : ShelState) : Prop :=
  ∀ e ∈ s.dual_leases, phaseOf e.1 ∈ s.dual_lease_phases

/-- Every pending candidate raises a positive base lease. -/
def HeapInv (s : ShelState) : Prop :=
  ∀ p ∈ s.ppuc_tree, 1 ≤ p.old_lease ∧ p.old_lease < p.lease

def ShelInv (ma : Fr) (s : ShelState) : Prop :=
  DualInv ma s ∧ PhaseInv s ∧ HeapInv s

theorem ShelInv_drop_heap (ma : Fr) {s : ShelState} (hinv : ShelInv ma s)
    (rest : List PPUC) (hsub : ∀ q ∈ rest, q ∈ s.ppuc_tree) :
    ShelInv ma { s with ppuc_tree := rest } := by
  obtain ⟨hD, hP, hH⟩ := hinv
  exact ⟨fun e he => hD e he, fun e he => hP e he, fun p hp => hH p (hsub p hp)⟩

theorem DualInv_aset_leases (ma : Fr) {s : ShelState} (hD : DualInv ma s)
    (hP : PhaseInv s) {ref v : Nat} (hnot : phaseOf ref ∉ s.dual_lease_phases) :
    ∀ e ∈ s.dual_leases, DualProp ma (aset ref v s.leases) e := by
  intro e he
  obtain ⟨⟨sh, hsh, hlt⟩, hrest⟩ := hD e he
  have hne : ref ≠ e.1 := fun hc => hnot (by rw [hc]; exact hP e he)
  refine ⟨⟨sh, ?_, hlt⟩, hrest⟩
  rw [alookup_aset, if_neg hne]
  exact hsh


theorem ShelInv_singleState (ma : Fr) (ctx : ShelCtx) (m : PPUC) (ref_id : Nat)
    {s : ShelState} (hinv : ShelInv ma s)
    (hnot : phaseOf ref_id ∉ s.dual_lease_phases) (hml : 1 ≤ m.lease) :
    ShelInv ma (singleState ctx m ref_id s) := by
  obtain ⟨hD, hP, hH⟩ := hinv
  refine ⟨?_, ?_, ?_⟩
  · intro e he
    exact DualInv_aset_leases ma hD hP hnot e he
  · intro e he
    exact hP e he
  · intro p hp
    rcases List.mem_append.mp hp with hp1 | hp1
    · exact hH p hp1
    · obtain ⟨_, hold, hlt⟩ := get_ppuc_mem hp1
      omega

theorem ShelInv_acceptState (ma : Fr) (ctx : ShelCtx) (m : PPUC)
    (ref_id phase : Nat) (nprc : Nat → Nat → Nat) {s : ShelState}
    (hinv : ShelInv ma s)
    (hnot : phaseOf ref_id ∉ s.dual_lease_phases) (hml : 1 ≤ m.lease) :
    ShelInv ma (acceptState ctx m ref_id phase nprc s) := by
  obtain ⟨hD, hP, hH⟩ := hinv
  refine ⟨?_, ?_, ?_⟩
  · intro e he
    exact DualInv_aset_leases ma hD hP hnot e he
  · intro e he
    exact hP e he
  · intro p hp
    rcases List.mem_append.mp hp with hp1 | hp1
    · exact hH p hp1
    · obtain ⟨_, hold, hlt⟩ := get_ppuc_mem hp1
      omega

theorem ShelInv_dualState (ma : Fr) (ctx : ShelCtx) (m : PPUC)
    (ref_id phase : Nat) (alpha : Fr) (nprc : Nat → Nat → Nat) {s : ShelState}
    (hinv : ShelInv ma s) (hphase : phase = phaseOf ref_id)
    (hlk : alookup ref_id s.leases = some m.old_lease) (hlt : m.old_lease < m.lease)
    (hwf : alpha.wf) (hlow : ma.toQ ≤ alpha.toQ) (hhi : alpha.toQ ≤ 1) :
    ShelInv ma (dualState ctx m ref_id phase alpha nprc s) := by
  obtain ⟨hD, hP, hH⟩ := hinv
  refine ⟨?_, ?_, ?_⟩
  · intro e he
    rcases mem_aset_or he with he1 | he1
    · subst he1
      exact ⟨⟨m.old_lease, hlk, hlt⟩, hwf, hlow, hhi⟩
    · exact hD e he1
  · intro e he
    rcases mem_aset_or he with he1 | he1
    · subst he1
      simp only
      rw [hphase]
      exact List.mem_append.mpr (Or.inr (by simp))
    · exact List.mem_append.mpr (Or.inl (hP e he1))
  · intro p hp
    exact hH p hp

theorem shel_contCase {ctx : ShelCtx} {s X : ShelState} {ma : Fr}
    (hstep : shelStep ctx s = .cont X) (hX : ShelInv ma X) :
    (∀ s2, shelStep ctx s = .cont s2 → ShelInv ma s2)
    ∧ (∀ r, shelStep ctx s = .done r →
        ∀ e ∈ r.dual_leases, DualProp ma r.leases e) := by
  constructor
  · intro s2 h
    rw [hstep] at h
    cases h
    exact hX
  · intro r h
    rw [hstep] at h
    exact StepRes.noConfusion h

theorem shel_doneCase {ctx : ShelCtx} {s : ShelState} {R : LeaseResults} {ma : Fr}
    (hstep : shelStep ctx s = .done R)
    (hR : ∀ e ∈ R.dual_leases, DualProp ma R.leases e) :
    (∀ s2, shelStep ctx s = .cont s2 → ShelInv ma s2)
    ∧ (∀ r, shelStep ctx s = .done r →
        ∀ e ∈ r.dual_leases, DualProp ma r.leases e) := by
  constructor
  · intro s2 h
    rw [hstep] at h
    exact StepRes.noConfusion h
  · intro r h
    rw [hstep] at h
    cases h
    exact hR

theorem shelStep_inv (ctx : ShelCtx) (s : ShelState)
    (hmode : ctx.cshel = false) (hd : 1 ≤ ctx.discretize)
    (hinv : ShelInv (minAlpha ctx.discretize) s) :
    (∀ s2, shelStep ctx s = .cont s2 → ShelInv (minAlpha ctx.discretize) s2)
    ∧ (∀ r, shelStep ctx s = .done r →
        ∀ e ∈ r.dual_leases, DualProp (minAlpha ctx.discretize) r.leases e) := by
  obtain ⟨hD, hP, hH⟩ := hinv
  cases hpop : popHeap s.ppuc_tree with
  | none =>
    refine shel_doneCase (R := doneRes s) ?_ ?_
    · simp only [shelStep, hpop]
    · exact fun e he => hD e he
  | some pr =>
    obtain ⟨m, rest⟩ := pr
    obtain ⟨hmem, hsub⟩ := popHeap_mem hpop
    have hHm := hH m hmem
    have hinv2 : ShelInv (minAlpha ctx.discretize) { s with ppuc_tree := rest } :=
      ShelInv_drop_heap _ ⟨hD, hP, hH⟩ rest hsub
    by_cases h1 : m.old_lease ≠ aget (mask32 m.ref_id) 0 s.leases
    · refine shel_contCase ?_ hinv2
      simp only [shelStep, hpop]
      rw [if_pos h1]
    · by_cases h2 : ((List.range (numSets ctx)).any fun st =>
          aget st 0 (aget (mask32 m.ref_id / 2 ^ 24) [] s.cost_per_phase)
            == aget (mask32 m.ref_id / 2 ^ 24) 0 s.budget_per_phase) = true
      · refine shel_contCase ?_ hinv2
        simp only [shelStep, hpop]
        rw [if_neg h1, if_pos h2]
      · by_cases h3 : (s.dual_lease_phases.length == s.cost_per_phase.length) = true
        · refine shel_doneCase (R := doneRes { s with ppuc_tree := rest }) ?_ ?_
          · simp only [shelStep, hpop]
            rw [if_neg h1, if_neg h2, if_pos h3]
          · exact fun e he => hD e he
        · by_cases h4 : (mask32 m.ref_id / 2 ^ 24) ∈ s.dual_lease_phases
          · refine shel_contCase ?_ hinv2
            simp only [shelStep, hpop]
            rw [if_neg h1, if_neg h2, if_neg h3, if_pos h4]
          · have h4b : phaseOf (mask32 m.ref_id)
                ∉ ({ s with ppuc_tree := rest } : ShelState).dual_lease_phases := by
              rw [← mask32_div_eq_phaseOf]
              exact h4
            by_cases h5 : acceptableB ctx s.cost_per_phase s.budget_per_phase
                (nprcF ctx (mask32 m.ref_id) (aget (mask32 m.ref_id) 0 s.leases)
                  m.lease) = true
            · refine shel_contCase
                (X := acceptState ctx m (mask32 m.ref_id) (mask32 m.ref_id / 2 ^ 24)
                  (nprcF ctx (mask32 m.ref_id) (aget (mask32 m.ref_id) 0 s.leases)
                    m.lease)
                  { s with ppuc_tree := rest }) ?_ ?_
              · simp only [shelStep, hpop]
                rw [if_neg h1, if_neg h2, if_neg h3, if_neg h4, if_pos h5]
              · exact ShelInv_acceptState _ ctx m _ _ _ hinv2 h4b (by omega)
            · by_cases h6 : Fr.blt
                  (alphaFoldPhase s.cost_per_phase s.budget_per_phase
                    (nprcF ctx (mask32 m.ref_id) (aget (mask32 m.ref_id) 0 s.leases)
                      m.lease) (mask32 m.ref_id / 2 ^ 24))
                  (minAlpha ctx.discretize) = true
              · refine shel_contCase ?_ hinv2
                simp only [shelStep, hpop]
                rw [if_neg h1, if_neg h2, if_neg h3, if_neg h4, if_neg h5, if_pos h6]
              · -- the SHEL commit: alpha bounds
                have hwf0 := alphaFold_wf_le s.cost_per_phase s.budget_per_phase
                  (nprcF ctx (mask32 m.ref_id) (aget (mask32 m.ref_id) 0 s.leases) m.lease)
                have heqp := alphaFold_eq_phase s.cost_per_phase s.budget_per_phase
                  (nprcF ctx (mask32 m.ref_id) (aget (mask32 m.ref_id) 0 s.leases) m.lease)
                  (mask32 m.ref_id / 2 ^ 24)
                  (fun p st hp => nprcF_shel_ne ctx hmode _ _ _ p st
                    (by rw [mask32_div_eq_phaseOf] at hp; exact hp))
                have hwfp := alphaFoldPhase_wf_le s.cost_per_phase s.budget_per_phase
                  (nprcF ctx (mask32 m.ref_id) (aget (mask32 m.ref_id) 0 s.leases) m.lease)
                  (mask32 m.ref_id / 2 ^ 24)
                have hma := minAlpha_wf hd
                have hlow : (minAlpha ctx.discretize).toQ ≤
                    (alphaFold s.cost_per_phase s.budget_per_phase
                      (nprcF ctx (mask32 m.ref_id) (aget (mask32 m.ref_id) 0 s.leases)
                        m.lease)).toQ := by
                  rw [heqp]
                  by_contra hc
                  push_neg at hc
                  exact h6 ((Fr.blt_iff hwfp.1 hma).mpr hc)
                push_neg at h1
                have hstep2 : shelStep ctx s = shelCommit ctx m (mask32 m.ref_id)
                    (mask32 m.ref_id / 2 ^ 24)
                    (alphaFold s.cost_per_phase s.budget_per_phase
                      (nprcF ctx (mask32 m.ref_id) (aget (mask32 m.ref_id) 0 s.leases)
                        m.lease))
                    (nprcF ctx (mask32 m.ref_id) (aget (mask32 m.ref_id) 0 s.leases)
                      m.lease)
                    { s with
                      ppuc_tree := rest
                      cost_per_phase :=
                        if Fr.blt (minAlpha ctx.discretize)
                            (alphaFold s.cost_per_phase s.budget_per_phase
                              (nprcF ctx (mask32 m.ref_id)
                                (aget (mask32 m.ref_id) 0 s.leases) m.lease)) then
                          bumpClampCost s.cost_per_phase s.budget_per_phase
                            (fun p st => (Fr.mul
                              ⟨(nprcF ctx (mask32 m.ref_id)
                                  (aget (mask32 m.ref_id) 0 s.leases) m.lease p st : Int),
                                1⟩
                              (alphaFold s.cost_per_phase s.budget_per_phase
                                (nprcF ctx (mask32 m.ref_id)
                                  (aget (mask32 m.ref_id) 0 s.leases) m.lease))).roundNat)
                        else s.cost_per_phase } := by
                  simp only [shelStep, hpop]
                  rw [if_neg (by simpa using h1), if_neg h2, if_neg h3, if_neg h4,
                    if_neg h5, if_neg h6, hmode]
                  simp only [Bool.false_and, Bool.false_eq_true, if_false]
                rw [hstep2]
                unfold shelCommit
                set s3 : ShelState := { s with
                  ppuc_tree := rest
                  cost_per_phase :=
                    if Fr.blt (minAlpha ctx.discretize)
                        (alphaFold s.cost_per_phase s.budget_per_phase
                          (nprcF ctx (mask32 m.ref_id)
                            (aget (mask32 m.ref_id) 0 s.leases) m.lease)) then
                      bumpClampCost s.cost_per_phase s.budget_per_phase
                        (fun p st => (Fr.mul
                          ⟨(nprcF ctx (mask32 m.ref_id)
                              (aget (mask32 m.ref_id) 0 s.leases) m.lease p st : Int),
                            1⟩
                          (alphaFold s.cost_per_phase s.budget_per_phase
                            (nprcF ctx (mask32 m.ref_id)
                              (aget (mask32 m.ref_id) 0 s.leases) m.lease))).roundNat)
                    else s.cost_per_phase } with hs3
                have hinv3 : ShelInv (minAlpha ctx.discretize) s3 := by
                  rw [hs3]
                  exact ⟨fun e he => hD e he, fun e he => hP e he,
                    fun p hp => hH p (hsub p hp)⟩
                have h4c : phaseOf (mask32 m.ref_id) ∉ s3.dual_lease_phases := by
                  rw [hs3]
                  rw [← mask32_div_eq_phaseOf]
                  exact h4
                by_cases h7 : (Fr.eqOne (alphaFold s.cost_per_phase s.budget_per_phase
                    (nprcF ctx (mask32 m.ref_id) (aget (mask32 m.ref_id) 0 s.leases)
                      m.lease))
                  && !((List.range (numSets ctx)).any fun st =>
                    aget st 0 (aget (mask32 m.ref_id / 2 ^ 24) [] s3.cost_per_phase)
                      == aget (mask32 m.ref_id / 2 ^ 24) 0 s3.budget_per_phase)) = true
                · constructor
                  · intro s2 h
                    rw [if_pos h7] at h
                    cases h
                    exact ShelInv_singleState _ ctx m _ hinv3 h4c (by omega)
                  · intro r h
                    rw [if_pos h7] at h
                    exact StepRes.noConfusion h
                · constructor
                  · intro s2 h
                    rw [if_neg h7] at h
                    cases h
                    refine ShelInv_dualState _ ctx m _ _ _ _ hinv3
                      (mask32_div_eq_phaseOf _) ?_ hHm.2 hwf0.1 hlow hwf0.2
                    rw [hs3]
                    simp only
                    rw [h1]
                    exact aget_pos_lookup (by omega)
                  · intro r h
                    rw [if_neg h7] at h
                    exact StepRes.noConfusion h

/-! ## PRL invariants -/

theorem foldl_inv {α β : Type} (P : β → Prop) (f : β → α → β) (l : List α)
    (hf : ∀ b x, x ∈ l → P b → P (f b x)) : ∀ b, P b → P (l.foldl f b) := by
  induction l with
  | nil => intro b hb; exact hb
  | cons x t ih =>
    intro b hb
    exact ih (fun b y hy => hf b y (List.mem_cons_of_mem x hy)) _
      (hf b x (List.mem_cons_self x t) hb)

theorem foldl_prod_fst {α β γ : Type} (f : β × γ → α → β × γ) (g : β → α → β)
    (hfg : ∀ p x, (f p x).1 = g p.1 x) (l : List α) :
    ∀ p, (l.foldl f p).1 = l.foldl g p.1 := by
  induction l with
  | nil => intro p; rfl
  | cons x t ih =>
    intro p
    rw [List.foldl_cons, List.foldl_cons, ih, hfg]

theorem foldl_prod_snd {α β γ : Type} (f : β × γ → α → β × γ) (g : γ → α → γ)
    (hfg : ∀ p x, (f p x).2 = g p.2 x) (l : List α) :
    ∀ p, (l.foldl f p).2 = l.foldl g p.2 := by
  induction l with
  | nil => intro p; rfl
  | cons x t ih =>
    intro p
    rw [List.foldl_cons, List.foldl_cons, ih, hfg]

theorem mem_aupd_or {β : Type} {k : Nat} {d : β} {f : β → β} {l : List (Nat × β)}
    {e : Nat × β} (h : e ∈ aupd k d f l) :
    e ∈ l ∨ ∃ b, e = (k, f b) ∧ (b = d ∨ (k, b) ∈ l) := by
  induction l with
  | nil =>
    simp only [aupd, List.mem_singleton] at h
    exact Or.inr ⟨d, h, Or.inl rfl⟩
  | cons x t ih =>
    obtain ⟨a, c⟩ := x
    unfold aupd at h
    by_cases hak : a = k
    · rw [if_pos hak] at h
      rcases List.mem_cons.mp h with h1 | h1
      · subst hak
        exact Or.inr ⟨c, h1, Or.inr (List.mem_cons_self _ _)⟩
      · exact Or.inl (List.mem_cons_of_mem _ h1)
    · rw [if_neg hak] at h
      rcases List.mem_cons.mp h with h1 | h1
      · exact Or.inl (h1 ▸ List.mem_cons_self _ _)
      · rcases ih h1 with h2 | ⟨b, hb1, hb2⟩
        · exact Or.inl (List.mem_cons_of_mem _ h2)
        · refine Or.inr ⟨b, hb1, ?_⟩
          rcases hb2 with hb2 | hb2
          · exact Or.inl hb2
          · exact Or.inr (List.mem_cons_of_mem _ hb2)

theorem alookup_mem {β : Type} {k : Nat} {l : List (Nat × β)} {v : β}
    (h : alookup k l = some v) : (k, v) ∈ l := by
  induction l with
  | nil => simp [alookup] at h
  | cons e t ih =>
    obtain ⟨a, b⟩ := e
    unfold alookup at h
    by_cases hak : a = k
    · rw [if_pos hak] at h
      subst hak
      cases h
      exact List.mem_cons_self _ _
    · rw [if_neg hak] at h
      exact List.mem_cons_of_mem _ (ih h)

theorem alookup_isSome_of_mem {β : Type} {l : List (Nat × β)} {e : Nat × β}
    (h : e ∈ l) : (alookup e.1 l).isSome := by
  induction l with
  | nil => simp at h
  | cons x t ih =>
    obtain ⟨a, b⟩ := x
    rcases List.mem_cons.mp h with h1 | h1
    · subst h1
      simp [alookup]
    · unfold alookup
      by_cases hak : a = e.1
      · simp [hak]
      · rw [if_neg hak]
        exact ih h1

def WfTable (l : List (Nat × List (Nat × Fr))) : Prop :=
  ∀ be ∈ l, ∀ se ∈ be.2, se.2.wf

theorem WfTable_aget {l : List (Nat × List (Nat × Fr))} (h : WfTable l)
    (bin set : Nat) : (aget set Fr.zero (aget bin [] l)).wf := by
  unfold aget
  cases hb : alookup bin l with
  | none => simp [Fr.wf, Fr.zero, alookup]
  | some t =>
    simp only [Option.getD_some]
    cases hs : alookup set t with
    | none => simp [Fr.wf, Fr.zero]
    | some v =>
      simp only [Option.getD_some]
      exact h (bin, t) (alookup_mem hb) (set, v) (alookup_mem hs)

theorem WfTable_aupd_aset {l : List (Nat × List (Nat × Fr))} (h : WfTable l)
    {bin set : Nat} {v : Fr} (hv : v.wf) :
    WfTable (aupd bin [] (aset set v) l) := by
  intro be hbe se hse
  rcases mem_aupd_or hbe with h1 | ⟨b, hb1, hb2⟩
  · exact h be h1 se hse
  · subst hb1
    simp only at hse
    rcases mem_aset_or hse with h2 | h2
    · subst h2
      exact hv
    · rcases hb2 with rfl | hb2
      · simp at h2
      · exact h (bin, b) hb2 se h2

theorem prlImpact_wf (ctx : PrlCtx) (set_addr bin old new : Nat) :
    (prlImpact ctx set_addr bin old new).wf := by
  unfold prlImpact Fr.wf
  norm_num

theorem prlScan_fst_wf (ctx : PrlCtx) (s : PrlState) (maddr lease : Nat)
    (h : WfTable s.impact_dict) : WfTable (prlScan ctx s maddr lease).1 := by
  unfold prlScan
  refine foldl_inv
    (fun acc : List (Nat × List (Nat × Fr)) × Bool × Nat => WfTable acc.1)
    _ s.bin_saturation ?_ _ h
  intro acc be _ hacc
  refine foldl_inv
    (fun acc : List (Nat × List (Nat × Fr)) × Bool × Nat => WfTable acc.1)
    _ (be.2.map (fun e => e.1)) ?_ _ hacc
  intro acc set _ hacc
  unfold prlScanSet
  by_cases hc : (alookup (maddr + set * 2 ^ 32) (aget be.1 [] ctx.binned_ris)).isSome
  · rw [if_pos hc]
    exact WfTable_aupd_aset hacc (prlImpact_wf ctx _ _ _ _)
  · rw [if_neg hc]
    exact WfTable_aupd_aset hacc (by simp [Fr.wf, Fr.zero])

theorem prlSatAdd_wf (ctx : PrlCtx) (s : PrlState)
    (imp2 : List (Nat × List (Nat × Fr))) (maddr : Nat) (f : Fr → Fr)
    (hsat : WfTable s.bin_saturation) (himp : WfTable imp2)
    (hf : ∀ v, v.wf → (f v).wf) :
    WfTable (prlSatAdd ctx s imp2 maddr f) := by
  unfold prlSatAdd
  refine foldl_inv WfTable _ s.bin_saturation ?_ _ hsat
  intro bs be _ hbs
  refine foldl_inv WfTable _ (be.2.map (fun e => e.1)) ?_ _ hbs
  intro bs set _ hbs
  unfold prlSatSet
  by_cases hc : (alookup (maddr + set * 2 ^ 32) (aget be.1 [] ctx.binned_ris)).isSome
  · rw [if_pos hc]
    exact WfTable_aupd_aset hbs
      (Fr.wf_add (WfTable_aget hsat _ _) (hf _ (WfTable_aget himp _ _)))
  · rw [if_neg hc]
    exact hbs

theorem prlAlphaFold_wf_le (ctx : PrlCtx) (s : PrlState)
    (imp2 : List (Nat × List (Nat × Fr))) (hsat : WfTable s.bin_saturation) :
    (prlAlphaFold ctx s imp2).2.wf ∧ (prlAlphaFold ctx s imp2).2.toQ ≤ 1 := by
  unfold prlAlphaFold
  have hone : (0, Fr.one).2.wf ∧ ((0, Fr.one) : Nat × Fr).2.toQ ≤ 1 := by
    constructor
    · simp [Fr.wf, Fr.one]
    · simp [Fr.toQ_one]
  refine foldl_inv (fun acc : Nat × Fr => acc.2.wf ∧ acc.2.toQ ≤ 1) _
    s.bin_saturation ?_ _ hone
  intro acc be hbe hacc
  refine foldl_inv (fun acc : Nat × Fr => acc.2.wf ∧ acc.2.toQ ≤ 1) _ be.2 ?_ _ hacc
  intro acc se hse hacc
  unfold prlAlphaSet
  by_cases hc : Fr.ble ⟨(binTarget ctx : Int), 1⟩
      (Fr.add se.2 (aget se.1 Fr.zero (aget be.1 [] imp2)))
    ∧ (aget se.1 Fr.zero (aget be.1 [] imp2)).num ≠ 0
  · simp only [if_pos hc]
    have hsa : (Fr.div (Fr.sub ⟨(binTarget ctx : Int), 1⟩ se.2)
        (aget se.1 Fr.zero (aget be.1 [] imp2))).wf :=
      Fr.wf_div (Fr.wf_sub (by simp [Fr.wf]) (hsat be hbe se hse)) hc.2
    refine ⟨Fr.wf_fmin hsa hacc.1, ?_⟩
    rw [Fr.toQ_fmin hsa hacc.1]
    exact le_trans (min_le_right _ _) hacc.2
  · simp only [if_neg hc]
    exact hacc

/-- The per-entry dual-lease property for prl: the dual key carries a lease
strictly below the long lease and an alpha strictly above min_alpha and at
most 1. -/
def PrlDualProp (ma : Fr) (leases : List (Nat × Nat)) (e : Nat × Fr × Nat) : Prop :=
  (∃ sh, alookup e.1 leases = some sh ∧ sh < e.2.2)
    ∧ e.2.1.wf ∧ ma.toQ < e.2.1.toQ ∧ e.2.1.toQ ≤ 1

def PrlInv (ctx : PrlCtx) (ma : Fr) (s : PrlState) : Prop :=
  (∀ e ∈ s.dual_leases, PrlDualProp ma s.leases e)
    ∧ (∀ p ∈ s.ppuc_tree, 1 ≤ p.old_lease ∧ p.old_lease < p.lease ∧ p.ref_id < 2 ^ 32)
    ∧ WfTable s.bin_saturation ∧ WfTable s.impact_dict

theorem mask32_eq_self {x : Nat} (h : x < 2 ^ 32) : mask32 x = x := by
  unfold mask32
  omega

theorem prl_contCase {ctx : PrlCtx} {s X : PrlState} {ma : Fr}
    (hstep : prlStep ctx s = .cont X) (hX : PrlInv ctx ma X) :
    (∀ s2, prlStep ctx s = .cont s2 → PrlInv ctx ma s2)
    ∧ (∀ r, prlStep ctx s = .done r →
        ∀ e ∈ r.dual_leases, PrlDualProp ma r.leases e) := by
  constructor
  · intro s2 h
    rw [hstep] at h
    cases h
    exact hX
  · intro r h
    rw [hstep] at h
    exact PrlRes.noConfusion h

theorem prlStep_inv (ctx : PrlCtx) (s : PrlState) (hd : 1 ≤ ctx.discretize)
    (hinv : PrlInv ctx (minAlpha ctx.discretize) s) :
    (∀ s2, prlStep ctx s = .cont s2 → PrlInv ctx (minAlpha ctx.discretize) s2)
    ∧ (∀ r, prlStep ctx s = .done r →
        ∀ e ∈ r.dual_leases, PrlDualProp (minAlpha ctx.discretize) r.leases e) := by
  obtain ⟨hD, hH, hS, hI⟩ := hinv
  cases hpop : popHeap s.ppuc_tree with
  | none =>
    constructor
    · intro s2 h
      simp only [prlStep, hpop] at h
      exact PrlRes.noConfusion h
    · intro r h
      simp only [prlStep, hpop, PrlRes.done.injEq] at h
      subst h
      exact fun e he => hD e he
  | some pr =>
    obtain ⟨m, rest⟩ := pr
    obtain ⟨hmem, hsub⟩ := popHeap_mem hpop
    have hHm := hH m hmem
    have hrefeq : mask32 m.ref_id = m.ref_id := mask32_eq_self hHm.2.2
    have hinv2 : PrlInv ctx (minAlpha ctx.discretize) { s with ppuc_tree := rest } :=
      ⟨fun e he => hD e he, fun p hp => hH p (hsub p hp), hS, hI⟩
    have hscanwf : WfTable (prlScan ctx { s with ppuc_tree := rest }
        (mask32 m.ref_id) m.lease).1 :=
      prlScan_fst_wf ctx _ _ _ hI
    by_cases h1 : m.old_lease ≠ aget (mask32 m.ref_id) 0 s.leases
    · refine prl_contCase ?_ hinv2
      simp only [prlStep, hpop]
      rw [if_pos h1]
    · by_cases h2 : (alookup (mask32 m.ref_id) s.dual_leases).isSome = true
      · refine prl_contCase ?_ hinv2
        simp only [prlStep, hpop]
        rw [if_neg h1, if_pos h2]
      · by_cases h3 : (prlScan ctx { s with ppuc_tree := rest }
            (mask32 m.ref_id) m.lease).2.1 = true
        · refine prl_contCase
            (X := { s with
              ppuc_tree := rest
              impact_dict := (prlScan ctx { s with ppuc_tree := rest }
                (mask32 m.ref_id) m.lease).1 }) ?_ ?_
          · simp only [prlStep, hpop]
            rw [if_neg h1, if_neg h2, if_pos h3]
          · exact ⟨fun e he => hD e he, fun p hp => hH p (hsub p hp), hS, hscanwf⟩
        · by_cases h4 : (prlScan ctx { s with ppuc_tree := rest }
              (mask32 m.ref_id) m.lease).2.2 < 1
          · -- accept path
            refine prl_contCase
              (X := prlAcceptState ctx m (mask32 m.ref_id)
                (prlScan ctx { s with ppuc_tree := rest }
                  (mask32 m.ref_id) m.lease).1
                { s with ppuc_tree := rest }) ?_ ?_
            · simp only [prlStep, hpop]
              rw [if_neg h1, if_neg h2, if_neg h3, if_pos h4]
            · unfold prlAcceptState
              refine ⟨?_, ?_, ?_, hscanwf⟩
              · intro e he
                obtain ⟨⟨sh, hsh, hlt⟩, hrest⟩ := hD e he
                have hne : mask32 m.ref_id ≠ e.1 := by
                  intro hc
                  rw [hc] at h2
                  exact h2 (alookup_isSome_of_mem he)
                refine ⟨⟨sh, ?_, hlt⟩, hrest⟩
                simp only
                rw [alookup_aset, if_neg hne]
                exact hsh
              · intro p hp
                rcases List.mem_append.mp hp with hp1 | hp1
                · exact hH p (hsub p hp1)
                · obtain ⟨hrid, hold, hlt⟩ := get_ppuc_mem hp1
                  refine ⟨by omega, by omega, ?_⟩
                  rw [hrid]
                  exact hHm.2.2
              · exact prlSatAdd_wf ctx _ _ _ _ hS hscanwf (fun v hv => hv)
          · by_cases h5 : Fr.blt (minAlpha ctx.discretize)
                (if (prlAlphaFold ctx { s with ppuc_tree := rest }
                    (prlScan ctx { s with ppuc_tree := rest }
                      (mask32 m.ref_id) m.lease).1).1 = 0 then
                  (prlAlphaFold ctx { s with ppuc_tree := rest }
                    (prlScan ctx { s with ppuc_tree := rest }
                      (mask32 m.ref_id) m.lease).1).2
                else Fr.zero) = true
            · -- dual path
              have hfa := prlAlphaFold_wf_le ctx { s with ppuc_tree := rest }
                (prlScan ctx { s with ppuc_tree := rest } (mask32 m.ref_id) m.lease).1 hS
              have hratio : (if (prlAlphaFold ctx { s with ppuc_tree := rest }
                    (prlScan ctx { s with ppuc_tree := rest }
                      (mask32 m.ref_id) m.lease).1).1 = 0 then
                  (prlAlphaFold ctx { s with ppuc_tree := rest }
                    (prlScan ctx { s with ppuc_tree := rest }
                      (mask32 m.ref_id) m.lease).1).2
                else Fr.zero).wf ∧
                  (if (prlAlphaFold ctx { s with ppuc_tree := rest }
                      (prlScan ctx { s with ppuc_tree := rest }
                        (mask32 m.ref_id) m.lease).1).1 = 0 then
                    (prlAlphaFold ctx { s with ppuc_tree := rest }
                      (prlScan ctx { s with ppuc_tree := rest }
                        (mask32 m.ref_id) m.lease).1).2
                  else Fr.zero).toQ ≤ 1 := by
                split_ifs
                · exact hfa
                · constructor
                  · simp [Fr.wf, Fr.zero]
                  · simp [Fr.toQ, Fr.zero]
              refine prl_contCase
                (X := prlDualState ctx m (mask32 m.ref_id)
                  (if (prlAlphaFold ctx { s with ppuc_tree := rest }
                      (prlScan ctx { s with ppuc_tree := rest }
                        (mask32 m.ref_id) m.lease).1).1 = 0 then
                    (prlAlphaFold ctx { s with ppuc_tree := rest }
                      (prlScan ctx { s with ppuc_tree := rest }
                        (mask32 m.ref_id) m.lease).1).2
                  else Fr.zero)
                  (prlScan ctx { s with ppuc_tree := rest }
                    (mask32 m.ref_id) m.lease).1
                  { s with ppuc_tree := rest }) ?_ ?_
              · simp only [prlStep, hpop]
                rw [if_neg h1, if_neg h2, if_neg h3, if_neg h4, if_pos h5]
              · unfold prlDualState
                refine ⟨?_, fun p hp => hH p (hsub p hp), ?_, hscanwf⟩
                · intro e he
                  rcases mem_aset_or he with he1 | he1
                  · subst he1
                    push_neg at h1
                    refine ⟨⟨m.old_lease, ?_, hHm.2.1⟩, hratio.1, ?_, hratio.2⟩
                    · simp only
                      rw [← hrefeq, h1]
                      exact aget_pos_lookup (by omega)
                    · exact (Fr.blt_iff (minAlpha_wf hd) hratio.1).mp h5
                  · obtain ⟨⟨sh, hsh, hlt⟩, hrest⟩ := hD e he1
                    exact ⟨⟨sh, hsh, hlt⟩, hrest⟩
                · exact prlSatAdd_wf ctx _ _ _ _ hS hscanwf
                    (fun v hv => Fr.wf_mul hv hratio.1)
            · refine prl_contCase
                (X := { s with
                  ppuc_tree := rest
                  impact_dict := (prlScan ctx { s with ppuc_tree := rest }
                    (mask32 m.ref_id) m.lease).1 }) ?_ ?_
              · simp only [prlStep, hpop]
                rw [if_neg h1, if_neg h2, if_neg h3, if_neg h4, if_neg h5]
              · exact ⟨fun e he => hD e he, fun p hp => hH p (hsub p hp), hS, hscanwf⟩

theorem mem_foldl_append {α β : Type} (f : β → List α) (l : List β) (h0 : List α) :
    ∀ x ∈ l.foldl (fun acc e => acc ++ f e) h0, x ∈ h0 ∨ ∃ e ∈ l, x ∈ f e := by
  induction l generalizing h0 with
  | nil => intro x hx; exact Or.inl hx
  | cons e t ih =>
    intro x hx
    rcases ih (h0 ++ f e) x hx with h1 | ⟨e2, he2, hx2⟩
    · rcases List.mem_append.mp h1 with h2 | h2
      · exact Or.inl h2
      · exact Or.inr ⟨e, List.mem_cons_self e t, h2⟩
    · exact Or.inr ⟨e2, List.mem_cons_of_mem e he2, hx2⟩

theorem ShelInv_init (ctx : ShelCtx) (ma : Fr) : ShelInv ma (shelInit ctx) := by
  have hdual : (shelInit ctx).dual_leases = [] := rfl
  have hdlp : (shelInit ctx).dual_lease_phases = [] := rfl
  refine ⟨?_, ?_, ?_⟩
  · intro e he
    rw [hdual] at he
    simp at he
  · intro e he
    rw [hdual] at he
    simp at he
  · intro p hp
    have hp2 : p ∈ ctx.ri_hists.foldl (fun h e => h ++ get_ppuc e.1 1 e.2) [] := hp
    rcases mem_foldl_append _ ctx.ri_hists [] p hp2 with h1 | ⟨e, _, hx⟩
    · simp at h1
    · obtain ⟨_, hold, hlt⟩ := get_ppuc_mem hx
      omega

theorem shelRun_dual (ctx : ShelCtx) (hmode : ctx.cshel = false)
    (hd : 1 ≤ ctx.discretize) :
    ∀ (fuel : Nat) (s : ShelState) (lr : LeaseResults),
      ShelInv (minAlpha ctx.discretize) s → shelRun ctx fuel s = some lr →
      ∀ e ∈ lr.dual_leases, DualProp (minAlpha ctx.discretize) lr.leases e := by
  intro fuel
  induction fuel with
  | zero => intro s lr _ h; simp [shelRun] at h
  | succ n ih =>
    intro s lr hinv h
    unfold shelRun at h
    cases hstep : shelStep ctx s with
    | done r =>
      rw [hstep] at h
      simp only [Option.some.injEq] at h
      subst h
      exact (shelStep_inv ctx s hmode hd hinv).2 r hstep
    | cont s2 =>
      rw [hstep] at h
      exact ih s2 lr ((shelStep_inv ctx s hmode hd hinv).1 s2 hstep) h

theorem mem_ainsNew_or {β : Type} {k : Nat} {v : β} {l : List (Nat × β)}
    {e : Nat × β} (h : e ∈ ainsNew k v l) : e ∈ l ∨ e = (k, v) := by
  unfold ainsNew at h
  cases hl : alookup k l with
  | some w => rw [hl] at h; exact Or.inl h
  | none =>
    rw [hl] at h
    rcases List.mem_append.mp h with h1 | h1
    · exact Or.inl h1
    · exact Or.inr (by simpa using h1)

theorem WfTable_aupd_ainsNew {l : List (Nat × List (Nat × Fr))} (h : WfTable l)
    {bin set : Nat} {v : Fr} (hv : v.wf) :
    WfTable (aupd bin [] (ainsNew set v) l) := by
  intro be hbe se hse
  rcases mem_aupd_or hbe with h1 | ⟨b, hb1, hb2⟩
  · exact h be h1 se hse
  · subst hb1
    simp only at hse
    rcases mem_ainsNew_or hse with h2 | h2
    · rcases hb2 with rfl | hb2
      · simp at h2
      · exact h (bin, b) hb2 se h2
    · subst h2
      exact hv

theorem WfTable_aupd_addupd {l : List (Nat × List (Nat × Fr))} (h : WfTable l)
    {bin set : Nat} {g : Fr → Fr} (hg : ∀ v, v.wf → (g v).wf) :
    WfTable (aupd bin [] (aupd set Fr.zero g) l) := by
  intro be hbe se hse
  rcases mem_aupd_or hbe with h1 | ⟨b, hb1, hb2⟩
  · exact h be h1 se hse
  · subst hb1
    simp only at hse
    rcases mem_aupd_or hse with h2 | ⟨b2, hc1, hc2⟩
    · rcases hb2 with rfl | hb2
      · simp at h2
      · exact h (bin, b) hb2 se h2
    · subst hc1
      rcases hc2 with rfl | hc2
      · exact hg Fr.zero (by simp [Fr.wf, Fr.zero])
      · rcases hb2 with rfl | hb2
        · simp at hc2
        · exact hg b2 (h (bin, b) hb2 (set, b2) hc2)

theorem prlInitAddr_wf (ctx : PrlCtx)
    (p : List (Nat × List (Nat × Fr)) × List (Nat × List (Nat × Fr))) (addr : Nat)
    (hp : WfTable p.1 ∧ WfTable p.2) :
    WfTable (prlInitAddr ctx p addr).1 ∧ WfTable (prlInitAddr ctx p addr).2 := by
  unfold prlInitAddr
  refine foldl_inv
    (fun p : List (Nat × List (Nat × Fr)) × List (Nat × List (Nat × Fr)) =>
      WfTable p.1 ∧ WfTable p.2) _ _ ?_ p hp
  intro p bin _ hp
  refine foldl_inv
    (fun p : List (Nat × List (Nat × Fr)) × List (Nat × List (Nat × Fr)) =>
      WfTable p.1 ∧ WfTable p.2) _ _ ?_ p hp
  intro p set _ hp
  unfold prlInitSet
  by_cases hc : (alookup addr (aget bin [] ctx.binned_ris)).isSome
  · simp only [if_pos hc]
    exact ⟨WfTable_aupd_addupd hp.1
        (fun v hv => Fr.wf_add hv (prlImpact_wf ctx _ _ _ _)),
      WfTable_aupd_ainsNew hp.2 (by simp [Fr.wf, Fr.zero])⟩
  · simp only [if_neg hc]
    exact ⟨hp.1, WfTable_aupd_ainsNew hp.2 (by simp [Fr.wf, Fr.zero])⟩

theorem PrlInv_init (ctx : PrlCtx) (ma : Fr)
    (hkeys : ∀ e ∈ ctx.ri_hists, e.1 < 2 ^ 32) : PrlInv ctx ma (prlInit ctx) := by
  have hs0 : WfTable ((ctx.binned_freqs.map (fun e => e.1)).foldl (fun bs bin =>
      (List.range (ctx.set_mask + 1)).foldl
        (fun bs set => aupd bin [] (ainsNew set Fr.zero) bs) bs) []) := by
    refine foldl_inv WfTable _ _ ?_ [] (by intro be hbe; simp at hbe)
    intro bs bin _ hbs
    refine foldl_inv WfTable _ _ ?_ bs hbs
    intro bs set _ hbs
    exact WfTable_aupd_ainsNew hbs (by simp [Fr.wf, Fr.zero])
  have hsatimp := foldl_inv
    (fun p : List (Nat × List (Nat × Fr)) × List (Nat × List (Nat × Fr)) =>
      WfTable p.1 ∧ WfTable p.2)
    (prlInitAddr ctx) ((aget 0 [] ctx.binned_freqs).map (fun e => e.1))
    (fun p addr _ hp => prlInitAddr_wf ctx p addr hp)
    (((ctx.binned_freqs.map (fun e => e.1)).foldl (fun bs bin =>
      (List.range (ctx.set_mask + 1)).foldl
        (fun bs set => aupd bin [] (ainsNew set Fr.zero) bs) bs) []), [])
    ⟨hs0, by intro be hbe; simp at hbe⟩
  refine ⟨?_, ?_, hsatimp.1, hsatimp.2⟩
  · intro e he
    have hdual : (prlInit ctx).dual_leases = [] := rfl
    rw [hdual] at he
    simp at he
  · intro p hp
    have hheap : (prlInit ctx).ppuc_tree
        = ctx.ri_hists.foldl (fun h e => h ++ get_ppuc e.1 1 e.2) [] := rfl
    rw [hheap] at hp
    rcases mem_foldl_append _ ctx.ri_hists [] p hp with h1 | ⟨e, hel, hx⟩
    · simp at h1
    · obtain ⟨hrid, hold, hlt⟩ := get_ppuc_mem hx
      refine ⟨by omega, by omega, ?_⟩
      rw [hrid]
      exact hkeys e hel

theorem prlRun_dual (ctx : PrlCtx) (hd : 1 ≤ ctx.discretize) :
    ∀ (fuel : Nat) (s : PrlState) (lr : LeaseResults),
      PrlInv ctx (minAlpha ctx.discretize) s → prlRun ctx fuel s = some lr →
      ∀ e ∈ lr.dual_leases, PrlDualProp (minAlpha ctx.discretize) lr.leases e := by
  intro fuel
  induction fuel with
  | zero => intro s lr _ h; simp [prlRun] at h
  | succ n ih =>
    intro s lr hinv h
    unfold prlRun at h
    cases hstep : prlStep ctx s with
    | done r =>
      rw [hstep] at h
      simp only [Option.some.injEq] at h
      subst h
      exact (prlStep_inv ctx s hd hinv).2 r hstep
    | cont s2 =>
      rw [hstep] at h
      exact ih s2 lr ((prlStep_inv ctx s hd hinv).1 s2 hstep) h

/-- C5 amended: after shel_cshel returns in SHEL mode, every dual_leases
entry refers to a key of leases whose (short) lease is strictly below the
entry's long lease, and its alpha satisfies min_alpha <= alpha <= 1, with
equality at min_alpha attainable (the claimed strict bound fails); after prl
returns on histograms keyed below 2^32 (no set-augmented keys, as with
set_mask 0), every dual_leases entry likewise refers to a key of leases with
a strictly smaller short lease, and min_alpha < alpha <= 1 holds strictly.
In C-SHEL mode the back-adjustment rewrites entries through the unmasked
phase comparison of lease_gen.rs 1194 and is not covered. -/
theorem C5_amended :
    (∀ (ctx : ShelCtx) (fuel : Nat) (lr : LeaseResults),
      ctx.cshel = false → 1 ≤ ctx.discretize →
      shel_cshel ctx fuel = some lr →
      ∀ e ∈ lr.dual_leases,
        (∃ sh, alookup e.1 lr.leases = some sh ∧ sh < e.2.2)
        ∧ e.2.1.wf ∧ (minAlpha ctx.discretize).toQ ≤ e.2.1.toQ ∧ e.2.1.toQ ≤ 1)
    ∧ (∀ (ctx : PrlCtx) (fuel : Nat) (lr : LeaseResults),
      1 ≤ ctx.discretize → (∀ e ∈ ctx.ri_hists, e.1 < 2 ^ 32) →
      prl ctx fuel = some lr →
      ∀ e ∈ lr.dual_leases,
        (∃ sh, alookup e.1 lr.leases = some sh ∧ sh < e.2.2)
        ∧ e.2.1.wf ∧ (minAlpha ctx.discretize).toQ < e.2.1.toQ ∧ e.2.1.toQ ≤ 1) := by
  constructor
  · intro ctx fuel lr hmode hd hrun e he
    exact shelRun_dual ctx hmode hd fuel (shelInit ctx) lr
      (ShelInv_init ctx (minAlpha ctx.discretize)) hrun e he
  · intro ctx fuel lr hd hkeys hrun e he
    exact prlRun_dual ctx hd fuel (prlInit ctx) lr
      (PrlInv_init ctx (minAlpha ctx.discretize) hkeys) hrun e he

/-- A single-set, set-0-keyed PRL context: its only candidate receives a
dual lease with ratio 3/5. -/
def prlOkCtx : PrlCtx :=
  { set_mask := 0
    cache_size := 2
    sample_rate := 1
    discretize := 1
    bin_width := 4
    ri_hists := [(7, [(1, ⟨1, []⟩), (3, ⟨2, []⟩)])]
    samples_per_phase := [(0, 3)]
    binned_ris := [(0, [(7, [(2, 5)])])]
    binned_freqs := [(0, [(7, 1)])] }

theorem C5_amended_witness :
    (shelMinCtx.cshel = false ∧ 1 ≤ shelMinCtx.discretize
      ∧ shel_cshel shelMinCtx 10 = some ((shel_cshel shelMinCtx 10).getD ⟨[], [], [], 0⟩)
      ∧ (∀ e ∈ ((shel_cshel shelMinCtx 10).getD ⟨[], [], [], 0⟩).dual_leases,
          (∃ sh, alookup e.1 ((shel_cshel shelMinCtx 10).getD ⟨[], [], [], 0⟩).leases
              = some sh ∧ sh < e.2.2)
          ∧ e.2.1.wf ∧ (minAlpha shelMinCtx.discretize).toQ ≤ e.2.1.toQ
          ∧ e.2.1.toQ ≤ 1))
    ∧ (1 ≤ prlOkCtx.discretize
      ∧ (∀ e ∈ prlOkCtx.ri_hists, e.1 < 2 ^ 32)
      ∧ prl prlOkCtx 10 = some ((prl prlOkCtx 10).getD ⟨[], [], [], 0⟩)
      ∧ (∀ e ∈ ((prl prlOkCtx 10).getD ⟨[], [], [], 0⟩).dual_leases,
          (∃ sh, alookup e.1 ((prl prlOkCtx 10).getD ⟨[], [], [], 0⟩).leases
              = some sh ∧ sh < e.2.2)
          ∧ e.2.1.wf ∧ (minAlpha prlOkCtx.discretize).toQ < e.2.1.toQ
          ∧ e.2.1.toQ ≤ 1)) :=
  ⟨⟨rfl, by decide, by decide,
    C5_amended.1 shelMinCtx 10 _ rfl (by decide) (by decide)⟩,
   by decide, by decide, by decide,
    C5_amended.2 prlOkCtx 10 _ (by decide) (by decide) (by decide)⟩

/-! ## Cost-budget invariant (single cache set) -/

/-- Every per-phase cost row is the single set-0 cell, within the phase
budget. -/
def CostInv (s : ShelState) : Prop :=
  ∀ pe ∈ s.cost_per_phase, ∃ c, pe.2 = [(0, c)] ∧ c ≤ aget pe.1 0 s.budget_per_phase

/-- The recorded maximal (alpha = 1) cost of the last lease of a phase, set 0. -/
def LlcMax (llc : List (Nat × List (Nat × Nat × Nat × Nat))) (p : Nat) : Nat :=
  (aget 0 (0, 0, 0) (aget p [] llc)).2.1

/-- The facts the back-adjustment scan guarantees for each tentative alpha,
single-set case. -/
def AdjAOK (llc : List (Nat × List (Nat × Nat × Nat × Nat)))
    (budget : List (Nat × Nat)) (nprc : Nat → Nat → Nat) (st : AdjA) : Prop :=
  st.phase_alpha.wf ∧
  (st.adjust = true → ∀ p na, alookup p st.new_alpha = some na →
    na.wf ∧ 0 < nprc p 0
    ∧ (aget 0 (0, 0, 0) (aget p [] llc)).1 ≠ 0
    ∧ 0 < LlcMax llc p
    ∧ aget 0 0 (aget p [] st.new_costs) ≤ aget p 0 budget
    ∧ na.toQ * (LlcMax llc p : ℚ)
        ≤ ((aget p 0 budget - aget 0 0 (aget p [] st.new_costs) : Nat) : ℚ))

theorem pca_eq (llc : List (Nat × List (Nat × Nat × Nat × Nat))) (p : Nat) :
    (match alookup p llc with
     | none => 0
     | some t =>
       match alookup 0 t with
       | none => 0
       | some v => v.1)
      = (aget 0 (0, 0, 0) (aget p [] llc)).1 := by
  unfold aget
  cases alookup p llc with
  | none => simp [alookup]
  | some t =>
    simp only [Option.getD_some]
    cases alookup 0 t with
    | none => simp
    | some v => simp

theorem aget_aset_self {β : Type} (k : Nat) (v d : β) (l : List (Nat × β)) :
    aget k d (aset k v l) = v := by
  unfold aget
  rw [alookup_aset, if_pos rfl]
  rfl

theorem aget_list01 (c : Nat) : aget 0 0 [(0, c)] = c := by
  simp [aget, alookup]

/-- Clamped cost bumps keep every single-set cost row within its budget. -/
theorem bumpClamp_cost (cpp : List (Nat × List (Nat × Nat)))
    (budget : List (Nat × Nat)) (f : Nat → Nat → Nat)
    (h : ∀ pe ∈ cpp, ∃ c, pe.2 = [(0, c)]) :
    ∀ pe ∈ bumpClampCost cpp budget f,
      ∃ c, pe.2 = [(0, c)] ∧ c ≤ aget pe.1 0 budget := by
  intro pe hpe
  unfold bumpClampCost at hpe
  obtain ⟨qe, hq, hmap⟩ := List.mem_map.mp hpe
  obtain ⟨c, hc⟩ := h qe hq
  subst hmap
  rw [hc]
  simp only [List.map_cons, List.map_nil]
  refine ⟨_, rfl, ?_⟩
  by_cases hlt : aget qe.1 0 budget < c + f qe.1 0
  · rw [if_pos hlt]
  · rw [if_neg hlt]
    omega

/-- An accepted candidate keeps every single-set cost row within its budget:
acceptableB checked exactly the bumped set-0 value. -/
theorem addCost_cost (ctx : ShelCtx) (cpp : List (Nat × List (Nat × Nat)))
    (budget : List (Nat × Nat)) (nprc : Nat → Nat → Nat)
    (hacc : acceptableB ctx cpp budget nprc = true)
    (h : ∀ pe ∈ cpp, ∃ c, pe.2 = [(0, c)] ∧ c ≤ aget pe.1 0 budget) :
    ∀ pe ∈ addCost cpp nprc,
      ∃ c, pe.2 = [(0, c)] ∧ c ≤ aget pe.1 0 budget := by
  intro pe hpe
  unfold addCost at hpe
  obtain ⟨qe, hq, hmap⟩ := List.mem_map.mp hpe
  obtain ⟨c, hc, _⟩ := h qe hq
  subst hmap
  rw [hc]
  simp only [List.map_cons, List.map_nil]
  refine ⟨_, rfl, ?_⟩
  unfold acceptableB at hacc
  have h1 := (List.all_eq_true.mp hacc) qe hq
  have h2 := (List.all_eq_true.mp h1) 0
    (List.mem_range.mpr (Nat.succ_le_of_lt (Nat.lt_of_lt_of_le Nat.zero_lt_one
      (Nat.le_add_left 1 ctx.set_mask))))
  have h3 := of_decide_eq_true h2
  rw [hc, aget_list01] at h3
  omega

theorem toQ_natFrac (a b : Nat) : Fr.toQ ⟨(a : Int), (b : Int)⟩ = (a : ℚ) / (b : ℚ) := by
  unfold Fr.toQ
  push_cast
  rfl

/-- The back-adjustment scan of one phase (single cache set) preserves the
scan facts: every tentative alpha passed the remaining-budget test of its
phase against the recorded maximal last-lease cost. -/
theorem adjSets_ok (cpp : List (Nat × List (Nat × Nat)))
    (llc : List (Nat × List (Nat × Nat × Nat × Nat)))
    (budget : List (Nat × Nat)) (ma cpa : Fr) (nprc : Nat → Nat → Nat)
    (p : Nat) (st : AdjA) (h : AdjAOK llc budget nprc st) :
    AdjAOK llc budget nprc (adjSets cpp llc budget ma cpa nprc p st [0]) := by
  obtain ⟨hwf, hcl⟩ := h
  have hone : Fr.one.wf := by decide
  simp only [adjSets, pca_eq]
  set G := aget 0 (0, 0, 0) (aget p [] llc) with hG
  set NC := aget 0 0 (aget p [] cpp) - G.1
    + (Fr.mul ⟨(nprc p 0 : Int), 1⟩ cpa).roundNat with hNC
  by_cases h1 : 0 < nprc p 0
  · rw [if_pos h1]
    by_cases h2 : aget p 0 budget < NC
    · rw [if_pos h2]
      exact ⟨hwf, fun hadj => by simp at hadj⟩
    · rw [if_neg h2]
      by_cases h3 : (if G.1 ≠ 0 then G.2.1 else 0) ≠ 0
      · rw [if_pos h3]
        have hpca : G.1 ≠ 0 := by
          by_contra hc
          exact h3 (if_neg (not_not_intro hc))
        rw [if_pos hpca]
        have hMpos : 0 < G.2.1 := by
          rw [if_pos hpca] at h3
          omega
        set REM := aget p 0 budget - NC with hREM
        set SPA := Fr.fmin Fr.one ⟨(REM : Int), (G.2.1 : Int)⟩ with hSPA
        by_cases h4 : Fr.ble SPA ma = true
        · rw [if_pos h4]
          exact ⟨hwf, fun hadj => by simp at hadj⟩
        · rw [if_neg h4]
          have hvwf : (Fr.mk (REM : Int) (G.2.1 : Int)).wf := by
            show (0 : Int) < (G.2.1 : Int)
            exact_mod_cast hMpos
          have hspawf : SPA.wf := Fr.wf_fmin hone hvwf
          have hfm : (if Fr.blt SPA st.phase_alpha = true then SPA
              else st.phase_alpha) = Fr.fmin SPA st.phase_alpha := rfl
          rw [hfm]
          have hpa2 := fmin_step (a := SPA) (v := st.phase_alpha) hspawf hwf
          refine ⟨hpa2.1, fun hadj q na hna => ?_⟩
          dsimp only at hna
          rw [alookup_aset] at hna
          have hM0 : (0 : ℚ) < (G.2.1 : ℚ) := by exact_mod_cast hMpos
          by_cases hqp : p = q
          · rw [if_pos hqp] at hna
            cases hna
            subst hqp
            refine ⟨hpa2.1, h1, hpca, hMpos, ?_, ?_⟩
            · dsimp only
              rw [aget_aupd, if_pos rfl, aget_aset_self]
              exact Nat.le_of_not_lt h2
            · dsimp only
              rw [aget_aupd, if_pos rfl, aget_aset_self]
              have hSPAle : SPA.toQ ≤ (REM : ℚ) / (G.2.1 : ℚ) := by
                rw [hSPA, Fr.toQ_fmin hone hvwf, toQ_natFrac]
                exact min_le_right _ _
              have hle : Fr.toQ (Fr.fmin SPA st.phase_alpha)
                  ≤ (REM : ℚ) / (G.2.1 : ℚ) := le_trans hpa2.2 hSPAle
              calc Fr.toQ (Fr.fmin SPA st.phase_alpha) * ((G.2.1 : Nat) : ℚ)
                  ≤ ((REM : ℚ) / (G.2.1 : ℚ)) * (G.2.1 : ℚ) :=
                    mul_le_mul_of_nonneg_right hle (le_of_lt hM0)
                _ = (REM : ℚ) := div_mul_cancel₀ _ (ne_of_gt hM0)
          · rw [if_neg hqp] at hna
            have hq := hcl hadj q na hna
            refine ⟨hq.1, hq.2.1, hq.2.2.1, hq.2.2.2.1, ?_, ?_⟩
            · have h5 := hq.2.2.2.2.1
              simpa [aget_aupd, hqp] using h5
            · have h5 := hq.2.2.2.2.2
              simpa [aget_aupd, hqp] using h5
      · rw [if_neg h3]
        refine ⟨hwf, fun hadj q na hna => ?_⟩
        have hq := hcl hadj q na hna
        by_cases hqp : q = p
        · subst hqp
          have hG1 : G.1 ≠ 0 := hq.2.2.1
          have h3b : (if G.1 ≠ 0 then G.2.1 else 0) = 0 := not_not.mp h3
          rw [if_pos hG1] at h3b
          have hlm : 0 < G.2.1 := hq.2.2.2.1
          omega
        · have hpq : p ≠ q := fun hc => hqp hc.symm
          refine ⟨hq.1, hq.2.1, hq.2.2.1, hq.2.2.2.1, ?_, ?_⟩
          · have h5 := hq.2.2.2.2.1
            simpa [aget_aupd, hpq] using h5
          · have h5 := hq.2.2.2.2.2
            simpa [aget_aupd, hpq] using h5
  · rw [if_neg h1]
    refine ⟨hwf, fun hadj q na hna => ?_⟩
    have hq := hcl hadj q na hna
    by_cases hqp : q = p
    · subst hqp
      exact absurd hq.2.1 h1
    · have hpq : p ≠ q := fun hc => hqp hc.symm
      refine ⟨hq.1, hq.2.1, hq.2.2.1, hq.2.2.2.1, ?_, ?_⟩
      · have h5 := hq.2.2.2.2.1
        simpa [aget_aupd, hpq] using h5
      · have h5 := hq.2.2.2.2.2
        simpa [aget_aupd, hpq] using h5

theorem toQ_natOne (a : Nat) : Fr.toQ ⟨(a : Int), 1⟩ = (a : ℚ) := by
  unfold Fr.toQ
  push_cast
  simp

/-- The whole back-adjustment scan satisfies the scan facts (single cache
set). -/
theorem adjPhaseA_ok (ctx : ShelCtx) (cpp : List (Nat × List (Nat × Nat)))
    (llc : List (Nat × List (Nat × Nat × Nat × Nat)))
    (budget : List (Nat × Nat)) (cpa : Fr) (nprc : Nat → Nat → Nat)
    (hset : ctx.set_mask = 0) :
    AdjAOK llc budget nprc (adjPhaseA ctx cpp llc budget cpa nprc) := by
  have hrange : List.range (numSets ctx) = [0] := by
    rw [numSets, hset]
    decide
  unfold adjPhaseA
  rw [hrange]
  refine foldl_inv (AdjAOK llc budget nprc) _ _ ?_ _ ?_
  · intro st p _ hst
    exact adjSets_ok cpp llc budget (minAlpha ctx.discretize) cpa nprc p st hst
  · exact ⟨by decide, fun _ q na hna => by simp [alookup] at hna⟩

/-- The facts carried through the back-adjustment commit loop (single cache
set): every committed cost row stays within its phase budget, and the
recorded maximal last-lease costs are preserved. -/
def AdjBOK (llc0 : List (Nat × List (Nat × Nat × Nat × Nat)))
    (budget : List (Nat × Nat)) (b : AdjB) : Prop :=
  (∀ pe ∈ b.cpp, ∃ c, pe.2 = [(0, c)] ∧ c ≤ aget pe.1 0 budget)
  ∧ ∀ q, LlcMax b.llc q = LlcMax llc0 q

/-- One step of the back-adjustment commit keeps every cost row within its
phase budget: an adjusted phase writes its scanned tentative cost plus the
floored product of its alpha with the recorded maximal last-lease cost,
which the scan bounded by the remaining budget; an unadjusted phase writes
the clamped tentative cost. -/
theorem adjStepB_ok (plv : List (Nat × Nat × Nat)) (budget : List (Nat × Nat))
    (A : AdjA) (m_ref_id : Nat)
    (llc0 : List (Nat × List (Nat × Nat × Nat × Nat))) (nprc : Nat → Nat → Nat)
    (b : AdjB) (p : Nat) (hadj : A.adjust = true)
    (hA : AdjAOK llc0 budget nprc A) (hb : AdjBOK llc0 budget b) :
    AdjBOK llc0 budget (adjStepB plv budget A m_ref_id b p 0) := by
  obtain ⟨hcpp, hllc⟩ := hb
  cases hna : alookup p A.new_alpha with
  | none =>
    set NCA := aget 0 0 (aget p [] A.new_costs) with hNCA
    set V := if aget p 0 budget < NCA then aget p 0 budget else NCA with hV
    have hcppB : (adjStepB plv budget A m_ref_id b p 0).cpp
        = aupd p [] (aset 0 V) b.cpp := by
      unfold adjStepB
      rw [hna]
    have hllcB : (adjStepB plv budget A m_ref_id b p 0).llc = b.llc := by
      unfold adjStepB
      rw [hna]
    have hle : V ≤ aget p 0 budget := by
      rw [hV]
      by_cases hlt : aget p 0 budget < NCA
      · rw [if_pos hlt]
      · rw [if_neg hlt]
        omega
    refine ⟨?_, ?_⟩
    · intro pe hpe
      rw [hcppB] at hpe
      rcases mem_aupd_or hpe with hmem | ⟨b2, hb2, hb2m⟩
      · exact hcpp pe hmem
      · subst hb2
        refine ⟨V, ?_, hle⟩
        show aset 0 V b2 = [(0, V)]
        rcases hb2m with hb2d | hb2m
        · subst hb2d
          rfl
        · obtain ⟨c, hc, _⟩ := hcpp _ hb2m
          rw [show b2 = [(0, c)] from hc]
          rfl
    · intro q
      unfold LlcMax
      rw [hllcB]
      exact hllc q
  | some na =>
    have hq := hA.2 hadj p na hna
    set M := (aget 0 (0, 0, 0) (aget p [] b.llc)).2.1 with hM
    set NCA := aget 0 0 (aget p [] A.new_costs) with hNCA
    set NPC := (Fr.mul ⟨(M : Int), 1⟩ na).floorNat with hNPC
    have hMeq : M = LlcMax llc0 p := hllc p
    have hcppB : (adjStepB plv budget A m_ref_id b p 0).cpp
        = aupd p [] (aset 0 (NCA + NPC)) b.cpp := by
      unfold adjStepB
      rw [hna]
      dsimp only
      by_cases hd : p ∈ b.dlp
      · rw [if_pos hd]
      · rw [if_neg hd]
        by_cases hm : p ≠ m_ref_id / 2 ^ 24
        · rw [if_pos hm]
        · rw [if_neg hm]
    have hllcB : (adjStepB plv budget A m_ref_id b p 0).llc
        = aupd p [] (aset 0 (NPC, M, (aget 0 (0, 0, 0) (aget p [] b.llc)).2.2)) b.llc := by
      unfold adjStepB
      rw [hna]
      dsimp only
      by_cases hd : p ∈ b.dlp
      · rw [if_pos hd]
      · rw [if_neg hd]
        by_cases hm : p ≠ m_ref_id / 2 ^ 24
        · rw [if_pos hm]
        · rw [if_neg hm]
    have hmulwf : (Fr.mul ⟨(M : Int), 1⟩ na).wf := by
      refine Fr.wf_mul ?_ hq.1
      show (0 : Int) < 1
      decide
    have hnpc : NPC ≤ aget p 0 budget - NCA := by
      refine Fr.floorNat_le hmulwf ?_
      rw [Fr.toQ_mul, toQ_natOne, hMeq]
      have h6 := hq.2.2.2.2.2
      calc (LlcMax llc0 p : ℚ) * na.toQ = na.toQ * (LlcMax llc0 p : ℚ) := by ring
        _ ≤ _ := h6
    have hnca : NCA ≤ aget p 0 budget := hq.2.2.2.2.1
    refine ⟨?_, ?_⟩
    · intro pe hpe
      rw [hcppB] at hpe
      rcases mem_aupd_or hpe with hmem | ⟨b2, hb2, hb2m⟩
      · exact hcpp pe hmem
      · subst hb2
        refine ⟨NCA + NPC, ?_, ?_⟩
        · show aset 0 (NCA + NPC) b2 = [(0, NCA + NPC)]
          rcases hb2m with hb2d | hb2m
          · subst hb2d
            rfl
          · obtain ⟨c, hc, _⟩ := hcpp _ hb2m
            rw [show b2 = [(0, c)] from hc]
            rfl
        · show NCA + NPC ≤ aget p 0 budget
          omega
    · intro q
      unfold LlcMax
      rw [hllcB, aget_aupd]
      by_cases hpq : p = q
      · rw [if_pos hpq]
        subst hpq
        rw [aget_aset_self]
        exact hMeq
      · rw [if_neg hpq]
        exact hllc q

/-- The whole back-adjustment commit keeps every cost row within its phase
budget and preserves the recorded maximal last-lease costs (single cache
set). -/
theorem adjPhaseB_ok (ctx : ShelCtx) (plv : List (Nat × Nat × Nat))
    (budget : List (Nat × Nat)) (A : AdjA) (m_ref_id : Nat)
    (llc0 : List (Nat × List (Nat × Nat × Nat × Nat))) (nprc : Nat → Nat → Nat)
    (b0 : AdjB) (hset : ctx.set_mask = 0) (hadj : A.adjust = true)
    (hA : AdjAOK llc0 budget nprc A) (hb : AdjBOK llc0 budget b0) :
    AdjBOK llc0 budget (adjPhaseB ctx plv budget A m_ref_id b0) := by
  have hrange : List.range (numSets ctx) = [0] := by
    rw [numSets, hset]
    decide
  unfold adjPhaseB
  rw [hrange]
  simp only [List.foldl_cons, List.foldl_nil]
  refine foldl_inv (AdjBOK llc0 budget) _ _ ?_ _ hb
  intro b p _ hbp
  exact adjStepB_ok plv budget A m_ref_id llc0 nprc b p hadj hA hbp

/-- Both commit constructors leave cost_per_phase and budget_per_phase
untouched. -/
theorem shelCommit_cost {ctx : ShelCtx} {m : PPUC} {ref_id phase : Nat}
    {alpha : Fr} {nprc : Nat → Nat → Nat} {s3 : ShelState} (h3 : CostInv s3) :
    ∀ s2, shelCommit ctx m ref_id phase alpha nprc s3 = .cont s2 → CostInv s2 := by
  intro s2 h
  simp only [shelCommit] at h
  split at h
  · cases h
    exact fun pe hpe => h3 pe hpe
  · cases h
    exact fun pe hpe => h3 pe hpe

/-- The tentative cost table of the unacceptable path: either the clamped
bump or the unchanged table, in budget either way. -/
theorem ite_cost {c : Prop} [Decidable c] (cpp : List (Nat × List (Nat × Nat)))
    (budget : List (Nat × Nat)) (f : Nat → Nat → Nat)
    (h : ∀ pe ∈ cpp, ∃ c2, pe.2 = [(0, c2)] ∧ c2 ≤ aget pe.1 0 budget) :
    ∀ pe ∈ (if c then bumpClampCost cpp budget f else cpp),
      ∃ c2, pe.2 = [(0, c2)] ∧ c2 ≤ aget pe.1 0 budget := by
  split
  · exact bumpClamp_cost cpp budget f (fun pe hpe => ((h pe hpe).imp (fun c2 hc => hc.1)))
  · exact h

/-- One iteration of shel_cshel keeps every per-phase cost row within its
phase budget, in both modes, on a single cache set: accepted candidates were
budget-checked, alpha bumps are clamped, and the C-SHEL back-adjustment
either fits every phase or refuses to commit. -/
theorem shelStep_cost (ctx : ShelCtx) (s : ShelState) (hset : ctx.set_mask = 0)
    (hinv : CostInv s) :
    ∀ s2, shelStep ctx s = .cont s2 → CostInv s2 := by
  intro s2 h
  cases hpop : popHeap s.ppuc_tree with
  | none =>
    simp only [shelStep, hpop] at h
    exact StepRes.noConfusion h
  | some pr =>
    obtain ⟨m, rest⟩ := pr
    simp only [shelStep, hpop] at h
    have hinv2 : CostInv { s with ppuc_tree := rest } := fun pe hpe => hinv pe hpe
    by_cases h1 : m.old_lease ≠ aget (mask32 m.ref_id) 0 s.leases
    · rw [if_pos h1] at h
      cases h
      exact hinv2
    · rw [if_neg h1] at h
      by_cases h2 : ((List.range (numSets ctx)).any fun st =>
          aget st 0 (aget (mask32 m.ref_id / 2 ^ 24) [] s.cost_per_phase)
            == aget (mask32 m.ref_id / 2 ^ 24) 0 s.budget_per_phase) = true
      · rw [if_pos h2] at h
        cases h
        exact hinv2
      · rw [if_neg h2] at h
        by_cases h3 : (s.dual_lease_phases.length == s.cost_per_phase.length) = true
        · rw [if_pos h3] at h
          exact StepRes.noConfusion h
        · rw [if_neg h3] at h
          by_cases h4 : (mask32 m.ref_id / 2 ^ 24) ∈ s.dual_lease_phases
          · rw [if_pos h4] at h
            cases h
            exact hinv2
          · rw [if_neg h4] at h
            by_cases h5 : acceptableB ctx s.cost_per_phase s.budget_per_phase
                (nprcF ctx (mask32 m.ref_id) (aget (mask32 m.ref_id) 0 s.leases)
                  m.lease) = true
            · rw [if_pos h5] at h
              cases h
              exact fun pe hpe => addCost_cost ctx s.cost_per_phase s.budget_per_phase
                _ h5 (fun qe hq => hinv qe hq) pe hpe
            · rw [if_neg h5] at h
              by_cases h6 : Fr.blt
                  (alphaFoldPhase s.cost_per_phase s.budget_per_phase
                    (nprcF ctx (mask32 m.ref_id) (aget (mask32 m.ref_id) 0 s.leases)
                      m.lease) (mask32 m.ref_id / 2 ^ 24))
                  (minAlpha ctx.discretize) = true
              · rw [if_pos h6] at h
                cases h
                exact hinv2
              · rw [if_neg h6] at h
                set NPRC := nprcF ctx (mask32 m.ref_id)
                  (aget (mask32 m.ref_id) 0 s.leases) m.lease with hNPRC
                set A0 := alphaFold s.cost_per_phase s.budget_per_phase NPRC with hA0
                set CPA := alphaFoldPhase s.cost_per_phase s.budget_per_phase NPRC
                  (mask32 m.ref_id / 2 ^ 24) with hCPA
                set CPP1 := (if Fr.blt (minAlpha ctx.discretize) A0 then
                    bumpClampCost s.cost_per_phase s.budget_per_phase
                      (fun p st => (Fr.mul ⟨(NPRC p st : Int), 1⟩ A0).roundNat)
                  else s.cost_per_phase) with hCPP1
                have hcpp1ok : ∀ pe ∈ CPP1,
                    ∃ c2, pe.2 = [(0, c2)] ∧ c2 ≤ aget pe.1 0 s.budget_per_phase := by
                  rw [hCPP1]
                  exact ite_cost _ _ _ (fun qe hq => hinv qe hq)
                by_cases h7 : (ctx.cshel
                    && !Fr.blt (minAlpha ctx.discretize) A0) = true
                · rw [if_pos h7] at h
                  by_cases h8 : (adjPhaseA ctx CPP1 s.last_lease_cost
                      s.budget_per_phase CPA NPRC).adjust = true
                  · rw [if_pos h8] at h
                    refine shelCommit_cost ?_ s2 h
                    intro pe hpe
                    exact (adjPhaseB_ok ctx _ _ _ _ _ _ _ hset h8
                      (adjPhaseA_ok ctx _ _ _ _ _ hset)
                      ⟨hcpp1ok, fun q => rfl⟩).1 pe hpe
                  · rw [if_neg h8] at h
                    cases h
                    exact hinv2
                · rw [if_neg h7] at h
                  refine shelCommit_cost ?_ s2 h
                  exact fun pe hpe => hcpp1ok pe hpe

/-- The states shel_cshel passes through: the start state and every
successor until the loop returns or fuel runs out. -/
def shelStates (ctx : ShelCtx) : Nat → ShelState → List ShelState
  | 0, s => [s]
  | fuel + 1, s =>
    s :: (match shelStep ctx s with
          | .done _ => []
          | .cont s2 => shelStates ctx fuel s2)

theorem shelRun_costAll (ctx : ShelCtx) (hset : ctx.set_mask = 0) :
    ∀ (fuel : Nat) (s : ShelState), CostInv s →
      ∀ st ∈ shelStates ctx fuel s, CostInv st := by
  intro fuel
  induction fuel with
  | zero =>
    intro s hs st hst
    simp only [shelStates, List.mem_singleton] at hst
    subst hst
    exact hs
  | succ n ih =>
    intro s hs st hst
    simp only [shelStates] at hst
    rcases List.mem_cons.mp hst with h | h
    · subst h
      exact hs
    · cases hstep : shelStep ctx s with
      | done r =>
        rw [hstep] at h
        exact absurd h (List.not_mem_nil st)
      | cont s2 =>
        rw [hstep] at h
        exact ih s2 (shelStep_cost ctx s hset hs s2 hstep) st h

theorem alookup_of_mem_nodup {β : Type} {l : List (Nat × β)} {k : Nat} {v : β}
    (hnd : (l.map (fun e => e.1)).Nodup) (h : (k, v) ∈ l) :
    alookup k l = some v := by
  induction l with
  | nil => simp at h
  | cons e t ih =>
    obtain ⟨a, b⟩ := e
    rcases List.mem_cons.mp h with h1 | h1
    · cases h1
      unfold alookup
      rw [if_pos rfl]
    · unfold alookup
      by_cases hak : a = k
      · subst hak
        exfalso
        have : a ∈ t.map (fun e => e.1) :=
          List.mem_map.mpr ⟨(a, v), h1, rfl⟩
        exact (List.nodup_cons.mp hnd).1 this
      · rw [if_neg hak]
        exact ih (List.nodup_cons.mp hnd).2 h1

/-- The total sample count of one reference histogram. -/
def histCnt (rh : RefHist) : Nat := (rh.map (fun r => r.2.cnt)).sum

/-- The total sample count recorded under phase p across all histogram
keys. -/
def phaseCnt (h : RIHists) (p : Nat) : Nat :=
  (h.map (fun e => if phaseOf e.1 = p then histCnt e.2 else 0)).sum

theorem build_keys (S : List CSample) :
    ∀ e ∈ build_shel_hists S, ∃ sm ∈ S, e.1 = sm.ref := by
  unfold build_shel_hists
  refine foldl_inv (fun h : RIHists => ∀ e ∈ h, ∃ sm ∈ S, e.1 = sm.ref) _ _ ?_ _ ?_
  · intro h sm hsm hh e he
    unfold shelBuildStep at he
    rcases mem_aupd_or he with hmem | ⟨b, hb, _⟩
    · exact hh e hmem
    · subst hb
      exact ⟨sm, hsm, rfl⟩
  · intro e he
    simp at he

theorem build_keys_nodup (S : List CSample) :
    ((build_shel_hists S).map (fun e => e.1)).Nodup := by
  unfold build_shel_hists
  refine foldl_inv (fun h : RIHists => (h.map (fun e => e.1)).Nodup) _ _ ?_ _ ?_
  · intro h sm _ hh
    exact aupd_keys_nodup _ _ _ _ hh
  · simp

theorem shelInit_keys_nodup (ctx : ShelCtx) :
    (((shelInit ctx).cost_per_phase).map (fun e => e.1)).Nodup := by
  have hcp : (shelInit ctx).cost_per_phase = ctx.ri_hists.foldl (fun cpp e =>
      (List.range (numSets ctx)).foldl (fun cpp set =>
        aupd (phaseOf e.1) []
          (fun sets => aupd set 0
            (fun v => v + costFn ctx (phaseOf e.1) (mask32 e.1 + set * 2 ^ 32) 0 1) sets)
          cpp) cpp) [] := by
    simp only [shelInit]
  rw [hcp]
  refine foldl_inv (fun cpp : List (Nat × List (Nat × Nat)) =>
      (cpp.map (fun e => e.1)).Nodup) _ _ ?_ _ ?_
  · intro cpp e _ hcpp
    refine foldl_inv (fun cpp : List (Nat × List (Nat × Nat)) =>
      (cpp.map (fun e => e.1)).Nodup) _ _ ?_ _ hcpp
    intro cpp2 st _ h2
    exact aupd_keys_nodup _ _ _ _ h2
  · simp

/-- On a single cache set the initial cost table has singleton set-0 rows
whose value sums the lease-1 cost of every histogram key of the phase. -/
theorem shelInit_cost_char (ctx : ShelCtx) (hset : ctx.set_mask = 0) :
    (∀ pe ∈ (shelInit ctx).cost_per_phase, ∃ c, pe.2 = [(0, c)])
    ∧ ∀ p, aget 0 0 (aget p [] (shelInit ctx).cost_per_phase)
        = (ctx.ri_hists.map (fun e => if phaseOf e.1 = p
            then costFn ctx (phaseOf e.1) (mask32 e.1 + 0 * 2 ^ 32) 0 1 else 0)).sum := by
  have hrange : List.range (numSets ctx) = [0] := by
    rw [numSets, hset]
    decide
  have hcp : (shelInit ctx).cost_per_phase = ctx.ri_hists.foldl (fun cpp e =>
      aupd (phaseOf e.1) []
        (fun sets => aupd 0 0
          (fun v => v + costFn ctx (phaseOf e.1) (mask32 e.1 + 0 * 2 ^ 32) 0 1) sets)
        cpp) [] := by
    simp only [shelInit]
    rw [hrange]
    simp only [List.foldl_cons, List.foldl_nil]
  have main : ∀ (K : RIHists) (cpp : List (Nat × List (Nat × Nat))),
      (∀ pe ∈ cpp, ∃ c, pe.2 = [(0, c)]) →
      (∀ pe ∈ K.foldl (fun cpp e =>
          aupd (phaseOf e.1) []
            (fun sets => aupd 0 0
              (fun v => v + costFn ctx (phaseOf e.1) (mask32 e.1 + 0 * 2 ^ 32) 0 1) sets)
            cpp) cpp, ∃ c, pe.2 = [(0, c)])
      ∧ ∀ p, aget 0 0 (aget p [] (K.foldl (fun cpp e =>
          aupd (phaseOf e.1) []
            (fun sets => aupd 0 0
              (fun v => v + costFn ctx (phaseOf e.1) (mask32 e.1 + 0 * 2 ^ 32) 0 1) sets)
            cpp) cpp))
          = aget 0 0 (aget p [] cpp)
            + (K.map (fun e => if phaseOf e.1 = p
                then costFn ctx (phaseOf e.1) (mask32 e.1 + 0 * 2 ^ 32) 0 1 else 0)).sum := by
    intro K
    induction K with
    | nil =>
      intro cpp hshape
      exact ⟨hshape, fun p => by simp⟩
    | cons e t ih =>
      intro cpp hshape
      rw [List.foldl_cons]
      have hstep_shape : ∀ pe ∈ aupd (phaseOf e.1) []
          (fun sets => aupd 0 0
            (fun v => v + costFn ctx (phaseOf e.1) (mask32 e.1 + 0 * 2 ^ 32) 0 1) sets)
          cpp, ∃ c, pe.2 = [(0, c)] := by
        intro pe hpe
        rcases mem_aupd_or hpe with hmem | ⟨b, hb, hbm⟩
        · exact hshape pe hmem
        · subst hb
          rcases hbm with hbd | hbm
          · subst hbd
            exact ⟨_, rfl⟩
          · obtain ⟨c, hc⟩ := hshape _ hbm
            rw [show b = [(0, c)] from hc]
            exact ⟨_, rfl⟩
      have ihr := ih _ hstep_shape
      refine ⟨ihr.1, fun p => ?_⟩
      rw [ihr.2 p]
      have hupd : aget 0 0 (aget p [] (aupd (phaseOf e.1) []
          (fun sets => aupd 0 0
            (fun v => v + costFn ctx (phaseOf e.1) (mask32 e.1 + 0 * 2 ^ 32) 0 1) sets)
          cpp))
          = aget 0 0 (aget p [] cpp)
            + (if phaseOf e.1 = p
                then costFn ctx (phaseOf e.1) (mask32 e.1 + 0 * 2 ^ 32) 0 1 else 0) := by
        rw [aget_aupd]
        by_cases hep : phaseOf e.1 = p
        · rw [if_pos hep, if_pos hep]
          subst hep
          rw [aget_aupd, if_pos rfl]
        · rw [if_neg hep, if_neg hep]
          omega
      rw [hupd]
      simp only [List.map_cons, List.sum_cons]
      omega
  rw [hcp]
  obtain ⟨h1, h2⟩ := main ctx.ri_hists [] (by simp)
  refine ⟨h1, fun p => ?_⟩
  rw [h2 p]
  simp [aget, alookup]

theorem spp_val (S : List CSample) (p : Nat) :
    aget p 0 (samplesPerPhase S)
      = (S.map (fun sm => if phaseOf sm.ref = p then 1 else 0)).sum := by
  have main : ∀ (T : List CSample) (m : List (Nat × Nat)),
      aget p 0 (T.foldl (fun m s => aupd (phaseOf s.ref) 0 (fun n => n + 1) m) m)
        = aget p 0 m + (T.map (fun sm => if phaseOf sm.ref = p then 1 else 0)).sum := by
    intro T
    induction T with
    | nil =>
      intro m
      simp
    | cons sm t ih =>
      intro m
      rw [List.foldl_cons, ih]
      have : aget p 0 (aupd (phaseOf sm.ref) 0 (fun n => n + 1) m)
          = aget p 0 m + (if phaseOf sm.ref = p then 1 else 0) := by
        rw [aget_aupd]
        by_cases hep : phaseOf sm.ref = p
        · rw [if_pos hep, if_pos hep]
          subst hep
          rfl
        · rw [if_neg hep, if_neg hep]
          omega
      rw [this]
      simp only [List.map_cons, List.sum_cons]
      omega
  have := main S []
  unfold samplesPerPhase
  rw [this]
  simp [aget, alookup]

theorem build_phaseCnt (S : List CSample) (p : Nat) :
    phaseCnt (build_shel_hists S) p
      = (S.map (fun sm => if phaseOf sm.ref = p then 1 else 0)).sum := by
  have hstep : ∀ (h : RIHists) (sm : CSample),
      phaseCnt (shelBuildStep h sm) p
        = phaseCnt h p + (if phaseOf sm.ref = p then 1 else 0) := by
    intro h sm
    unfold phaseCnt shelBuildStep
    refine sum_map_aupd _ sm.ref [] _ _ h ?_ ?_
    · intro v
      by_cases hep : phaseOf sm.ref = p
      · rw [if_pos hep, if_pos hep, if_pos hep]
        show histCnt (aupd sm.ri ⟨0, []⟩ _ v) = histCnt v + 1
        unfold histCnt
        refine sum_map_aupd _ sm.ri ⟨0, []⟩ _ 1 v ?_ ?_
        · intro w
          rfl
        · rfl
      · rw [if_neg hep, if_neg hep, if_neg hep]
    · by_cases hep : phaseOf sm.ref = p
      · rw [if_pos hep]
        rfl
      · rw [if_neg hep]
  have main : ∀ (T : List CSample) (h : RIHists),
      phaseCnt (T.foldl shelBuildStep h) p
        = phaseCnt h p + (T.map (fun sm => if phaseOf sm.ref = p then 1 else 0)).sum := by
    intro T
    induction T with
    | nil =>
      intro h
      simp
    | cons sm t ih =>
      intro h
      rw [List.foldl_cons, ih, hstep]
      simp only [List.map_cons, List.sum_cons]
      omega
  unfold build_shel_hists
  rw [main]
  simp [phaseCnt]

theorem alookup_cons {β : Type} (a p : Nat) (v : β) (t : List (Nat × β)) :
    alookup p ((a, v) :: t) = if a = p then some v else alookup p t := rfl

theorem alookup_foldl_ainsNew2 {g : Nat → Nat} (l : List (Nat × Nat)) (p : Nat) :
    ∀ b0, alookup p (l.foldl (fun b e => ainsNew e.1 (g e.2) b) b0)
      = (alookup p b0).or ((alookup p l).map g) := by
  induction l with
  | nil =>
    intro b0
    rw [List.foldl_nil]
    cases hb : alookup p b0 <;> simp [hb, alookup, Option.or]
  | cons e t ih =>
    obtain ⟨a, v⟩ := e
    intro b0
    rw [List.foldl_cons, ih, alookup_ainsNew, alookup_cons]
    by_cases hpa : a = p
    · subst hpa
      rw [if_pos rfl, if_pos rfl]
      cases hb : alookup a b0 <;> simp [hb, Option.or]
    · rw [if_neg (fun h => hpa h.symm), if_neg hpa]

theorem shelInit_budget (ctx : ShelCtx) (p : Nat) :
    aget p 0 (shelInit ctx).budget_per_phase
      = ((alookup p ctx.samples_per_phase).map
          (fun n => n * ctx.cache_size / numSets ctx * ctx.sample_rate)).getD 0 := by
  have hb : (shelInit ctx).budget_per_phase = ctx.samples_per_phase.foldl
      (fun b e => ainsNew e.1 (e.2 * ctx.cache_size / numSets ctx * ctx.sample_rate) b)
      [] := by
    simp only [shelInit]
  rw [hb]
  unfold aget
  rw [alookup_foldl_ainsNew2 (g := fun n => n * ctx.cache_size / numSets ctx
    * ctx.sample_rate)]
  simp [alookup, Option.or]

theorem sum_ite_mul_right (h : RIHists) (p r : Nat) :
    (h.map (fun e => if phaseOf e.1 = p then histCnt e.2 * r else 0)).sum
      = phaseCnt h p * r := by
  unfold phaseCnt
  induction h with
  | nil => simp
  | cons e t ih =>
    simp only [List.map_cons, List.sum_cons]
    rw [ih]
    by_cases hep : phaseOf e.1 = p
    · rw [if_pos hep, if_pos hep, Nat.add_mul]
    · rw [if_neg hep, if_neg hep, Nat.zero_add, Nat.zero_add]

/-- For a single-set SHEL run whose histograms and per-phase sample counts
come from one sample trace with 32-bit keys, the initialization satisfies
the cost-budget invariant: each phase starts with at most
count * cache_size * sample_rate cost against a budget of exactly that
product. -/
theorem shelInit_cost (ctx : ShelCtx) (S : List CSample)
    (hset : ctx.set_mask = 0) (hmode : ctx.cshel = false)
    (hh : ctx.ri_hists = build_shel_hists S)
    (hs : ctx.samples_per_phase = samplesPerPhase S)
    (hc : 1 ≤ ctx.cache_size)
    (hrefs : ∀ sm ∈ S, sm.ref < 2 ^ 32) :
    CostInv (shelInit ctx) := by
  obtain ⟨hshape, hval⟩ := shelInit_cost_char ctx hset
  have hknd : ((ctx.ri_hists).map (fun e => e.1)).Nodup := by
    rw [hh]
    exact build_keys_nodup S
  have hkey : ∀ e ∈ ctx.ri_hists, e.1 < 2 ^ 32 := by
    intro e he
    rw [hh] at he
    obtain ⟨sm, hsm, hr⟩ := build_keys S e he
    rw [hr]
    exact hrefs sm hsm
  -- the per-key cost is bounded by the key count times the sample rate
  have hbound : ∀ p, (ctx.ri_hists.map (fun e => if phaseOf e.1 = p
      then costFn ctx (phaseOf e.1) (mask32 e.1 + 0 * 2 ^ 32) 0 1 else 0)).sum
      ≤ phaseCnt ctx.ri_hists p * ctx.sample_rate := by
    intro p
    rw [← sum_ite_mul_right]
    refine List.sum_le_sum ?_
    intro e he
    by_cases hep : phaseOf e.1 = p
    · rw [if_pos hep, if_pos hep]
      have hkeq : mask32 e.1 + 0 * 2 ^ 32 = e.1 := by
        have := hkey e he
        unfold mask32
        omega
      rw [hkeq]
      unfold costFn
      rw [hmode]
      simp only [Bool.false_eq_true, if_false]
      obtain ⟨k, v⟩ := e
      have hv : shel_phase_ref_cost ctx.sample_rate (phaseOf (k, v).1) (k, v).1 0 1
          ctx.ri_hists = (shelCostAt v 1 - shelCostAt v 0) * ctx.sample_rate := by
        unfold shel_phase_ref_cost
        rw [alookup_of_mem_nodup hknd he]
        show (if phaseOf k ≠ phaseOf k then 0
          else (shelCostAt v 1 - shelCostAt v 0) * ctx.sample_rate) = _
        rw [if_neg (by simp)]
      rw [hv]
      refine Nat.mul_le_mul_right _ ?_
      refine le_trans (Nat.sub_le _ _) ?_
      unfold shelCostAt histCnt
      refine List.sum_le_sum ?_
      intro r _
      calc r.2.cnt * min r.1 1 ≤ r.2.cnt * 1 :=
            Nat.mul_le_mul_left _ (min_le_right _ _)
        _ = r.2.cnt := Nat.mul_one _
    · rw [if_neg hep, if_neg hep]
  intro pe hpe
  obtain ⟨c, hc2⟩ := hshape pe hpe
  refine ⟨c, hc2, ?_⟩
  -- the entry value is the characterized sum
  have hlk : alookup pe.1 (shelInit ctx).cost_per_phase = some pe.2 := by
    obtain ⟨k, v⟩ := pe
    exact alookup_of_mem_nodup (shelInit_keys_nodup ctx) hpe
  have hcval : c = (ctx.ri_hists.map (fun e => if phaseOf e.1 = pe.1
      then costFn ctx (phaseOf e.1) (mask32 e.1 + 0 * 2 ^ 32) 0 1 else 0)).sum := by
    have := hval pe.1
    unfold aget at this
    rw [hlk] at this
    simp only [Option.getD_some] at this
    rw [hc2] at this
    rw [← this]
    rw [show alookup 0 [(0, c)] = some c from rfl]
    rfl
  -- the budget value
  rw [shelInit_budget]
  have hcnt : phaseCnt ctx.ri_hists pe.1 = aget pe.1 0 ctx.samples_per_phase := by
    rw [hh, build_phaseCnt, hs, spp_val]
  cases hsp : alookup pe.1 ctx.samples_per_phase with
  | none =>
    have hz : aget pe.1 0 ctx.samples_per_phase = 0 := by
      unfold aget
      rw [hsp]
      rfl
    have hb := hbound pe.1
    rw [hcnt, hz] at hb
    rw [hcval]
    show _ ≤ 0
    omega
  | some n =>
    have hn : aget pe.1 0 ctx.samples_per_phase = n := by
      unfold aget
      rw [hsp]
      rfl
    have hnum : numSets ctx = 1 := by
      rw [numSets, hset]
    show c ≤ n * ctx.cache_size / numSets ctx * ctx.sample_rate
    rw [hnum, Nat.div_one]
    have hb := hbound pe.1
    rw [hcnt, hn] at hb
    rw [hcval]
    calc (ctx.ri_hists.map (fun e => if phaseOf e.1 = pe.1
          then costFn ctx (phaseOf e.1) (mask32 e.1 + 0 * 2 ^ 32) 0 1 else 0)).sum
        ≤ n * ctx.sample_rate := hb
      _ ≤ n * ctx.cache_size * ctx.sample_rate :=
          Nat.mul_le_mul_right _ (Nat.le_mul_of_pos_right _ (by omega))

theorem costInv_iff (s : ShelState) : CostInv s ↔ ∀ pe ∈ s.cost_per_phase,
    pe.2 = [(0, aget 0 0 pe.2)] ∧ aget 0 0 pe.2 ≤ aget pe.1 0 s.budget_per_phase := by
  constructor
  · intro h pe hpe
    obtain ⟨c, hc, hb⟩ := h pe hpe
    rw [hc, aget_list01]
    exact ⟨rfl, hb⟩
  · intro h pe hpe
    obtain ⟨h1, h2⟩ := h pe hpe
    exact ⟨aget 0 0 pe.2, h1, h2⟩

instance (s : ShelState) : Decidable (CostInv s) :=
  decidable_of_iff _ (costInv_iff s).symm

/-- The successor state of a continuing iteration (the identity on a
returning one). -/
def stepContOf (ctx : ShelCtx) (s : ShelState) : ShelState :=
  match shelStep ctx s with
  | .cont s2 => s2
  | .done _ => s

/-- A sample trace on one cache set: address 5 in phase 0 with reuse
intervals 1 and 5, address 6 with reuse interval 1. -/
def shelWSamples : List CSample :=
  [⟨5, 1, 0, 1, 0⟩, ⟨5, 5, 0, 1, 0⟩, ⟨6, 1, 0, 1, 0⟩]

/-- The single-set SHEL context built from that trace. -/
def shelWCtx : ShelCtx :=
  { cshel := false
    set_mask := 0
    cache_size := 2
    sample_rate := 1
    discretize := 1
    ri_hists := build_shel_hists shelWSamples
    samples_per_phase := samplesPerPhase shelWSamples
    phase_ids := [0] }

theorem sum_map_mul_right {α : Type} (f : α → Nat) (r : Nat) (l : List α) :
    (l.map (fun x => f x * r)).sum = (l.map f).sum * r := by
  induction l with
  | nil => simp
  | cons x t ih => simp only [List.map_cons, List.sum_cons, ih, Nat.add_mul]

theorem sum_map_filter_split2 {α : Type} (q : α → Bool) (f : α → Nat) (l : List α) :
    (l.map f).sum
      = ((l.filter q).map f).sum + ((l.filter (fun a => !q a)).map f).sum := by
  induction l with
  | nil => simp
  | cons x t ih =>
    simp only [List.filter_cons, List.map_cons, List.sum_cons]
    by_cases hx : q x = true
    · rw [if_pos hx, if_neg (by simp [hx])]
      simp only [List.map_cons, List.sum_cons]
      omega
    · have hx2 : q x = false := by simpa using hx
      rw [if_neg (by simp [hx2]), if_pos (by simp [hx2])]
      simp only [List.map_cons, List.sum_cons]
      omega

/-- Summing a per-key sample count over distinct keys stays below the total
phase sample count. -/
theorem key_filter_sum (p : Nat) :
    ∀ (H : RIHists) (S : List CSample), (H.map (fun e => e.1)).Nodup →
      (H.map (fun e => if phaseOf e.1 = p
          then ((S.filter (fun sm => sm.ref == e.1)).map
            (fun sm => if phaseOf sm.ref = p then 1 else 0)).sum else 0)).sum
        ≤ (S.map (fun sm => if phaseOf sm.ref = p then 1 else 0)).sum := by
  intro H
  induction H with
  | nil =>
    intro S _
    simp
  | cons e T ih =>
    intro S hnd
    simp only [List.map_cons, List.sum_cons]
    have hkey : e.1 ∉ T.map (fun e2 => e2.1) := (List.nodup_cons.mp hnd).1
    have hsplit := sum_map_filter_split2 (fun sm => sm.ref == e.1)
      (fun sm => if phaseOf sm.ref = p then 1 else 0) S
    have hT : (T.map (fun e2 => if phaseOf e2.1 = p
        then ((S.filter (fun sm => sm.ref == e2.1)).map
          (fun sm => if phaseOf sm.ref = p then 1 else 0)).sum else 0))
        = (T.map (fun e2 => if phaseOf e2.1 = p
        then (((S.filter (fun sm => !(sm.ref == e.1))).filter
            (fun sm => sm.ref == e2.1)).map
          (fun sm => if phaseOf sm.ref = p then 1 else 0)).sum else 0)) := by
      apply List.map_congr_left
      intro e2 he2
      have hne : e2.1 ≠ e.1 := by
        intro hc
        exact hkey (hc ▸ List.mem_map.mpr ⟨e2, he2, rfl⟩)
      have hfil : S.filter (fun sm => sm.ref == e2.1)
          = (S.filter (fun sm => !(sm.ref == e.1))).filter
              (fun sm => sm.ref == e2.1) := by
        rw [List.filter_filter]
        apply List.filter_congr
        intro sm _
        by_cases hsm : sm.ref = e2.1
        · have hsm2 : ¬ sm.ref = e.1 := fun hc => hne (by rw [← hsm, hc])
          simp [hsm, hsm2, hne]
        · simp [hsm]
      rw [hfil]
    have hIH := ih (S.filter (fun sm => !(sm.ref == e.1)))
      (List.nodup_cons.mp hnd).2
    rw [hT]
    have hhead : (if phaseOf e.1 = p
        then ((S.filter (fun sm => sm.ref == e.1)).map
          (fun sm => if phaseOf sm.ref = p then 1 else 0)).sum else 0)
        ≤ ((S.filter (fun sm => sm.ref == e.1)).map
          (fun sm => if phaseOf sm.ref = p then 1 else 0)).sum := by
      split
      · exact le_refl _
      · exact Nat.zero_le _
    omega

theorem build_cshel_keys (S : List CSample) :
    ∀ e ∈ build_cshel_hists S, ∃ sm ∈ S, e.1 = sm.ref := by
  have hhead : ∀ e ∈ buildPass true S [], ∃ sm ∈ S, e.1 = sm.ref := by
    unfold buildPass
    refine foldl_inv (fun h : RIHists => ∀ e ∈ h, ∃ sm ∈ S, e.1 = sm.ref) _ _ ?_ _ ?_
    · intro h sm hsm hh e he
      rw [process_sample_cost_head] at he
      rcases mem_aupd_or he with hmem | ⟨b, hb, _⟩
      · exact hh e hmem
      · subst hb
        exact ⟨sm, hsm, rfl⟩
    · intro e he
      simp at he
  unfold build_cshel_hists buildPass
  refine foldl_inv (fun h : RIHists => ∀ e ∈ h, ∃ sm ∈ S, e.1 = sm.ref) _ _ ?_ _ hhead
  intro h sm hsm hh e he
  rw [process_sample_cost_tail] at he
  rcases mem_aupd_or he with hmem | ⟨b, hb, _⟩
  · exact hh e hmem
  · subst hb
    exact ⟨sm, hsm, rfl⟩

theorem build_cshel_keys_nodup (S : List CSample) :
    ((build_cshel_hists S).map (fun e => e.1)).Nodup := by
  have hhead : ((buildPass true S []).map (fun e => e.1)).Nodup := by
    unfold buildPass
    refine foldl_inv (fun h : RIHists => (h.map (fun e => e.1)).Nodup) _ _ ?_ _ ?_
    · intro h sm _ hh
      rw [process_sample_cost_head]
      exact aupd_keys_nodup _ _ _ _ hh
    · simp
  unfold build_cshel_hists buildPass
  refine foldl_inv (fun h : RIHists => (h.map (fun e => e.1)).Nodup) _ _ ?_ _ hhead
  intro h sm _ hh
  rw [process_sample_cost_tail]
  exact aupd_keys_nodup _ _ _ _ hh

/-- For a single-set C-SHEL run whose histograms come from the two-pass
construction on a sample trace with 32-bit keys whose phase boundaries lie
strictly after the use times, initialization satisfies the cost-budget
invariant: at lease 1 every sample contributes at most one unit of head or
tail cost, charged to the phase of its reference. -/
theorem shelInit_cost_cshel (ctx : ShelCtx) (S : List CSample)
    (hset : ctx.set_mask = 0) (hmode : ctx.cshel = true)
    (hh : ctx.ri_hists = build_cshel_hists S)
    (hs : ctx.samples_per_phase = samplesPerPhase S)
    (hc : 1 ≤ ctx.cache_size)
    (hrefs : ∀ sm ∈ S, sm.ref < 2 ^ 32)
    (hub : ∀ sm ∈ S, sm.u < sm.b) :
    CostInv (shelInit ctx) := by
  obtain ⟨hshape, hval⟩ := shelInit_cost_char ctx hset
  have hknd : ((ctx.ri_hists).map (fun e => e.1)).Nodup := by
    rw [hh]
    exact build_cshel_keys_nodup S
  have hkey : ∀ e ∈ ctx.ri_hists, e.1 < 2 ^ 32 := by
    intro e he
    rw [hh] at he
    obtain ⟨sm, hsm, hr⟩ := build_cshel_keys S e he
    rw [hr]
    exact hrefs sm hsm
  have hbound : ∀ p, (ctx.ri_hists.map (fun e => if phaseOf e.1 = p
      then costFn ctx (phaseOf e.1) (mask32 e.1 + 0 * 2 ^ 32) 0 1 else 0)).sum
      ≤ (S.map (fun sm => if phaseOf sm.ref = p then 1 else 0)).sum
        * ctx.sample_rate := by
    intro p
    have hpoint : ∀ e ∈ ctx.ri_hists,
        (if phaseOf e.1 = p
          then costFn ctx (phaseOf e.1) (mask32 e.1 + 0 * 2 ^ 32) 0 1 else 0)
        ≤ (fun e : Nat × RefHist => (if phaseOf e.1 = p
            then ((S.filter (fun sm => sm.ref == e.1)).map
              (fun sm => if phaseOf sm.ref = p then 1 else 0)).sum else 0)
            * ctx.sample_rate) e := by
      intro e he
      by_cases hep : phaseOf e.1 = p
      · rw [if_pos hep]
        simp only [if_pos hep]
        have hkeq : mask32 e.1 + 0 * 2 ^ 32 = e.1 := by
          have := hkey e he
          unfold mask32
          omega
        rw [hkeq]
        unfold costFn
        rw [hmode]
        simp only [if_true]
        unfold cshel_phase_ref_cost
        cases halk : alookup e.1 ctx.ri_hists with
        | none => exact Nat.zero_le _
        | some rh =>
          show (cshelCostAt rh (phaseOf e.1) 1 - cshelCostAt rh (phaseOf e.1) 0)
              * ctx.sample_rate ≤ _
          refine Nat.mul_le_mul_right _ ?_
          refine le_trans (Nat.sub_le _ _) ?_
          have hrh : refHistOf (build_cshel_hists S) e.1 = rh := by
            unfold refHistOf aget
            rw [← hh, halk]
            rfl
          rw [← hrh, cshelCostAt_build]
          have h12 : ((S.filter (fun sm => sm.ref == e.1)).map
                (fun sm => if sm.ri ≤ 1 then sampleContrib sm (phaseOf e.1) sm.ri
                  else 0)).sum
              + ((S.filter (fun sm => sm.ref == e.1)).map
                (fun sm => if 1 < sm.ri then sampleContrib sm (phaseOf e.1) 1
                  else 0)).sum
              ≤ ((S.filter (fun sm => sm.ref == e.1)).map
                (fun sm => if phaseOf sm.ref = p then 1 else 0)).sum := by
            rw [← sum_map_split]
            refine List.sum_le_sum ?_
            intro sm hsm
            obtain ⟨hsmS, hmemf⟩ := List.mem_filter.mp hsm
            have hre : sm.ref = e.1 := by simpa using hmemf
            have hrefp : phaseOf sm.ref = p := by
              rw [hre]
              exact hep
            have hubs := hub sm hsmS
            rw [if_pos hrefp]
            unfold sampleContrib phaseContrib
            by_cases hri : sm.ri ≤ 1
            · rw [if_pos hri, if_neg (show ¬ 1 < sm.ri by omega)]
              split_ifs <;> omega
            · rw [if_neg hri, if_pos (show 1 < sm.ri by omega)]
              split_ifs <;> omega
          by_cases hex : ∃ sm ∈ S, sm.ref = e.1 ∧ sm.ri = 1
          · rw [if_pos hex]
            omega
          · rw [if_neg hex]
            omega
      · rw [if_neg hep]
        exact Nat.zero_le _
    calc (ctx.ri_hists.map (fun e => if phaseOf e.1 = p
          then costFn ctx (phaseOf e.1) (mask32 e.1 + 0 * 2 ^ 32) 0 1 else 0)).sum
        ≤ (ctx.ri_hists.map (fun e => (if phaseOf e.1 = p
            then ((S.filter (fun sm => sm.ref == e.1)).map
              (fun sm => if phaseOf sm.ref = p then 1 else 0)).sum else 0)
            * ctx.sample_rate)).sum := List.sum_le_sum hpoint
      _ = (ctx.ri_hists.map (fun e => if phaseOf e.1 = p
            then ((S.filter (fun sm => sm.ref == e.1)).map
              (fun sm => if phaseOf sm.ref = p then 1 else 0)).sum else 0)).sum
            * ctx.sample_rate := sum_map_mul_right _ _ _
      _ ≤ (S.map (fun sm => if phaseOf sm.ref = p then 1 else 0)).sum
            * ctx.sample_rate :=
          Nat.mul_le_mul_right _ (key_filter_sum p ctx.ri_hists S hknd)
  intro pe hpe
  obtain ⟨c, hc2⟩ := hshape pe hpe
  refine ⟨c, hc2, ?_⟩
  have hlk : alookup pe.1 (shelInit ctx).cost_per_phase = some pe.2 := by
    obtain ⟨k, v⟩ := pe
    exact alookup_of_mem_nodup (shelInit_keys_nodup ctx) hpe
  have hcval : c = (ctx.ri_hists.map (fun e => if phaseOf e.1 = pe.1
      then costFn ctx (phaseOf e.1) (mask32 e.1 + 0 * 2 ^ 32) 0 1 else 0)).sum := by
    have := hval pe.1
    unfold aget at this
    rw [hlk] at this
    simp only [Option.getD_some] at this
    rw [hc2] at this
    rw [← this]
    rw [show alookup 0 [(0, c)] = some c from rfl]
    rfl
  rw [shelInit_budget]
  have hcnt : (S.map (fun sm => if phaseOf sm.ref = pe.1 then 1 else 0)).sum
      = aget pe.1 0 ctx.samples_per_phase := by
    rw [hs, spp_val]
  cases hsp : alookup pe.1 ctx.samples_per_phase with
  | none =>
    have hz : aget pe.1 0 ctx.samples_per_phase = 0 := by
      unfold aget
      rw [hsp]
      rfl
    have hb := hbound pe.1
    rw [hcnt, hz] at hb
    rw [hcval]
    show _ ≤ 0
    omega
  | some n =>
    have hn : aget pe.1 0 ctx.samples_per_phase = n := by
      unfold aget
      rw [hsp]
      rfl
    have hnum : numSets ctx = 1 := by
      rw [numSets, hset]
    show c ≤ n * ctx.cache_size / numSets ctx * ctx.sample_rate
    rw [hnum, Nat.div_one]
    have hb := hbound pe.1
    rw [hcnt, hn] at hb
    rw [hcval]
    calc (ctx.ri_hists.map (fun e => if phaseOf e.1 = pe.1
          then costFn ctx (phaseOf e.1) (mask32 e.1 + 0 * 2 ^ 32) 0 1 else 0)).sum
        ≤ n * ctx.sample_rate := hb
      _ ≤ n * ctx.cache_size * ctx.sample_rate :=
          Nat.mul_le_mul_right _ (Nat.le_mul_of_pos_right _ (by omega))

/-- The single-set C-SHEL context built from the same trace. -/
def cshelWCtx : ShelCtx :=
  { cshel := true
    set_mask := 0
    cache_size := 2
    sample_rate := 1
    discretize := 1
    ri_hists := build_cshel_hists shelWSamples
    samples_per_phase := samplesPerPhase shelWSamples
    phase_ids := [0] }

/-- C1: on a single cache set, every iteration of shel_cshel preserves
cost_per_phase[p][0] <= budget_per_phase[p][0] in both modes - every commit
path fits within the budget, clamps to it, or refuses the candidate - and
throughout a run (and at its return) in either mode, on histograms and
per-phase sample counts built from one sample trace with 32-bit keys on a
nonzero cache (with phase boundaries after the use times for the C-SHEL
build), every state satisfies the bound for every phase and set; with
several cache sets the bound already fails at initialization. -/
theorem C1_amended :
    (∀ (ctx : ShelCtx) (s : ShelState), ctx.set_mask = 0 → CostInv s →
      ∀ s2, shelStep ctx s = .cont s2 → CostInv s2)
    ∧ (∀ (ctx : ShelCtx) (S : List CSample) (fuel : Nat),
        ctx.set_mask = 0 → ctx.cshel = false →
        ctx.ri_hists = build_shel_hists S →
        ctx.samples_per_phase = samplesPerPhase S →
        1 ≤ ctx.cache_size → (∀ sm ∈ S, sm.ref < 2 ^ 32) →
        ∀ st ∈ shelStates ctx fuel (shelInit ctx),
          ∀ pe ∈ st.cost_per_phase, ∀ se ∈ pe.2,
            se.2 ≤ aget pe.1 0 st.budget_per_phase)
    ∧ ∀ (ctx : ShelCtx) (S : List CSample) (fuel : Nat),
        ctx.set_mask = 0 → ctx.cshel = true →
        ctx.ri_hists = build_cshel_hists S →
        ctx.samples_per_phase = samplesPerPhase S →
        1 ≤ ctx.cache_size → (∀ sm ∈ S, sm.ref < 2 ^ 32) →
        (∀ sm ∈ S, sm.u < sm.b) →
        ∀ st ∈ shelStates ctx fuel (shelInit ctx),
          ∀ pe ∈ st.cost_per_phase, ∀ se ∈ pe.2,
            se.2 ≤ aget pe.1 0 st.budget_per_phase := by
  refine ⟨?_, ?_, ?_⟩
  · intro ctx s hset hinv s2 h
    exact shelStep_cost ctx s hset hinv s2 h
  · intro ctx S fuel hset hmode hh hs hc hrefs st hst pe hpe se hse
    have hinv := shelRun_costAll ctx hset fuel (shelInit ctx)
      (shelInit_cost ctx S hset hmode hh hs hc hrefs) st hst
    obtain ⟨c, hc2, hb⟩ := hinv pe hpe
    rw [hc2] at hse
    rw [List.mem_singleton.mp hse]
    exact hb
  · intro ctx S fuel hset hmode hh hs hc hrefs hub st hst pe hpe se hse
    have hinv := shelRun_costAll ctx hset fuel (shelInit ctx)
      (shelInit_cost_cshel ctx S hset hmode hh hs hc hrefs hub) st hst
    obtain ⟨c, hc2, hb⟩ := hinv pe hpe
    rw [hc2] at hse
    rw [List.mem_singleton.mp hse]
    exact hb

/-- Witness: on the one-set trace context, initialization satisfies the
invariant, the first iteration continues and preserves it, and every state
of the SHEL run and of the C-SHEL run keeps every (phase, set) cost within
the phase budget. -/
theorem C1_amended_witness :
    (shelWCtx.set_mask = 0 ∧ CostInv (shelInit shelWCtx)
      ∧ shelStep shelWCtx (shelInit shelWCtx)
          = .cont (stepContOf shelWCtx (shelInit shelWCtx))
      ∧ CostInv (stepContOf shelWCtx (shelInit shelWCtx)))
    ∧ (shelWCtx.set_mask = 0 ∧ shelWCtx.cshel = false
      ∧ shelWCtx.ri_hists = build_shel_hists shelWSamples
      ∧ shelWCtx.samples_per_phase = samplesPerPhase shelWSamples
      ∧ 1 ≤ shelWCtx.cache_size ∧ (∀ sm ∈ shelWSamples, sm.ref < 2 ^ 32)
      ∧ ∀ st ∈ shelStates shelWCtx 6 (shelInit shelWCtx),
          ∀ pe ∈ st.cost_per_phase, ∀ se ∈ pe.2,
            se.2 ≤ aget pe.1 0 st.budget_per_phase)
    ∧ (cshelWCtx.set_mask = 0 ∧ cshelWCtx.cshel = true
      ∧ cshelWCtx.ri_hists = build_cshel_hists shelWSamples
      ∧ cshelWCtx.samples_per_phase = samplesPerPhase shelWSamples
      ∧ 1 ≤ cshelWCtx.cache_size ∧ (∀ sm ∈ shelWSamples, sm.ref < 2 ^ 32)
      ∧ (∀ sm ∈ shelWSamples, sm.u < sm.b)
      ∧ ∀ st ∈ shelStates cshelWCtx 6 (shelInit cshelWCtx),
          ∀ pe ∈ st.cost_per_phase, ∀ se ∈ pe.2,
            se.2 ≤ aget pe.1 0 st.budget_per_phase) :=
  ⟨⟨rfl, by decide, rfl,
     C1_amended.1 shelWCtx (shelInit shelWCtx) rfl (by decide) _ rfl⟩,
   ⟨rfl, rfl, rfl, rfl, by decide, by decide,
     C1_amended.2.1 shelWCtx shelWSamples 6 rfl rfl rfl rfl (by decide) (by decide)⟩,
   rfl, rfl, rfl, rfl, by decide, by decide, by decide,
     C1_amended.2.2 cshelWCtx shelWSamples 6 rfl rfl rfl rfl (by decide) (by decide)
       (by decide)⟩
